import Mathlib

/-!
Shallow embedding of the search-algorithm engine of the
LearningAlgorithmsTool repository (client/src/lib/algorithms.ts together
with the shared schema helpers gridCellToId / idToGridCell).

Modelling conventions:
* JS numbers are modelled as `ℚ` (all arithmetic performed by the engine is
  exact on the rationals; `Math.sqrt`, used only by the graph heuristic, is
  modelled by an explicit function parameter `sq : ℚ → ℚ`).
* JS `Record<string, T>` objects are modelled as functions `String → Option T`
  (lookup of an absent key is `none`, like `undefined`).
* JS `Set<string>` objects are modelled as insertion-ordered duplicate-free
  `List String` values.
* `while` loops are modelled with an explicit fuel parameter; a run returns
  `none` exactly when the fuel is exhausted.
* Wall-clock time (`performance.now()`) is outside the model and the
  `executionTimeMs` field is omitted from the result record.
-/

namespace SearchViz

set_option maxRecDepth 100000

/-- JS `Math.round`: round half toward positive infinity. -/
def jsRound (q : ℚ) : ℤ := ⌊q + 1/2⌋

/-- Decimal digit character for a value `d < 10`. -/
def digitChar : ℕ → Char
  | 0 => '0' | 1 => '1' | 2 => '2' | 3 => '3' | 4 => '4'
  | 5 => '5' | 6 => '6' | 7 => '7' | 8 => '8' | _ => '9'

/-- Decimal digits, least significant first, with structural fuel (the fuel
is at least the number, which dominates the digit count). -/
def natDigitsRevAux : ℕ → ℕ → List Char
  | _, 0 => []
  | 0, _ + 1 => []
  | fuel + 1, n + 1 => digitChar ((n + 1) % 10) :: natDigitsRevAux fuel ((n + 1) / 10)

/-- Decimal digits of a natural number, least significant first
(empty for 0; the printer special-cases 0). -/
def natDigitsRev (n : ℕ) : List Char := natDigitsRevAux n n

theorem natDigitsRevAux_irrel :
    ∀ (f₁ : ℕ), ∀ n ≤ f₁, ∀ (f₂ : ℕ), n ≤ f₂ → natDigitsRevAux f₁ n = natDigitsRevAux f₂ n := by
  intro f₁
  induction f₁ with
  | zero =>
    intro n hn f₂ _
    interval_cases n
    match f₂ with
    | 0 => rfl
    | m + 1 => rfl
  | succ f ih =>
    intro n hn f₂ hn₂
    match n, f₂ with
    | 0, 0 => rfl
    | 0, m + 1 => rfl
    | k + 1, m + 1 =>
      show digitChar _ :: natDigitsRevAux f ((k + 1) / 10) =
        digitChar _ :: natDigitsRevAux m ((k + 1) / 10)
      have hdiv : (k + 1) / 10 ≤ k := Nat.lt_succ_iff.mp (Nat.div_lt_self (Nat.succ_pos k) (by norm_num))
      rw [ih ((k + 1) / 10) (by omega) m (by omega)]

/-- Unfolding equation for `natDigitsRev` at a positive number. -/
theorem natDigitsRev_succ (n : ℕ) :
    natDigitsRev (n + 1) = digitChar ((n + 1) % 10) :: natDigitsRev ((n + 1) / 10) := by
  show natDigitsRevAux (n + 1) (n + 1) = _
  have hdiv : (n + 1) / 10 ≤ n := Nat.lt_succ_iff.mp (Nat.div_lt_self (Nat.succ_pos n) (by norm_num))
  show digitChar _ :: natDigitsRevAux n ((n + 1) / 10) = _
  rw [natDigitsRevAux_irrel n ((n + 1) / 10) hdiv ((n + 1) / 10) le_rfl]
  rfl

/-- Decimal printing of a natural number, as JS template interpolation
`26` produces for a non-negative integer. -/
def natToStr (n : ℕ) : String :=
  if n = 0 then "0" else ⟨(natDigitsRev n).reverse⟩

/-- Parse a list of decimal digit characters into a number;
`none` when a non-digit occurs.  The accumulator carries the value of the
digits consumed so far. -/
def parseDigitsAux : List Char → ℕ → Option ℕ
  | [], acc => some acc
  | c :: cs, acc =>
    if 48 ≤ c.toNat ∧ c.toNat ≤ 57 then
      parseDigitsAux cs (acc * 10 + (c.toNat - 48))
    else none

/-- Model of JS `Number(component)` restricted to the forms that occur for
grid identifiers: the empty string parses as 0 (as in JS), a non-empty
all-digit string parses as its decimal value, and anything else is NaN,
modelled as `none`. -/
def jsNumComponent (s : String) : Option ℕ :=
  if s = "" then some 0 else parseDigitsAux s.data 0

/-- Split a string at `-` characters, as JS `"s".split("-")`:
`""` yields `[""]`, `"-"` yields `["", ""]`, and so on. -/
def splitDash (s : String) : List String :=
  go s.data []
where
  /-- Walk the characters, accumulating the current component reversed. -/
  go : List Char → List Char → List String
  | [], acc => [⟨acc.reverse⟩]
  | c :: cs, acc =>
    if c = '-' then (⟨acc.reverse⟩ : String) :: go cs []
    else go cs (c :: acc)

/-- Schema helper `gridCellToId`: the id of cell `(row, col)` is
the string `row-col` in decimal. -/
def gridCellToId (row col : ℕ) : String :=
  natToStr row ++ "-" ++ natToStr col

/-- Schema helper `idToGridCell`: split the id on `-` and read the first two
components as numbers.  JS produces NaN coordinates on malformed input
(fewer than two components, or a non-numeric component), modelled as `none`. -/
def idToGridCell (s : String) : Option (ℕ × ℕ) :=
  match splitDash s with
  | r :: c :: _ =>
    match jsNumComponent r, jsNumComponent c with
    | some row, some col => some (row, col)
    | _, _ => none
  | _ => none

/-! ### Round-trip of the grid id encoding -/

theorem parseDigitsAux_append (l₁ l₂ : List Char) (acc : ℕ) :
    (∀ c ∈ l₁, 48 ≤ c.toNat ∧ c.toNat ≤ 57) →
    parseDigitsAux (l₁ ++ l₂) acc =
      parseDigitsAux l₂ (l₁.foldl (fun a c => a * 10 + (c.toNat - 48)) acc) := by
  induction l₁ generalizing acc with
  | nil => intro _; rfl
  | cons c cs ih =>
    intro h
    have hc := h c (List.mem_cons_self _ _)
    simp only [List.cons_append, parseDigitsAux, if_pos hc, List.foldl_cons]
    exact ih _ fun d hd => h d (List.mem_cons_of_mem _ hd)

theorem digitChar_toNat (d : ℕ) (hd : d < 10) : (digitChar d).toNat = 48 + d := by
  interval_cases d <;> decide

theorem natDigitsRev_digits (n : ℕ) :
    ∀ c ∈ natDigitsRev n, 48 ≤ c.toNat ∧ c.toNat ≤ 57 := by
  induction n using Nat.strong_induction_on with
  | _ n ih =>
    match n with
    | 0 => intro c hc; simp [natDigitsRev, natDigitsRevAux] at hc
    | n + 1 =>
      intro c hc
      rw [natDigitsRev_succ] at hc
      rcases List.mem_cons.mp hc with h | h
      · subst h
        have h10 : (n + 1) % 10 < 10 := Nat.mod_lt _ (by norm_num)
        rw [digitChar_toNat _ h10]; omega
      · exact ih ((n + 1) / 10) (Nat.div_lt_self (Nat.succ_pos n) (by norm_num)) c h

theorem natDigitsRev_foldl (n : ℕ) (acc : ℕ) :
    (natDigitsRev n).reverse.foldl (fun a c => a * 10 + (c.toNat - 48)) acc =
      acc * 10 ^ (natDigitsRev n).length + n := by
  induction n using Nat.strong_induction_on generalizing acc with
  | _ n ih =>
    match n with
    | 0 => simp [natDigitsRev, natDigitsRevAux]
    | n + 1 =>
      rw [natDigitsRev_succ]
      have h10 : (n + 1) % 10 < 10 := Nat.mod_lt _ (by norm_num)
      simp only [List.reverse_cons, List.foldl_append, List.foldl_cons, List.foldl_nil,
        List.length_cons]
      rw [ih ((n + 1) / 10) (Nat.div_lt_self (Nat.succ_pos n) (by norm_num)) acc]
      rw [digitChar_toNat _ h10]
      have : 48 + (n + 1) % 10 - 48 = (n + 1) % 10 := by omega
      rw [this]
      have hmod : (n + 1) % 10 + 10 * ((n + 1) / 10) = n + 1 := Nat.mod_add_div _ _
      ring_nf
      omega

theorem parseDigits_natDigitsRev (n : ℕ) :
    parseDigitsAux (natDigitsRev n).reverse 0 = some n := by
  have hd : ∀ c ∈ (natDigitsRev n).reverse, 48 ≤ c.toNat ∧ c.toNat ≤ 57 := by
    intro c hc
    exact natDigitsRev_digits n c (List.mem_reverse.mp hc)
  have := parseDigitsAux_append (natDigitsRev n).reverse [] 0 hd
  simp only [List.append_nil] at this
  rw [this, natDigitsRev_foldl]
  simp [parseDigitsAux]

theorem jsNumComponent_natToStr (n : ℕ) : jsNumComponent (natToStr n) = some n := by
  by_cases h : n = 0
  · subst h; decide
  · rw [natToStr, if_neg h]
    rw [jsNumComponent]
    have hne : (⟨(natDigitsRev n).reverse⟩ : String) ≠ "" := by
      intro hcontra
      have hdata : (natDigitsRev n).reverse = [] := by
        have := congrArg String.data hcontra
        simpa using this
      have hlen : natDigitsRev n = [] := by
        simpa using congrArg List.reverse hdata
      match n, h with
      | m + 1, _ =>
        rw [natDigitsRev_succ] at hlen
        simp at hlen
    rw [if_neg hne]
    exact parseDigits_natDigitsRev n

theorem natDigitsRev_no_dash (n : ℕ) : '-' ∉ natDigitsRev n := by
  intro hc
  have h := natDigitsRev_digits n '-' hc
  have h45 : ('-').toNat = 45 := by decide
  rw [h45] at h
  omega

theorem splitDash_go_no_dash (l : List Char) (acc : List Char) :
    '-' ∉ l → splitDash.go l acc = [⟨acc.reverse ++ l⟩] := by
  induction l generalizing acc with
  | nil => intro _; simp [splitDash.go]
  | cons c cs ih =>
    intro h
    have hc : c ≠ '-' := fun hcc => h (hcc ▸ List.mem_cons_self _ _)
    rw [splitDash.go, if_neg hc, ih (c :: acc) (fun hm => h (List.mem_cons_of_mem _ hm))]
    simp

theorem splitDash_go_encode (b : List Char) (hb : '-' ∉ b) :
    ∀ (a acc : List Char), '-' ∉ a →
      splitDash.go (a ++ '-' :: b) acc = [⟨acc.reverse ++ a⟩, ⟨b⟩]
  | [], acc, _ => by
    rw [List.nil_append, splitDash.go, if_pos rfl, splitDash_go_no_dash b [] hb]
    simp
  | c :: cs, acc, ha => by
    have hc : c ≠ '-' := fun h => ha (h ▸ List.mem_cons_self _ _)
    rw [List.cons_append, splitDash.go, if_neg hc,
      splitDash_go_encode b hb cs (c :: acc) (fun hm => ha (List.mem_cons_of_mem _ hm))]
    simp

theorem splitDash_encode (a b : List Char) (ha : '-' ∉ a) (hb : '-' ∉ b) :
    splitDash ⟨a ++ '-' :: b⟩ = [⟨a⟩, ⟨b⟩] := by
  rw [splitDash]
  rw [show (⟨a ++ '-' :: b⟩ : String).data = a ++ '-' :: b from rfl]
  rw [splitDash_go_encode b hb a [] ha]
  simp

theorem natToStr_no_dash (n : ℕ) : '-' ∉ (natToStr n).data := by
  by_cases h : n = 0
  · subst h; decide
  · rw [natToStr, if_neg h]
    intro hc
    exact natDigitsRev_no_dash n (List.mem_reverse.mp hc)

/-- The grid id encoding decodes back to the cell it was built from. -/
theorem idToGridCell_gridCellToId (r c : ℕ) :
    idToGridCell (gridCellToId r c) = some (r, c) := by
  have h2 : gridCellToId r c = ⟨(natToStr r).data ++ '-' :: (natToStr c).data⟩ := by
    apply String.ext
    show (natToStr r ++ "-" ++ natToStr c).data = _
    rw [String.data_append, String.data_append]
    simp
  have hsplit : splitDash (gridCellToId r c) = [natToStr r, natToStr c] := by
    rw [h2, splitDash_encode _ _ (natToStr_no_dash r) (natToStr_no_dash c)]
  simp only [idToGridCell, hsplit, jsNumComponent_natToStr]

/-- The grid id encoding is injective. -/
theorem gridCellToId_inj (r c r' c' : ℕ) (h : gridCellToId r c = gridCellToId r' c') :
    r = r' ∧ c = c' := by
  have h1 := idToGridCell_gridCellToId r c
  have h2 := idToGridCell_gridCellToId r' c'
  rw [h, h2] at h1
  have h3 := Option.some.inj h1
  exact ⟨(congrArg Prod.fst h3).symm, (congrArg Prod.snd h3).symm⟩

/-! ### Data model (shared schema) -/

/-- Grid cell record from the shared schema. -/
structure GridCell where
  row : ℕ
  col : ℕ
  isObstacle : Bool
  isStart : Bool
  isGoal : Bool
  weight : ℚ
deriving DecidableEq, Repr

/-- Graph node record from the shared schema (label omitted: never read by
the engine; the optional precomputed heuristic is likewise never read). -/
structure GraphNode where
  id : String
  x : ℚ
  y : ℚ
  isStart : Bool
  isGoal : Bool
deriving DecidableEq, Repr

/-- Graph edge record from the shared schema. -/
structure GraphEdge where
  from' : String
  to' : String
  weight : ℚ
deriving DecidableEq, Repr

/-- Grid problem variant. -/
structure GridProblem where
  rows : ℕ
  cols : ℕ
  cells : List GridCell
  startRow : ℕ
  startCol : ℕ
  goalRow : ℕ
  goalCol : ℕ
  allowDiagonal : Bool
deriving DecidableEq, Repr

/-- Graph problem variant. -/
structure GraphProblem where
  nodes : List GraphNode
  edges : List GraphEdge
  startNodeId : String
  goalNodeId : String
  isDirected : Bool
deriving DecidableEq, Repr

/-- The tagged union of the two problem shapes. -/
inductive Problem where
  | grid : GridProblem → Problem
  | graph : GraphProblem → Problem
deriving DecidableEq, Repr

/-! ### Neighbor resolver -/

/-- Direction offsets used by `getGridNeighbors`, in the order written in the
source: with diagonals the three upper offsets, the two horizontal ones, then
the three lower ones; without diagonals up, left, right, down. -/
def gridDirections (allowDiagonal : Bool) : List (ℤ × ℤ) :=
  if allowDiagonal then
    [(-1, -1), (-1, 0), (-1, 1), (0, -1), (0, 1), (1, -1), (1, 0), (1, 1)]
  else
    [(-1, 0), (0, -1), (0, 1), (1, 0)]

/-- One candidate direction of `getGridNeighbors`: bounds check, cell lookup
(first matching cell in the cell list), obstacle check, diagonal cost
1.414 (the source's literal approximation of the square root of 2)
multiplied by the target cell's weight. -/
def gridNeighborOfDir (p : GridProblem) (row col : ℕ) (d : ℤ × ℤ) :
    Option (String × ℚ) :=
  let newRow : ℤ := (row : ℤ) + d.1
  let newCol : ℤ := (col : ℤ) + d.2
  if 0 ≤ newRow ∧ newRow < (p.rows : ℤ) ∧ 0 ≤ newCol ∧ newCol < (p.cols : ℤ) then
    match p.cells.find? (fun c => (c.row : ℤ) = newRow ∧ (c.col : ℤ) = newCol) with
    | some cell =>
      if cell.isObstacle then none
      else
        let cost : ℚ := if |d.1| + |d.2| = 2 then 1414/1000 else 1
        some (gridCellToId newRow.toNat newCol.toNat, cost * cell.weight)
    | none => none
  else none

/-- Unfolding characterization of one direction's candidate. -/
theorem gridNeighborOfDir_some_iff (p : GridProblem) (row col : ℕ) (d : ℤ × ℤ)
    (q : String) (cost : ℚ) :
    gridNeighborOfDir p row col d = some (q, cost) ↔
      (0 ≤ (row : ℤ) + d.1 ∧ (row : ℤ) + d.1 < (p.rows : ℤ) ∧
       0 ≤ (col : ℤ) + d.2 ∧ (col : ℤ) + d.2 < (p.cols : ℤ)) ∧
      ∃ cell, p.cells.find?
          (fun cl => ((cl.row : ℤ) = (row : ℤ) + d.1 ∧ (cl.col : ℤ) = (col : ℤ) + d.2)) =
          some cell ∧
        cell.isObstacle = false ∧
        q = gridCellToId ((row : ℤ) + d.1).toNat ((col : ℤ) + d.2).toNat ∧
        cost = (if |d.1| + |d.2| = 2 then 1414/1000 else 1) * cell.weight := by
  rw [gridNeighborOfDir]
  by_cases hb : 0 ≤ (row : ℤ) + d.1 ∧ (row : ℤ) + d.1 < (p.rows : ℤ) ∧
      0 ≤ (col : ℤ) + d.2 ∧ (col : ℤ) + d.2 < (p.cols : ℤ)
  · rw [if_pos hb]
    cases hfind : p.cells.find?
        (fun cl => ((cl.row : ℤ) = (row : ℤ) + d.1 ∧ (cl.col : ℤ) = (col : ℤ) + d.2)) with
    | none => simp [hb]
    | some cell =>
      by_cases hobs : cell.isObstacle
      · simp [hobs, hb]
      · simp only [Bool.not_eq_true] at hobs
        simp [hobs, hb, and_assoc]
        exact ⟨fun h => ⟨h.1.symm, h.2.symm⟩, fun h => ⟨h.1.symm, h.2.symm⟩⟩
  · rw [if_neg hb]
    simp [hb]

/-- `getGridNeighbors` from the source.  An id whose decode fails gives NaN
coordinates in JS, for which every bounds check is false, so the result is
the empty list; `none` from the decode is mapped accordingly. -/
def getGridNeighbors (p : GridProblem) (nodeId : String) : List (String × ℚ) :=
  match idToGridCell nodeId with
  | none => []
  | some (row, col) =>
    (gridDirections p.allowDiagonal).filterMap (gridNeighborOfDir p row col)

/-- `getGraphNeighbors` from the source: scan the edge list in order; a
matching `from` endpoint contributes `to`, and for undirected problems a
matching `to` endpoint additionally contributes `from`. -/
def getGraphNeighbors (p : GraphProblem) (nodeId : String) : List (String × ℚ) :=
  p.edges.flatMap fun e =>
    (if e.from' = nodeId then [(e.to', e.weight)] else []) ++
    (if ¬p.isDirected ∧ e.to' = nodeId then [(e.from', e.weight)] else [])

/-- `getNeighbors` dispatch on the problem tag. -/
def getNeighbors (p : Problem) (nodeId : String) : List (String × ℚ) :=
  match p with
  | .grid g => getGridNeighbors g nodeId
  | .graph g => getGraphNeighbors g nodeId

/-- `getStartId` from the source. -/
def getStartId (p : Problem) : String :=
  match p with
  | .grid g => gridCellToId g.startRow g.startCol
  | .graph g => g.startNodeId

/-- `getGoalId` from the source. -/
def getGoalId (p : Problem) : String :=
  match p with
  | .grid g => gridCellToId g.goalRow g.goalCol
  | .graph g => g.goalNodeId

/-! ### Heuristic -/

/-- `manhattanDistance` from the source, parametrized by `sq`, the model of
the opaque float primitive `Math.sqrt` used in the graph branch.  For a grid
the decoded coordinates are compared with Manhattan distance; a failed decode
yields NaN in JS, a branch no engine run reaches (every id the engine passes
for a grid problem is produced by `gridCellToId`), modelled as 0.  For a
graph, scaled Euclidean distance when both nodes resolve, otherwise 0. -/
def manhattanDistance (sq : ℚ → ℚ) (nodeId goalId : String) (p : Problem) : ℚ :=
  match p with
  | .grid _ =>
    match idToGridCell nodeId, idToGridCell goalId with
    | some (r, c), some (gr, gc) =>
      ((|(r : ℤ) - gr| + |(c : ℤ) - gc| : ℤ) : ℚ)
    | _, _ => 0
  | .graph g =>
    match g.nodes.find? (fun n => n.id = nodeId), g.nodes.find? (fun n => n.id = goalId) with
    | some cur, some goal => sq ((cur.x - goal.x) ^ 2 + (cur.y - goal.y) ^ 2) / 50
    | _, _ => 0

/-! ### Step snapshots and results -/

/-- A finite map with string keys, as the engine's `Record<string, T>`. -/
def NMap (β : Type) : Type := String → Option β

/-- Update a key, as a JS `map[k] = v` assignment. -/
def NMap.set {β : Type} (m : NMap β) (k : String) (v : β) : NMap β :=
  fun x => if x = k then some v else m x

/-- The empty record. -/
def NMap.empty {β : Type} : NMap β := fun _ => none

/-- One recorded step snapshot (`SearchStep` in the schema).  Snapshots are
deep copies by construction in Lean. -/
structure SearchStep where
  stepNumber : ℕ
  currentNode : String
  frontier : List String
  visited : List String
  parentMap : NMap String
  gValues : NMap ℚ
  hValues : NMap ℚ
  fValues : NMap ℚ
  isComplete : Bool
  foundGoal : Bool
  path : Option (List String)

/-- `createStep` from the source. -/
def createStep (stepNumber : ℕ) (currentNode : String) (frontier : List String)
    (visited : List String) (parentMap : NMap String) (gValues hValues fValues : NMap ℚ)
    (isComplete foundGoal : Bool) (path : Option (List String) := none) : SearchStep :=
  { stepNumber, currentNode, frontier, visited, parentMap, gValues, hValues, fValues,
    isComplete, foundGoal, path }

/-- The result record (`SearchResult` in the schema), without the wall-clock
`executionTimeMs` field, which is outside the model. -/
structure SearchResult where
  algorithm : String
  problem : Problem
  steps : List SearchStep
  finalPath : Option (List String)
  pathCost : Option ℚ
  nodesVisited : ℕ
  memoryUsageKb : ℤ
  success : Bool

/-- JS `Set.add`: append if not present (preserving insertion order). -/
def addSet (s : List String) (x : String) : List String :=
  if x ∈ s then s else s ++ [x]

/-- `reconstructPath` from the source: walk the parent map backward from the
goal, prepending each node; the loop stops at a node with no parent entry or
at the empty string (which is falsy in JS), and the trailing `if (current)`
only prepends a non-empty final node.  The source's `while` loop is modelled
with fuel; callers pass more fuel than the parent chain is long, so the
fuel-exhaustion branch (which returns the accumulated path; in JS the loop
would instead not terminate on a cyclic map) is unreachable in engine runs. -/
def reconstructPathAux (parentMap : NMap String) : ℕ → String → List String → List String
  | 0, _, acc => acc
  | fuel + 1, current, acc =>
    if current = "" then acc
    else
      match parentMap current with
      | some nxt => reconstructPathAux parentMap fuel nxt (current :: acc)
      | none => current :: acc

/-- Entry point of `reconstructPath`; `fuel` bounds the walk. -/
def reconstructPath (parentMap : NMap String) (goalId : String) (fuel : ℕ) : List String :=
  reconstructPathAux parentMap fuel goalId []

/-! ### Priority queue

The source's `PriorityQueue` stores `(item, priority)` pairs and re-sorts the
backing array with a stable sort on every `enqueue`; `dequeue` shifts the
first element.  A stable sort is modelled with `List.insertionSort`. -/

/-- Order on queue entries: by priority. -/
def prioLE (a b : String × ℚ) : Prop := a.2 ≤ b.2

instance : DecidableRel prioLE := fun a b => inferInstanceAs (Decidable (a.2 ≤ b.2))

/-- `enqueue`: push the pair and stable-sort by priority. -/
def pqEnqueue (q : List (String × ℚ)) (item : String) (priority : ℚ) :
    List (String × ℚ) :=
  List.insertionSort prioLE (q ++ [(item, priority)])

/-- `toArray`: the queued items in order. -/
def pqToArray (q : List (String × ℚ)) : List String := q.map Prod.fst

/-! ### Loop combinator

Every `while` loop of the engine is expressed as a step function from a state
to either a successor state or a final result, iterated with fuel.  The IDA*
outer loop can additionally abort when its inner recursion runs out of its own
fuel, hence the `Option` around the step result. -/

/-- Iterate a step function; `none` when the fuel runs out or a step aborts. -/
def iterate {S R : Type} (f : S → Option (S ⊕ R)) : ℕ → S → Option R
  | 0, _ => none
  | fuel + 1, s =>
    match f s with
    | none => none
    | some (.inr r) => some r
    | some (.inl s') => iterate f fuel s'

/-- A step that yields a result finishes `iterate` regardless of remaining fuel. -/
theorem iterate_inr {S R : Type} (f : S → Option (S ⊕ R)) (s : S) (r : R)
    (h : f s = some (.inr r)) (n : ℕ) : iterate f (n + 1) s = some r := by
  simp [iterate, h]

/-- Unfold one `iterate` step. -/
theorem iterate_inl {S R : Type} (f : S → Option (S ⊕ R)) (s s' : S)
    (h : f s = some (.inl s')) (n : ℕ) : iterate f (n + 1) s = iterate f n s' := by
  simp [iterate, h]

/-- Invariant transport for `iterate`: an invariant preserved by `.inl` steps
and implying a property of `.inr` results carries to the final result. -/
theorem iterate_invariant {S R : Type} {f : S → Option (S ⊕ R)} {Inv : S → Prop}
    {P : R → Prop}
    (hstep : ∀ s s', Inv s → f s = some (.inl s') → Inv s')
    (hdone : ∀ s r, Inv s → f s = some (.inr r) → P r) :
    ∀ (n : ℕ) (s : S) (r : R), Inv s → iterate f n s = some r → P r := by
  intro n
  induction n with
  | zero => intro s r _ h; simp [iterate] at h
  | succ n ih =>
    intro s r hs h
    rw [iterate] at h
    match hf : f s with
    | none => rw [hf] at h; simp at h
    | some (.inr r') =>
      rw [hf] at h; simp at h
      exact h ▸ hdone s r' hs hf
    | some (.inl s') =>
      rw [hf] at h; simp at h
      exact ih s' r (hstep s s' hs hf) h

/-! ### BFS -/

/-- Loop state of `runBFS`. -/
structure BfsSt where
  queue : List String
  visited : List String
  parentMap : NMap String
  steps : List SearchStep
  stepNumber : ℕ

/-- Failure result shared by the exhaustion branch of `runBFS`. -/
def bfsFailure (p : Problem) (s : BfsSt) : SearchResult :=
  { algorithm := "bfs", problem := p, steps := s.steps, finalPath := none,
    pathCost := none, nodesVisited := s.visited.length,
    memoryUsageKb := jsRound ((s.visited.length * 100 : ℚ) / 1024), success := false }

/-- The neighbor loop of `runBFS`: push each neighbor that is neither visited
nor already queued, recording its parent; the queue membership test sees the
pushes made earlier in the same loop, so the queue is threaded. -/
def bfsExpand (current : String) (visited : List String) :
    List (String × ℚ) → List String → NMap String → List String × NMap String
  | [], q, pm => (q, pm)
  | (id, _) :: rest, q, pm =>
    if id ∉ visited ∧ id ∉ q then
      bfsExpand current visited rest (q ++ [id]) (pm.set id current)
    else
      bfsExpand current visited rest q pm

/-- One iteration of the `runBFS` while loop. -/
def bfsStep (p : Problem) (goalId : String) (s : BfsSt) :
    Option (BfsSt ⊕ SearchResult) :=
  some <|
    match s.queue with
    | [] => .inr (bfsFailure p s)
    | current :: rest =>
      if current ∈ s.visited then .inl { s with queue := rest }
      else
        let visited' := addSet s.visited current
        if current = goalId then
          let path := reconstructPath s.parentMap goalId (visited'.length + 1)
          let step := createStep s.stepNumber current rest visited' s.parentMap
            NMap.empty NMap.empty NMap.empty true true (some path)
          .inr { algorithm := "bfs", problem := p, steps := s.steps ++ [step],
                 finalPath := some path, pathCost := some ((path.length : ℚ) - 1),
                 nodesVisited := visited'.length,
                 memoryUsageKb := jsRound ((visited'.length * 100 : ℚ) / 1024),
                 success := true }
        else
          let (queue', pm') := bfsExpand current visited' (getNeighbors p current)
            rest s.parentMap
          let step := createStep s.stepNumber current queue' visited' pm'
            NMap.empty NMap.empty NMap.empty false false
          .inl { queue := queue', visited := visited', parentMap := pm',
                 steps := s.steps ++ [step], stepNumber := s.stepNumber + 1 }

/-- `runBFS` from the source, with fuel bounding the loop. -/
def runBFS (p : Problem) (fuel : ℕ) : Option SearchResult :=
  let startId := getStartId p
  let step0 := createStep 0 startId [startId] [] NMap.empty
    NMap.empty NMap.empty NMap.empty false false
  iterate (bfsStep p (getGoalId p)) fuel
    { queue := [startId], visited := [], parentMap := NMap.empty,
      steps := [step0], stepNumber := 1 }

/-! ### DFS -/

/-- Loop state of `runDFS`; the stack is a JS array whose last element is the
top. -/
structure DfsSt where
  stack : List String
  visited : List String
  parentMap : NMap String
  steps : List SearchStep
  stepNumber : ℕ

/-- Failure result of `runDFS`. -/
def dfsFailure (p : Problem) (s : DfsSt) : SearchResult :=
  { algorithm := "dfs", problem := p, steps := s.steps, finalPath := none,
    pathCost := none, nodesVisited := s.visited.length,
    memoryUsageKb := jsRound ((s.visited.length * 100 : ℚ) / 1024), success := false }

/-- The neighbor loop of `runDFS`, iterated over the reversed neighbor list:
push each unvisited neighbor and record its parent only when the existing
entry is absent or falsy (the JS `if (!parentMap[id])` check, for which an
empty-string parent is also falsy). -/
def dfsExpand (current : String) (visited : List String) :
    List (String × ℚ) → List String → NMap String → List String × NMap String
  | [], st, pm => (st, pm)
  | (id, _) :: rest, st, pm =>
    if id ∉ visited then
      let pm' :=
        match pm id with
        | none => pm.set id current
        | some v => if v = "" then pm.set id current else pm
      dfsExpand current visited rest (st ++ [id]) pm'
    else
      dfsExpand current visited rest st pm

/-- One iteration of the `runDFS` while loop (`pop` takes the last element). -/
def dfsStep (p : Problem) (goalId : String) (s : DfsSt) :
    Option (DfsSt ⊕ SearchResult) :=
  some <|
    match s.stack.getLast? with
    | none => .inr (dfsFailure p s)
    | some current =>
      let rest := s.stack.dropLast
      if current ∈ s.visited then .inl { s with stack := rest }
      else
        let visited' := addSet s.visited current
        if current = goalId then
          let path := reconstructPath s.parentMap goalId (visited'.length + 1)
          let step := createStep s.stepNumber current rest visited' s.parentMap
            NMap.empty NMap.empty NMap.empty true true (some path)
          .inr { algorithm := "dfs", problem := p, steps := s.steps ++ [step],
                 finalPath := some path, pathCost := some ((path.length : ℚ) - 1),
                 nodesVisited := visited'.length,
                 memoryUsageKb := jsRound ((visited'.length * 100 : ℚ) / 1024),
                 success := true }
        else
          let (stack', pm') := dfsExpand current visited'
            (getNeighbors p current).reverse rest s.parentMap
          let step := createStep s.stepNumber current stack' visited' pm'
            NMap.empty NMap.empty NMap.empty false false
          .inl { stack := stack', visited := visited', parentMap := pm',
                 steps := s.steps ++ [step], stepNumber := s.stepNumber + 1 }

/-- `runDFS` from the source. -/
def runDFS (p : Problem) (fuel : ℕ) : Option SearchResult :=
  let startId := getStartId p
  let step0 := createStep 0 startId [startId] [] NMap.empty
    NMap.empty NMap.empty NMap.empty false false
  iterate (dfsStep p (getGoalId p)) fuel
    { stack := [startId], visited := [], parentMap := NMap.empty,
      steps := [step0], stepNumber := 1 }

/-! ### UCS -/

/-- Loop state of `runUCS`. -/
structure UcsSt where
  pq : List (String × ℚ)
  visited : List String
  parentMap : NMap String
  gValues : NMap ℚ
  steps : List SearchStep
  stepNumber : ℕ

/-- Failure result of `runUCS`. -/
def ucsFailure (p : Problem) (s : UcsSt) : SearchResult :=
  { algorithm := "ucs", problem := p, steps := s.steps, finalPath := none,
    pathCost := none, nodesVisited := s.visited.length,
    memoryUsageKb := jsRound ((s.visited.length * 100 : ℚ) / 1024), success := false }

/-- The relaxation loop of `runUCS`: for each unvisited neighbor whose
tentative cost improves (or whose cost is still undefined), update cost and
parent and enqueue. -/
def ucsRelax (current : String) (gCur : ℚ) (visited : List String) :
    List (String × ℚ) → List (String × ℚ) → NMap String → NMap ℚ →
      List (String × ℚ) × NMap String × NMap ℚ
  | [], pq, pm, gv => (pq, pm, gv)
  | (id, cost) :: rest, pq, pm, gv =>
    if id ∉ visited then
      let newG := gCur + cost
      let improves : Bool :=
        match gv id with
        | none => true
        | some g => decide (newG < g)
      if improves then
        ucsRelax current gCur visited rest (pqEnqueue pq id newG)
          (pm.set id current) (gv.set id newG)
      else
        ucsRelax current gCur visited rest pq pm gv
    else
      ucsRelax current gCur visited rest pq pm gv

/-- One iteration of the `runUCS` while loop.  The read of
`gValues[current]` is always defined in a run (`current` was enqueued with a
cost); the `getD 0` default is unreachable there (in JS an absent key would
propagate NaN instead). -/
def ucsStep (p : Problem) (goalId : String) (s : UcsSt) :
    Option (UcsSt ⊕ SearchResult) :=
  some <|
    match s.pq with
    | [] => .inr (ucsFailure p s)
    | (current, _) :: rest =>
      if current ∈ s.visited then .inl { s with pq := rest }
      else
        let visited' := addSet s.visited current
        if current = goalId then
          let path := reconstructPath s.parentMap goalId (visited'.length + 1)
          let step := createStep s.stepNumber current (pqToArray rest) visited'
            s.parentMap s.gValues NMap.empty NMap.empty true true (some path)
          .inr { algorithm := "ucs", problem := p, steps := s.steps ++ [step],
                 finalPath := some path, pathCost := s.gValues goalId,
                 nodesVisited := visited'.length,
                 memoryUsageKb := jsRound ((visited'.length * 100 : ℚ) / 1024),
                 success := true }
        else
          let gCur := (s.gValues current).getD 0
          let (pq', pm', gv') := ucsRelax current gCur visited'
            (getNeighbors p current) rest s.parentMap s.gValues
          let step := createStep s.stepNumber current (pqToArray pq') visited' pm'
            gv' NMap.empty NMap.empty false false
          .inl { pq := pq', visited := visited', parentMap := pm', gValues := gv',
                 steps := s.steps ++ [step], stepNumber := s.stepNumber + 1 }

/-- `runUCS` from the source. -/
def runUCS (p : Problem) (fuel : ℕ) : Option SearchResult :=
  let startId := getStartId p
  let gv0 : NMap ℚ := NMap.empty.set startId 0
  let step0 := createStep 0 startId [startId] [] NMap.empty
    gv0 NMap.empty NMap.empty false false
  iterate (ucsStep p (getGoalId p)) fuel
    { pq := [(startId, 0)], visited := [], parentMap := NMap.empty, gValues := gv0,
      steps := [step0], stepNumber := 1 }

/-! ### Greedy best-first -/

/-- Loop state of `runGreedy`. -/
structure GreedySt where
  pq : List (String × ℚ)
  visited : List String
  parentMap : NMap String
  hValues : NMap ℚ
  gValues : NMap ℚ
  steps : List SearchStep
  stepNumber : ℕ

/-- Failure result of `runGreedy`. -/
def greedyFailure (p : Problem) (s : GreedySt) : SearchResult :=
  { algorithm := "greedy", problem := p, steps := s.steps, finalPath := none,
    pathCost := none, nodesVisited := s.visited.length,
    memoryUsageKb := jsRound ((s.visited.length * 100 : ℚ) / 1024), success := false }

/-- The recomputation of the path cost performed by `runGreedy` on success:
for every consecutive pair along the path, look up the first resolver entry
for the target and add its cost (a missing entry adds nothing). -/
def greedyPathCost (p : Problem) (path : List String) : ℚ :=
  (path.zip path.tail).foldl
    (fun acc pair =>
      match (getNeighbors p pair.1).find? (fun n => n.1 = pair.2) with
      | some e => acc + e.2
      | none => acc)
    0

/-- The expansion loop of `runGreedy`: every unvisited neighbor gets its
heuristic recorded, an accumulated cost (defaulting a missing
`gValues[current]` to 0 via JS `||`), a parent, and a queue entry keyed by
the heuristic — all unconditionally. -/
def greedyExpand (sq : ℚ → ℚ) (p : Problem) (goalId current : String) (gCur : ℚ)
    (visited : List String) :
    List (String × ℚ) → List (String × ℚ) → NMap String → NMap ℚ → NMap ℚ →
      List (String × ℚ) × NMap String × NMap ℚ × NMap ℚ
  | [], pq, pm, hv, gv => (pq, pm, hv, gv)
  | (id, cost) :: rest, pq, pm, hv, gv =>
    if id ∉ visited then
      let hVal := manhattanDistance sq id goalId p
      greedyExpand sq p goalId current gCur visited rest
        (pqEnqueue pq id hVal) (pm.set id current) (hv.set id hVal)
        (gv.set id (gCur + cost))
    else
      greedyExpand sq p goalId current gCur visited rest pq pm hv gv

/-- One iteration of the `runGreedy` while loop. -/
def greedyStep (sq : ℚ → ℚ) (p : Problem) (goalId : String) (s : GreedySt) :
    Option (GreedySt ⊕ SearchResult) :=
  some <|
    match s.pq with
    | [] => .inr (greedyFailure p s)
    | (current, _) :: rest =>
      if current ∈ s.visited then .inl { s with pq := rest }
      else
        let visited' := addSet s.visited current
        if current = goalId then
          let path := reconstructPath s.parentMap goalId (visited'.length + 1)
          let pathCost := greedyPathCost p path
          let step := createStep s.stepNumber current (pqToArray rest) visited'
            s.parentMap s.gValues s.hValues s.hValues true true (some path)
          .inr { algorithm := "greedy", problem := p, steps := s.steps ++ [step],
                 finalPath := some path, pathCost := some pathCost,
                 nodesVisited := visited'.length,
                 memoryUsageKb := jsRound ((visited'.length * 100 : ℚ) / 1024),
                 success := true }
        else
          let gCur := (s.gValues current).getD 0
          let (pq', pm', hv', gv') := greedyExpand sq p goalId current gCur visited'
            (getNeighbors p current) rest s.parentMap s.hValues s.gValues
          let step := createStep s.stepNumber current (pqToArray pq') visited' pm'
            gv' hv' hv' false false
          .inl { pq := pq', visited := visited', parentMap := pm', hValues := hv',
                 gValues := gv', steps := s.steps ++ [step],
                 stepNumber := s.stepNumber + 1 }

/-- `runGreedy` from the source. -/
def runGreedy (sq : ℚ → ℚ) (p : Problem) (fuel : ℕ) : Option SearchResult :=
  let startId := getStartId p
  let goalId := getGoalId p
  let h := manhattanDistance sq startId goalId p
  let hv0 : NMap ℚ := NMap.empty.set startId h
  let gv0 : NMap ℚ := NMap.empty.set startId 0
  let step0 := createStep 0 startId [startId] [] NMap.empty gv0 hv0 hv0 false false
  iterate (greedyStep sq p goalId) fuel
    { pq := pqEnqueue [] startId h, visited := [], parentMap := NMap.empty,
      hValues := hv0, gValues := gv0, steps := [step0], stepNumber := 1 }

/-! ### A* -/

/-- Loop state of `runAStar`. -/
structure AStarSt where
  pq : List (String × ℚ)
  visited : List String
  parentMap : NMap String
  gValues : NMap ℚ
  hValues : NMap ℚ
  fValues : NMap ℚ
  steps : List SearchStep
  stepNumber : ℕ

/-- Failure result of `runAStar`. -/
def astarFailure (p : Problem) (s : AStarSt) : SearchResult :=
  { algorithm := "astar", problem := p, steps := s.steps, finalPath := none,
    pathCost := none, nodesVisited := s.visited.length,
    memoryUsageKb := jsRound ((s.visited.length * 100 : ℚ) / 1024), success := false }

/-- The relaxation loop of `runAStar`: as in UCS, but the improving neighbor
also gets heuristic and f values and is queued by f. -/
def astarRelax (sq : ℚ → ℚ) (p : Problem) (goalId current : String) (gCur : ℚ)
    (visited : List String) :
    List (String × ℚ) → List (String × ℚ) → NMap String → NMap ℚ → NMap ℚ → NMap ℚ →
      List (String × ℚ) × NMap String × NMap ℚ × NMap ℚ × NMap ℚ
  | [], pq, pm, gv, hv, fv => (pq, pm, gv, hv, fv)
  | (id, cost) :: rest, pq, pm, gv, hv, fv =>
    if id ∉ visited then
      let newG := gCur + cost
      let improves : Bool :=
        match gv id with
        | none => true
        | some g => decide (newG < g)
      if improves then
        let hVal := manhattanDistance sq id goalId p
        astarRelax sq p goalId current gCur visited rest
          (pqEnqueue pq id (newG + hVal)) (pm.set id current) (gv.set id newG)
          (hv.set id hVal) (fv.set id (newG + hVal))
      else
        astarRelax sq p goalId current gCur visited rest pq pm gv hv fv
    else
      astarRelax sq p goalId current gCur visited rest pq pm gv hv fv

/-- One iteration of the `runAStar` while loop.  As in UCS, the read of
`gValues[current]` is always defined in a run and `getD 0` is unreachable. -/
def astarStep (sq : ℚ → ℚ) (p : Problem) (goalId : String) (s : AStarSt) :
    Option (AStarSt ⊕ SearchResult) :=
  some <|
    match s.pq with
    | [] => .inr (astarFailure p s)
    | (current, _) :: rest =>
      if current ∈ s.visited then .inl { s with pq := rest }
      else
        let visited' := addSet s.visited current
        if current = goalId then
          let path := reconstructPath s.parentMap goalId (visited'.length + 1)
          let step := createStep s.stepNumber current (pqToArray rest) visited'
            s.parentMap s.gValues s.hValues s.fValues true true (some path)
          .inr { algorithm := "astar", problem := p, steps := s.steps ++ [step],
                 finalPath := some path, pathCost := s.gValues goalId,
                 nodesVisited := visited'.length,
                 memoryUsageKb := jsRound ((visited'.length * 100 : ℚ) / 1024),
                 success := true }
        else
          let gCur := (s.gValues current).getD 0
          let (pq', pm', gv', hv', fv') := astarRelax sq p goalId current gCur visited'
            (getNeighbors p current) rest s.parentMap s.gValues s.hValues s.fValues
          let step := createStep s.stepNumber current (pqToArray pq') visited' pm'
            gv' hv' fv' false false
          .inl { pq := pq', visited := visited', parentMap := pm', gValues := gv',
                 hValues := hv', fValues := fv', steps := s.steps ++ [step],
                 stepNumber := s.stepNumber + 1 }

/-- `runAStar` from the source. -/
def runAStar (sq : ℚ → ℚ) (p : Problem) (fuel : ℕ) : Option SearchResult :=
  let startId := getStartId p
  let goalId := getGoalId p
  let h := manhattanDistance sq startId goalId p
  let gv0 : NMap ℚ := NMap.empty.set startId 0
  let hv0 : NMap ℚ := NMap.empty.set startId h
  let fv0 : NMap ℚ := NMap.empty.set startId h
  let step0 := createStep 0 startId [startId] [] NMap.empty gv0 hv0 fv0 false false
  iterate (astarStep sq p goalId) fuel
    { pq := pqEnqueue [] startId h, visited := [], parentMap := NMap.empty,
      gValues := gv0, hValues := hv0, fValues := fv0, steps := [step0], stepNumber := 1 }

/-! ### Hill climbing -/

/-- Loop state of `runHillClimbing`. -/
structure HillSt where
  current : String
  visited : List String
  parentMap : NMap String
  hValues : NMap ℚ
  gValues : NMap ℚ
  steps : List SearchStep
  stepNumber : ℕ

/-- The neighbor scan of `runHillClimbing`: every unvisited neighbor gets h
and g recorded; the strictly best (first-seen lowest h below the running
best) is tracked. -/
def hillScan (sq : ℚ → ℚ) (p : Problem) (goalId current : String) (gCur : ℚ)
    (visited : List String) :
    List (String × ℚ) → NMap ℚ → NMap ℚ → Option String → ℚ →
      NMap ℚ × NMap ℚ × Option String × ℚ
  | [], hv, gv, best, bestH => (hv, gv, best, bestH)
  | (id, cost) :: rest, hv, gv, best, bestH =>
    if id ∉ visited then
      let h := manhattanDistance sq id goalId p
      let hv' := hv.set id h
      let gv' := gv.set id (gCur + cost)
      if h < bestH then
        hillScan sq p goalId current gCur visited rest hv' gv' (some id) h
      else
        hillScan sq p goalId current gCur visited rest hv' gv' best bestH
    else
      hillScan sq p goalId current gCur visited rest hv gv best bestH

/-- One iteration of the `runHillClimbing` while loop.  The loop condition
`current !== goalId` is checked first; the reads of `hValues[current]` and
`gValues[current]` are always defined in a run (`getD 0` unreachable).
Note that JS `(gValues[current] || 0)` also maps a stored 0 to 0, which
`getD 0` matches on every reachable value.  The `if (!bestNeighbor)` test is
a JS falsiness check: it fails the run both when no improving neighbor was
found (`null`) and when the best improving neighbor's id is the empty
string. -/
def hillStep (sq : ℚ → ℚ) (p : Problem) (goalId : String) (s : HillSt) :
    Option (HillSt ⊕ SearchResult) :=
  some <|
    if s.current = goalId then
      let path := reconstructPath s.parentMap goalId (s.visited.length + 1)
      .inr { algorithm := "hillClimbing", problem := p, steps := s.steps,
             finalPath := some path, pathCost := s.gValues goalId,
             nodesVisited := s.visited.length,
             memoryUsageKb := jsRound ((s.visited.length * 100 : ℚ) / 1024),
             success := true }
    else
      let gCur := (s.gValues s.current).getD 0
      let bestH0 := (s.hValues s.current).getD 0
      let (hv', gv', best, _) := hillScan sq p goalId s.current gCur s.visited
        (getNeighbors p s.current) s.hValues s.gValues none bestH0
      match best with
      | none =>
        let step := createStep s.stepNumber s.current [] s.visited s.parentMap
          gv' hv' hv' true false
        .inr { algorithm := "hillClimbing", problem := p, steps := s.steps ++ [step],
               finalPath := none, pathCost := none,
               nodesVisited := s.visited.length,
               memoryUsageKb := jsRound ((s.visited.length * 100 : ℚ) / 1024),
               success := false }
      | some bestNeighbor =>
        if bestNeighbor = "" then
          let step := createStep s.stepNumber s.current [] s.visited s.parentMap
            gv' hv' hv' true false
          .inr { algorithm := "hillClimbing", problem := p,
                 steps := s.steps ++ [step],
                 finalPath := none, pathCost := none,
                 nodesVisited := s.visited.length,
                 memoryUsageKb := jsRound ((s.visited.length * 100 : ℚ) / 1024),
                 success := false }
        else
          let pm' := s.parentMap.set bestNeighbor s.current
          let visited' := addSet s.visited bestNeighbor
          let step := createStep s.stepNumber bestNeighbor [] visited' pm'
            gv' hv' hv' false (bestNeighbor = goalId)
          .inl { current := bestNeighbor, visited := visited', parentMap := pm',
                 hValues := hv', gValues := gv', steps := s.steps ++ [step],
                 stepNumber := s.stepNumber + 1 }

/-- `runHillClimbing` from the source. -/
def runHillClimbing (sq : ℚ → ℚ) (p : Problem) (fuel : ℕ) : Option SearchResult :=
  let startId := getStartId p
  let goalId := getGoalId p
  let hv0 : NMap ℚ := NMap.empty.set startId (manhattanDistance sq startId goalId p)
  let gv0 : NMap ℚ := NMap.empty.set startId 0
  let step0 := createStep 0 startId [] [startId] NMap.empty gv0 hv0 hv0 false false
  iterate (hillStep sq p goalId) fuel
    { current := startId, visited := [startId], parentMap := NMap.empty,
      hValues := hv0, gValues := gv0, steps := [step0], stepNumber := 1 }

/-! ### Beam search -/

/-- Loop state of `runBeamSearch`. -/
structure BeamSt where
  beam : List String
  visited : List String
  parentMap : NMap String
  hValues : NMap ℚ
  gValues : NMap ℚ
  steps : List SearchStep
  stepNumber : ℕ

/-- A beam candidate: id, heuristic, parent. -/
abbrev BeamCand : Type := String × ℚ × String

/-- Order on candidates: by heuristic. -/
def candLE (a b : BeamCand) : Prop := a.2.1 ≤ b.2.1

instance : DecidableRel candLE := fun a b => inferInstanceAs (Decidable (a.2.1 ≤ b.2.1))

/-- The inner neighbor loop of one beam member: every unvisited neighbor gets
h and g recorded and is appended to the candidate list with its parent.  The
read of `gValues[current]` uses the JS `|| 0` default. -/
def beamGather (sq : ℚ → ℚ) (p : Problem) (goalId current : String)
    (visited : List String) :
    List (String × ℚ) → List BeamCand → NMap ℚ → NMap ℚ →
      List BeamCand × NMap ℚ × NMap ℚ
  | [], cands, hv, gv => (cands, hv, gv)
  | (id, cost) :: rest, cands, hv, gv =>
    if id ∉ visited then
      let h := manhattanDistance sq id goalId p
      let gCur := (gv current).getD 0
      beamGather sq p goalId current visited rest
        (cands ++ [(id, h, current)]) (hv.set id h) (gv.set id (gCur + cost))
    else
      beamGather sq p goalId current visited rest cands hv gv

/-- The outer `for (const current of beam)` loop: an early return fires when a
beam member equals the goal (`.inr` carries the maps as mutated so far),
otherwise all members contribute candidates. -/
def beamScan (sq : ℚ → ℚ) (p : Problem) (goalId : String) (visited : List String) :
    List String → List BeamCand → NMap ℚ → NMap ℚ →
      (List BeamCand × NMap ℚ × NMap ℚ) ⊕ (NMap ℚ × NMap ℚ)
  | [], cands, hv, gv => .inl (cands, hv, gv)
  | current :: rest, cands, hv, gv =>
    if current = goalId then .inr (hv, gv)
    else
      let (cands', hv', gv') := beamGather sq p goalId current visited
        (getNeighbors p current) cands hv gv
      beamScan sq p goalId visited rest cands' hv' gv'

/-- One iteration of the `runBeamSearch` while loop.  The recorded
`currentNode` of the candidate-exhaustion step is JS `beam[0] || startId`
(an empty-string member is falsy); the post-pruning step records `beam[0]`,
which for a pruning width of 0 would be `undefined` in JS, rendered here as
the empty string (the engine is only ever invoked with the default width 2). -/
def beamStep (sq : ℚ → ℚ) (p : Problem) (goalId startId : String) (beamWidth : ℕ)
    (s : BeamSt) : Option (BeamSt ⊕ SearchResult) :=
  some <|
    match s.beam with
    | [] =>
      .inr { algorithm := "beamSearch", problem := p, steps := s.steps,
             finalPath := none, pathCost := none, nodesVisited := s.visited.length,
             memoryUsageKb := jsRound ((s.visited.length * 100 : ℚ) / 1024),
             success := false }
    | _ :: _ =>
      match beamScan sq p goalId s.visited s.beam [] s.hValues s.gValues with
      | .inr (hv', gv') =>
        let path := reconstructPath s.parentMap goalId (s.visited.length + 1)
        let step := createStep s.stepNumber goalId s.beam s.visited s.parentMap
          gv' hv' hv' true true (some path)
        .inr { algorithm := "beamSearch", problem := p, steps := s.steps ++ [step],
               finalPath := some path, pathCost := gv' goalId,
               nodesVisited := s.visited.length,
               memoryUsageKb := jsRound ((s.visited.length * 100 : ℚ) / 1024),
               success := true }
      | .inl (cands, hv', gv') =>
        if cands.isEmpty then
          let cur :=
            match s.beam.head? with
            | some b => if b = "" then startId else b
            | none => startId
          let step := createStep s.stepNumber cur [] s.visited s.parentMap
            gv' hv' hv' true false
          .inr { algorithm := "beamSearch", problem := p, steps := s.steps ++ [step],
                 finalPath := none, pathCost := none,
                 nodesVisited := s.visited.length,
                 memoryUsageKb := jsRound ((s.visited.length * 100 : ℚ) / 1024),
                 success := false }
        else
          let chosen := (List.insertionSort candLE cands).take beamWidth
          let beam' := chosen.map (fun c => c.1)
          let (visited', pm') := chosen.foldl
            (fun acc c => (addSet acc.1 c.1, acc.2.set c.1 c.2.2))
            (s.visited, s.parentMap)
          let step := createStep s.stepNumber (beam'.getD 0 "") beam' visited' pm'
            gv' hv' hv' false false
          .inl { beam := beam', visited := visited', parentMap := pm',
                 hValues := hv', gValues := gv', steps := s.steps ++ [step],
                 stepNumber := s.stepNumber + 1 }

/-- `runBeamSearch` from the source (default width 2 at the dispatch site). -/
def runBeamSearch (sq : ℚ → ℚ) (p : Problem) (beamWidth : ℕ) (fuel : ℕ) :
    Option SearchResult :=
  let startId := getStartId p
  let goalId := getGoalId p
  let hv0 : NMap ℚ := NMap.empty.set startId (manhattanDistance sq startId goalId p)
  let gv0 : NMap ℚ := NMap.empty.set startId 0
  let step0 := createStep 0 startId [startId] [startId] NMap.empty gv0 hv0 hv0 false false
  iterate (beamStep sq p goalId startId beamWidth) fuel
    { beam := [startId], visited := [startId], parentMap := NMap.empty,
      hValues := hv0, gValues := gv0, steps := [step0], stepNumber := 1 }

/-! ### IDA* -/

/-- State threaded through the recursive `search` of IDA*: the current path
array, the four maps, the step log, the step counter and the per-iteration
visited set. -/
structure IdaSt where
  path : List String
  gValues : NMap ℚ
  hValues : NMap ℚ
  fValues : NMap ℚ
  parentMap : NMap String
  steps : List SearchStep
  stepNumber : ℕ
  visited : List String

/-- Result of the recursive `search`: either the goal was found with a path
and its cost, or a cut with the minimal f-value exceeding the bound
(`none` models `Infinity`). -/
inductive IdaRet where
  | found (path : List String) (cost : ℚ)
  | cut (t : Option ℚ)

/-- JS `<` against a possibly-infinite right side: anything finite is below
`Infinity` (`none`), `Infinity` is below nothing. -/
def ltInf : Option ℚ → Option ℚ → Bool
  | none, _ => false
  | some _, none => true
  | some a, some b => decide (a < b)

/-- A pending activation of the recursive `search` of IDA*: either entering
a node (the last element of the current path), or iterating the neighbor
loop of a node with the remaining neighbor list and the running minimum. -/
inductive IdaCall where
  | search (st : IdaSt) (g : ℚ)
  | nbrs (st : IdaSt) (g : ℚ) (node : String) (rest : List (String × ℚ)) (min : Option ℚ)

/-- The recursive `search` of IDA*, in structural form: one fuel unit is
consumed per activation (entering a node, or handling one neighbor list
item), and `none` signals fuel exhaustion.

Entering a node: the node is the last element of the current path (never
empty in a run, default `""` unreachable); it receives fresh h/g/f entries
and a visited mark, a step is recorded, then the bound check, the goal
check, and the neighbor loop.

Neighbor loop: nodes already on the current path are skipped (cycle guard);
otherwise the neighbor is pushed onto the path with its parent recorded, the
recursion descends, a found result propagates immediately, and a cut updates
the running minimum (`none` models `Infinity`) before the path is popped. -/
def idaGo (sq : ℚ → ℚ) (p : Problem) (goalId : String) (bound : ℚ) :
    ℕ → IdaCall → Option (IdaRet × IdaSt)
  | 0, _ => none
  | fuel + 1, .search st g =>
    let node := st.path.getLastD ""
    let h := manhattanDistance sq node goalId p
    let hv := st.hValues.set node h
    let gv := st.gValues.set node g
    let f := g + h
    let fv := st.fValues.set node f
    let visited' := addSet st.visited node
    let step := createStep st.stepNumber node st.path visited' st.parentMap
      gv hv fv false (node = goalId)
    let st1 : IdaSt := { st with
      hValues := hv, gValues := gv, fValues := fv, visited := visited',
      steps := st.steps ++ [step], stepNumber := st.stepNumber + 1 }
    if f > bound then some (.cut (some f), st1)
    else if node = goalId then some (.found st1.path g, st1)
    else idaGo sq p goalId bound fuel (.nbrs st1 g node (getNeighbors p node) none)
  | _ + 1, .nbrs st _ _ [] min => some (.cut min, st)
  | fuel + 1, .nbrs st g node ((id, cost) :: rest) min =>
    if id ∈ st.path then idaGo sq p goalId bound fuel (.nbrs st g node rest min)
    else
      let st' : IdaSt := { st with
        path := st.path ++ [id], parentMap := st.parentMap.set id node }
      match idaGo sq p goalId bound fuel (.search st' (g + cost)) with
      | none => none
      | some (.found pth c, st'') => some (.found pth c, st'')
      | some (.cut t, st'') =>
        let min' := if ltInf t min then t else min
        let st3 : IdaSt := { st'' with path := st''.path.dropLast }
        idaGo sq p goalId bound fuel (.nbrs st3 g node rest min')

/-- Entry point of the recursive `search`. -/
def idaSearch (sq : ℚ → ℚ) (p : Problem) (goalId : String) (bound : ℚ)
    (fuel : ℕ) (st : IdaSt) (g : ℚ) : Option (IdaRet × IdaSt) :=
  idaGo sq p goalId bound fuel (.search st g)

/-- Outer loop state of `runIDAStar`. -/
structure IdaOuterSt where
  bound : ℚ
  totalVisited : ℕ
  st : IdaSt

/-- One iteration of the IDA* iterative-deepening loop: run `search` from the
(restored) single-node path with a fresh visited set; a found result returns
success, an infinite next bound records the exhaustion step and fails, and a
finite next bound becomes the new bound. -/
def idaOuterStep (sq : ℚ → ℚ) (p : Problem) (goalId startId : String)
    (innerFuel : ℕ) (os : IdaOuterSt) : Option (IdaOuterSt ⊕ SearchResult) :=
  match idaSearch sq p goalId os.bound innerFuel { os.st with visited := [] } 0 with
  | none => none
  | some (.found pth cost, st') =>
    let tv := os.totalVisited + st'.visited.length
    some (.inr { algorithm := "idaStar", problem := p, steps := st'.steps,
                 finalPath := some pth, pathCost := some cost, nodesVisited := tv,
                 memoryUsageKb := jsRound ((tv * 50 : ℚ) / 1024), success := true })
  | some (.cut t, st') =>
    let tv := os.totalVisited + st'.visited.length
    match t with
    | none =>
      let step := createStep st'.stepNumber startId [] [] st'.parentMap
        st'.gValues st'.hValues st'.fValues true false
      some (.inr { algorithm := "idaStar", problem := p, steps := st'.steps ++ [step],
                   finalPath := none, pathCost := none, nodesVisited := tv,
                   memoryUsageKb := jsRound ((tv * 50 : ℚ) / 1024), success := false })
    | some t' => some (.inl { bound := t', totalVisited := tv, st := st' })

/-- `runIDAStar` from the source, with separate fuel for the outer
iterative-deepening loop and the inner recursion depth. -/
def runIDAStar (sq : ℚ → ℚ) (p : Problem) (outerFuel innerFuel : ℕ) :
    Option SearchResult :=
  let startId := getStartId p
  let goalId := getGoalId p
  let h0 := manhattanDistance sq startId goalId p
  let gv0 : NMap ℚ := NMap.empty.set startId 0
  let hv0 : NMap ℚ := NMap.empty.set startId h0
  let fv0 : NMap ℚ := NMap.empty.set startId h0
  let step0 := createStep 0 startId [startId] [] NMap.empty gv0 hv0 fv0 false false
  iterate (idaOuterStep sq p goalId startId innerFuel) outerFuel
    { bound := h0, totalVisited := 0,
      st := { path := [startId], gValues := gv0, hValues := hv0, fValues := fv0,
              parentMap := NMap.empty, steps := [step0], stepNumber := 1,
              visited := [] } }

/-! ### Dispatch -/

/-- `runAlgorithm` from the source: dispatch on the selector string; the
`default` branch throws, modelled as `Except.error`.  Fuel-exhaustion of the
selected algorithm remains visible as `ok none`. -/
def runAlgorithm (sq : ℚ → ℚ) (algorithm : String) (p : Problem) (fuel : ℕ) :
    Except String (Option SearchResult) :=
  match algorithm with
  | "bfs" => .ok (runBFS p fuel)
  | "dfs" => .ok (runDFS p fuel)
  | "ucs" => .ok (runUCS p fuel)
  | "greedy" => .ok (runGreedy sq p fuel)
  | "astar" => .ok (runAStar sq p fuel)
  | "hillClimbing" => .ok (runHillClimbing sq p fuel)
  | "beamSearch" => .ok (runBeamSearch sq p 2 fuel)
  | "idaStar" => .ok (runIDAStar sq p fuel fuel)
  | other => .error ("Unknown algorithm: " ++ other)

/-! ### Basic lemmas about the state primitives -/

theorem NMap.set_self {β : Type} (m : NMap β) (k : String) (v : β) :
    m.set k v k = some v := by
  simp [NMap.set]

theorem NMap.set_other {β : Type} (m : NMap β) (k x : String) (v : β) (h : x ≠ k) :
    m.set k v x = m x := by
  simp [NMap.set, h]

theorem addSet_mem (s : List String) (x y : String) :
    y ∈ addSet s x ↔ y ∈ s ∨ y = x := by
  rw [addSet]
  by_cases h : x ∈ s
  · simp only [if_pos h]
    constructor
    · exact Or.inl
    · rintro (hy | rfl) <;> assumption
  · simp [if_neg h, List.mem_append]

theorem addSet_nodup (s : List String) (x : String) (h : s.Nodup) :
    (addSet s x).Nodup := by
  rw [addSet]
  by_cases hx : x ∈ s
  · simpa [if_pos hx]
  · simp only [if_neg hx, List.nodup_append]
    exact ⟨h, by simpa using hx⟩

theorem addSet_length_le (s : List String) (x : String) :
    s.length ≤ (addSet s x).length := by
  rw [addSet]
  split <;> simp

theorem addSet_length_lt (s : List String) (x : String) (h : x ∉ s) :
    (addSet s x).length = s.length + 1 := by
  simp [addSet, if_neg h]

theorem addSet_sublist (s : List String) (x : String) : s.Sublist (addSet s x) := by
  rw [addSet]
  split
  · exact List.Sublist.refl s
  · exact List.sublist_append_left s [x]

/-! ### Fixture problems used by concrete evaluations -/

/-- Build a full grid cell enumeration with given obstacles and weights
(weight defaults to 1, as in the schema). -/
def mkCells (rows cols : ℕ) (obstacles : List (ℕ × ℕ)) (weights : List (ℕ × ℕ × ℚ)) :
    List GridCell :=
  (List.range rows).flatMap fun r => (List.range cols).map fun c =>
    { row := r, col := c, isObstacle := decide ((r, c) ∈ obstacles), isStart := false,
      isGoal := false,
      weight := ((weights.find? (fun w => w.1 = r ∧ w.2.1 = c)).map (fun w => w.2.2)).getD 1 }

/-- A plain 3×3 grid, start (0,0), goal (2,2), no diagonal. -/
def grid3 : Problem := .grid
  { rows := 3, cols := 3, cells := mkCells 3 3 [] [],
    startRow := 0, startCol := 0, goalRow := 2, goalCol := 2, allowDiagonal := false }

/-- The 3×3 grid with a weight-5 cell at (0,2), which is also the goal. -/
def gridWeighted : Problem := .grid
  { rows := 3, cols := 3, cells := mkCells 3 3 [] [(0, 2, 5)],
    startRow := 0, startCol := 0, goalRow := 0, goalCol := 2, allowDiagonal := false }

/-- A 3×3 grid whose goal (2,2) is walled off by obstacles at (1,2) and
(2,1); the reachable component of the start has six cells. -/
def gridWalled : Problem := .grid
  { rows := 3, cols := 3, cells := mkCells 3 3 [(1, 2), (2, 1)] [],
    startRow := 0, startCol := 0, goalRow := 2, goalCol := 2, allowDiagonal := false }

/-- A two-node graph with no edges and coincident node positions, so the
goal is unreachable and the heuristic is exactly 0 for any model of
`Math.sqrt` that sends 0 to 0. -/
def graphUnreachable : Problem := .graph
  { nodes := [⟨"A", 0, 0, true, false⟩, ⟨"B", 0, 0, false, true⟩],
    edges := [], startNodeId := "A", goalNodeId := "B", isDirected := false }

/-- A graph whose start node id is the empty string, which is falsy in JS. -/
def graphEmptyId : Problem := .graph
  { nodes := [⟨"", 0, 0, true, false⟩, ⟨"g", 0, 0, false, true⟩],
    edges := [⟨"", "g", 1⟩], startNodeId := "", goalNodeId := "g", isDirected := false }

/-- The zero stub for the `Math.sqrt` parameter, used on fixtures whose
control flow never depends on a square-root value (all its uses there are
`sq 0`, and `Math.sqrt(0) = 0`). -/
def sq0 : ℚ → ℚ := fun _ => 0

/-! ### C6: start equals goal -/

/-- BFS on a degenerate problem: one dequeue, immediate success. -/
theorem runBFS_start_eq_goal (p : Problem) (hsg : getStartId p = getGoalId p)
    (hne : getStartId p ≠ "") (n : ℕ) :
    ∃ r, runBFS p (n + 1) = some r ∧ r.success = true ∧
      r.finalPath = some [getStartId p] ∧ r.pathCost = some 0 := by
  rw [runBFS, ← hsg]
  simp only [iterate]
  rw [bfsStep]
  simp only [List.not_mem_nil, if_false, reconstructPath, reconstructPathAux, NMap.empty,
    addSet, List.length_nil, List.length_cons, if_neg hne, if_pos rfl, if_true]
  exact ⟨_, rfl, rfl, rfl, by norm_num⟩

/-- DFS on a degenerate problem. -/
theorem runDFS_start_eq_goal (p : Problem) (hsg : getStartId p = getGoalId p)
    (hne : getStartId p ≠ "") (n : ℕ) :
    ∃ r, runDFS p (n + 1) = some r ∧ r.success = true ∧
      r.finalPath = some [getStartId p] ∧ r.pathCost = some 0 := by
  rw [runDFS, ← hsg]
  simp only [iterate]
  rw [dfsStep]
  simp only [List.getLast?_singleton, List.dropLast_single, List.not_mem_nil, if_false,
    reconstructPath, reconstructPathAux, NMap.empty, addSet, List.length_nil,
    List.length_cons, if_neg hne, if_pos rfl, if_true]
  exact ⟨_, rfl, rfl, rfl, by norm_num⟩

/-- UCS on a degenerate problem. -/
theorem runUCS_start_eq_goal (p : Problem) (hsg : getStartId p = getGoalId p)
    (hne : getStartId p ≠ "") (n : ℕ) :
    ∃ r, runUCS p (n + 1) = some r ∧ r.success = true ∧
      r.finalPath = some [getStartId p] ∧ r.pathCost = some 0 := by
  rw [runUCS, ← hsg]
  simp only [iterate]
  rw [ucsStep]
  simp only [List.not_mem_nil, if_false, reconstructPath, reconstructPathAux, NMap.empty,
    NMap.set, addSet, List.length_nil, List.length_cons, if_neg hne, if_pos rfl, if_true]
  exact ⟨_, rfl, rfl, rfl, rfl⟩

/-- Greedy best-first on a degenerate problem. -/
theorem runGreedy_start_eq_goal (sq : ℚ → ℚ) (p : Problem)
    (hsg : getStartId p = getGoalId p) (hne : getStartId p ≠ "") (n : ℕ) :
    ∃ r, runGreedy sq p (n + 1) = some r ∧ r.success = true ∧
      r.finalPath = some [getStartId p] ∧ r.pathCost = some 0 := by
  rw [runGreedy, ← hsg]
  simp only [iterate]
  rw [greedyStep]
  simp only [pqEnqueue, List.nil_append, List.insertionSort, List.orderedInsert,
    List.not_mem_nil, if_false, reconstructPath, reconstructPathAux, NMap.empty,
    NMap.set, addSet, List.length_nil, List.length_cons, if_neg hne, if_pos rfl, if_true,
    greedyPathCost, List.zip_nil_right, List.tail_cons, List.foldl_nil]
  exact ⟨_, rfl, rfl, rfl, rfl⟩

/-- A* on a degenerate problem. -/
theorem runAStar_start_eq_goal (sq : ℚ → ℚ) (p : Problem)
    (hsg : getStartId p = getGoalId p) (hne : getStartId p ≠ "") (n : ℕ) :
    ∃ r, runAStar sq p (n + 1) = some r ∧ r.success = true ∧
      r.finalPath = some [getStartId p] ∧ r.pathCost = some 0 := by
  rw [runAStar, ← hsg]
  simp only [iterate]
  rw [astarStep]
  simp only [pqEnqueue, List.nil_append, List.insertionSort, List.orderedInsert,
    List.not_mem_nil, if_false, reconstructPath, reconstructPathAux, NMap.empty,
    NMap.set, addSet, List.length_nil, List.length_cons, if_neg hne, if_pos rfl, if_true]
  exact ⟨_, rfl, rfl, rfl, rfl⟩

/-- Hill climbing on a degenerate problem: the loop body is never entered. -/
theorem runHillClimbing_start_eq_goal (sq : ℚ → ℚ) (p : Problem)
    (hsg : getStartId p = getGoalId p) (hne : getStartId p ≠ "") (n : ℕ) :
    ∃ r, runHillClimbing sq p (n + 1) = some r ∧ r.success = true ∧
      r.finalPath = some [getStartId p] ∧ r.pathCost = some 0 := by
  rw [runHillClimbing, ← hsg]
  simp only [iterate]
  rw [hillStep]
  simp only [reconstructPath, reconstructPathAux, NMap.empty, NMap.set,
    List.length_singleton, if_neg hne, if_pos rfl, if_true]
  exact ⟨_, rfl, rfl, rfl, rfl⟩

/-- Beam search on a degenerate problem: the first beam member is the goal. -/
theorem runBeamSearch_start_eq_goal (sq : ℚ → ℚ) (p : Problem) (w : ℕ)
    (hsg : getStartId p = getGoalId p) (hne : getStartId p ≠ "") (n : ℕ) :
    ∃ r, runBeamSearch sq p w (n + 1) = some r ∧ r.success = true ∧
      r.finalPath = some [getStartId p] ∧ r.pathCost = some 0 := by
  rw [runBeamSearch, ← hsg]
  simp only [iterate]
  rw [beamStep]
  simp only [beamScan, if_pos rfl, reconstructPath, reconstructPathAux, NMap.empty,
    NMap.set, List.length_singleton, if_neg hne, if_true]
  exact ⟨_, rfl, rfl, rfl, rfl⟩

/-- IDA* on a degenerate problem: the first inner activation finds the goal
at cost 0 (the f-versus-bound comparison holds with equality whatever the
heuristic value is). -/
theorem runIDAStar_start_eq_goal (sq : ℚ → ℚ) (p : Problem)
    (hsg : getStartId p = getGoalId p) (hne : getStartId p ≠ "") (n m : ℕ) :
    ∃ r, runIDAStar sq p (n + 1) (m + 1) = some r ∧ r.success = true ∧
      r.finalPath = some [getStartId p] ∧ r.pathCost = some 0 := by
  rw [runIDAStar, ← hsg]
  simp only [iterate]
  rw [idaOuterStep, idaSearch, idaGo]
  have hlast : [getStartId p].getLastD "" = getStartId p := rfl
  simp only [hlast, zero_add, gt_iff_lt, lt_self_iff_false, if_false, if_pos rfl, if_true]
  exact ⟨_, rfl, rfl, rfl, rfl⟩

/-- A single-node graph whose (start = goal) id is the empty string. -/
def graphEmptyBoth : Problem := .graph
  { nodes := [⟨"", 0, 0, true, true⟩], edges := [],
    startNodeId := "", goalNodeId := "", isDirected := false }

/-- C6 counterexample: with the empty string as the (shared) start and goal
id, BFS still reports success but returns the empty path with path cost −1
instead of the single-node path with cost 0, because the empty string is
falsy in `reconstructPath`. -/
theorem start_eq_goal_empty_id_breaks_single_node_path : ∃ r,
    runBFS graphEmptyBoth 5 = some r ∧ r.success = true ∧
      r.finalPath = some [] ∧ r.pathCost = some (-1) ∧
      r.finalPath ≠ some [getStartId graphEmptyBoth] ∧ r.pathCost ≠ some 0 := by
  have hs : (runBFS graphEmptyBoth 5).isSome = true :=
    of_decide_eq_true (by with_unfolding_all rfl)
  refine ⟨(runBFS graphEmptyBoth 5).get hs, (Option.some_get hs).symm, ?_, ?_, ?_, ?_, ?_⟩ <;>
    exact of_decide_eq_true (by with_unfolding_all rfl)

/-- C6 (amended: provided the shared start/goal id is not the empty string —
grid ids never are): every one of the eight algorithms succeeds on its first
iteration with the single-node path and cost 0, for every fuel. -/
theorem start_eq_goal_immediate_success (sq : ℚ → ℚ) (p : Problem)
    (hsg : getStartId p = getGoalId p) (hne : getStartId p ≠ "") (n m : ℕ) :
    (∃ r, runBFS p (n + 1) = some r ∧ r.success = true ∧
      r.finalPath = some [getStartId p] ∧ r.pathCost = some 0) ∧
    (∃ r, runDFS p (n + 1) = some r ∧ r.success = true ∧
      r.finalPath = some [getStartId p] ∧ r.pathCost = some 0) ∧
    (∃ r, runUCS p (n + 1) = some r ∧ r.success = true ∧
      r.finalPath = some [getStartId p] ∧ r.pathCost = some 0) ∧
    (∃ r, runGreedy sq p (n + 1) = some r ∧ r.success = true ∧
      r.finalPath = some [getStartId p] ∧ r.pathCost = some 0) ∧
    (∃ r, runAStar sq p (n + 1) = some r ∧ r.success = true ∧
      r.finalPath = some [getStartId p] ∧ r.pathCost = some 0) ∧
    (∃ r, runHillClimbing sq p (n + 1) = some r ∧ r.success = true ∧
      r.finalPath = some [getStartId p] ∧ r.pathCost = some 0) ∧
    (∀ w, ∃ r, runBeamSearch sq p w (n + 1) = some r ∧ r.success = true ∧
      r.finalPath = some [getStartId p] ∧ r.pathCost = some 0) ∧
    (∃ r, runIDAStar sq p (n + 1) (m + 1) = some r ∧ r.success = true ∧
      r.finalPath = some [getStartId p] ∧ r.pathCost = some 0) :=
  ⟨runBFS_start_eq_goal p hsg hne n, runDFS_start_eq_goal p hsg hne n,
    runUCS_start_eq_goal p hsg hne n, runGreedy_start_eq_goal sq p hsg hne n,
    runAStar_start_eq_goal sq p hsg hne n, runHillClimbing_start_eq_goal sq p hsg hne n,
    fun w => runBeamSearch_start_eq_goal sq p w hsg hne n,
    runIDAStar_start_eq_goal sq p hsg hne n m⟩

/-- A 3×3 grid whose start and goal coincide at (1,1). -/
def grid3same : Problem := .grid
  { rows := 3, cols := 3, cells := mkCells 3 3 [] [],
    startRow := 1, startCol := 1, goalRow := 1, goalCol := 1, allowDiagonal := false }

/-- Witness for C6's amended theorem on a grid with start = goal. -/
theorem start_eq_goal_immediate_success_witness :
    getStartId grid3same = getGoalId grid3same ∧ getStartId grid3same ≠ "" ∧
      ∃ r, runBFS grid3same 1 = some r ∧ r.success = true ∧
        r.finalPath = some [getStartId grid3same] ∧ r.pathCost = some 0 :=
  ⟨rfl, of_decide_eq_true (by with_unfolding_all rfl),
    (start_eq_goal_immediate_success sq0 grid3same rfl
      (of_decide_eq_true (by with_unfolding_all rfl)) 0 0).1⟩

/-! ### C3: monotone growth of the visited set in the step trace -/

/-- The step-trace invariant: the recorded visited sizes never decrease, the
trace is non-empty, and the last recorded step carries the current visited
set's size. -/
def StepsMono (steps : List SearchStep) (visited : List String) : Prop :=
  List.Chain' (fun a b => a.visited.length ≤ b.visited.length) steps ∧
  ∃ last, steps.getLast? = some last ∧ last.visited.length = visited.length

/-- The result property of C3 (amended): monotone visited sizes and the
final step's visited size equals `nodesVisited`. -/
def MonoResult (r : SearchResult) : Prop :=
  List.Chain' (fun a b => a.visited.length ≤ b.visited.length) r.steps ∧
  ∃ last, r.steps.getLast? = some last ∧ last.visited.length = r.nodesVisited

theorem stepsMono_append {steps : List SearchStep} {visited visited' : List String}
    {st : SearchStep} (h : StepsMono steps visited) (hst : st.visited = visited')
    (hle : visited.length ≤ visited'.length) : StepsMono (steps ++ [st]) visited' := by
  obtain ⟨hchain, last, hlast, hlen⟩ := h
  constructor
  · rw [List.chain'_append]
    refine ⟨hchain, List.chain'_singleton _, ?_⟩
    intro x hx y hy
    rw [hlast] at hx
    rcases Option.mem_some_iff.mp hx with rfl
    simp only [List.head?_cons, Option.mem_some_iff] at hy
    rcases hy with rfl
    rw [hst, hlen]
    exact hle
  · exact ⟨st, by rw [List.getLast?_concat], by rw [hst]⟩

theorem stepsMono_monoResult {steps : List SearchStep} {visited : List String}
    (h : StepsMono steps visited) (r : SearchResult) (hsteps : r.steps = steps)
    (hnv : r.nodesVisited = visited.length) : MonoResult r := by
  obtain ⟨hchain, last, hlast, hlen⟩ := h
  exact ⟨by rw [hsteps]; exact hchain, last, by rw [hsteps]; exact hlast,
    by rw [hnv]; exact hlen⟩

theorem bfsStep_mono_inl (p : Problem) (goalId : String) (s s' : BfsSt)
    (hInv : StepsMono s.steps s.visited)
    (h : bfsStep p goalId s = some (.inl s')) : StepsMono s'.steps s'.visited := by
  rw [bfsStep] at h
  simp only [Option.some.injEq] at h
  split at h
  · exact absurd h (by simp)
  · split at h
    · cases h
      exact hInv
    · split at h
      · exact absurd h (by simp)
      · cases h
        exact stepsMono_append hInv rfl (addSet_length_le _ _)

theorem bfsStep_mono_inr (p : Problem) (goalId : String) (s : BfsSt) (r : SearchResult)
    (hInv : StepsMono s.steps s.visited)
    (h : bfsStep p goalId s = some (.inr r)) : MonoResult r := by
  rw [bfsStep] at h
  simp only [Option.some.injEq] at h
  split at h
  · cases h
    exact stepsMono_monoResult hInv _ rfl rfl
  · split at h
    · exact absurd h (by simp)
    · split at h
      · cases h
        exact stepsMono_monoResult (stepsMono_append hInv rfl (addSet_length_le _ _)) _ rfl rfl
      · exact absurd h (by simp)

theorem dfsStep_mono_inl (p : Problem) (goalId : String) (s s' : DfsSt)
    (hInv : StepsMono s.steps s.visited)
    (h : dfsStep p goalId s = some (.inl s')) : StepsMono s'.steps s'.visited := by
  rw [dfsStep] at h
  simp only [Option.some.injEq] at h
  split at h
  · exact absurd h (by simp)
  · split at h
    · cases h
      exact hInv
    · split at h
      · exact absurd h (by simp)
      · cases h
        exact stepsMono_append hInv rfl (addSet_length_le _ _)

theorem dfsStep_mono_inr (p : Problem) (goalId : String) (s : DfsSt) (r : SearchResult)
    (hInv : StepsMono s.steps s.visited)
    (h : dfsStep p goalId s = some (.inr r)) : MonoResult r := by
  rw [dfsStep] at h
  simp only [Option.some.injEq] at h
  split at h
  · cases h
    exact stepsMono_monoResult hInv _ rfl rfl
  · split at h
    · exact absurd h (by simp)
    · split at h
      · cases h
        exact stepsMono_monoResult (stepsMono_append hInv rfl (addSet_length_le _ _)) _ rfl rfl
      · exact absurd h (by simp)

theorem ucsStep_mono_inl (p : Problem) (goalId : String) (s s' : UcsSt)
    (hInv : StepsMono s.steps s.visited)
    (h : ucsStep p goalId s = some (.inl s')) : StepsMono s'.steps s'.visited := by
  rw [ucsStep] at h
  simp only [Option.some.injEq] at h
  split at h
  · exact absurd h (by simp)
  · split at h
    · cases h
      exact hInv
    · split at h
      · exact absurd h (by simp)
      · cases h
        exact stepsMono_append hInv rfl (addSet_length_le _ _)

theorem ucsStep_mono_inr (p : Problem) (goalId : String) (s : UcsSt) (r : SearchResult)
    (hInv : StepsMono s.steps s.visited)
    (h : ucsStep p goalId s = some (.inr r)) : MonoResult r := by
  rw [ucsStep] at h
  simp only [Option.some.injEq] at h
  split at h
  · cases h
    exact stepsMono_monoResult hInv _ rfl rfl
  · split at h
    · exact absurd h (by simp)
    · split at h
      · cases h
        exact stepsMono_monoResult (stepsMono_append hInv rfl (addSet_length_le _ _)) _ rfl rfl
      · exact absurd h (by simp)

theorem greedyStep_mono_inl (sq : ℚ → ℚ) (p : Problem) (goalId : String) (s s' : GreedySt)
    (hInv : StepsMono s.steps s.visited)
    (h : greedyStep sq p goalId s = some (.inl s')) : StepsMono s'.steps s'.visited := by
  rw [greedyStep] at h
  simp only [Option.some.injEq] at h
  split at h
  · exact absurd h (by simp)
  · split at h
    · cases h
      exact hInv
    · split at h
      · exact absurd h (by simp)
      · cases h
        exact stepsMono_append hInv rfl (addSet_length_le _ _)

theorem greedyStep_mono_inr (sq : ℚ → ℚ) (p : Problem) (goalId : String) (s : GreedySt)
    (r : SearchResult) (hInv : StepsMono s.steps s.visited)
    (h : greedyStep sq p goalId s = some (.inr r)) : MonoResult r := by
  rw [greedyStep] at h
  simp only [Option.some.injEq] at h
  split at h
  · cases h
    exact stepsMono_monoResult hInv _ rfl rfl
  · split at h
    · exact absurd h (by simp)
    · split at h
      · cases h
        exact stepsMono_monoResult (stepsMono_append hInv rfl (addSet_length_le _ _)) _ rfl rfl
      · exact absurd h (by simp)

theorem astarStep_mono_inl (sq : ℚ → ℚ) (p : Problem) (goalId : String) (s s' : AStarSt)
    (hInv : StepsMono s.steps s.visited)
    (h : astarStep sq p goalId s = some (.inl s')) : StepsMono s'.steps s'.visited := by
  rw [astarStep] at h
  simp only [Option.some.injEq] at h
  split at h
  · exact absurd h (by simp)
  · split at h
    · cases h
      exact hInv
    · split at h
      · exact absurd h (by simp)
      · cases h
        exact stepsMono_append hInv rfl (addSet_length_le _ _)

theorem astarStep_mono_inr (sq : ℚ → ℚ) (p : Problem) (goalId : String) (s : AStarSt)
    (r : SearchResult) (hInv : StepsMono s.steps s.visited)
    (h : astarStep sq p goalId s = some (.inr r)) : MonoResult r := by
  rw [astarStep] at h
  simp only [Option.some.injEq] at h
  split at h
  · cases h
    exact stepsMono_monoResult hInv _ rfl rfl
  · split at h
    · exact absurd h (by simp)
    · split at h
      · cases h
        exact stepsMono_monoResult (stepsMono_append hInv rfl (addSet_length_le _ _)) _ rfl rfl
      · exact absurd h (by simp)

theorem hillStep_mono_inl (sq : ℚ → ℚ) (p : Problem) (goalId : String) (s s' : HillSt)
    (hInv : StepsMono s.steps s.visited)
    (h : hillStep sq p goalId s = some (.inl s')) : StepsMono s'.steps s'.visited := by
  rw [hillStep] at h
  simp only [Option.some.injEq] at h
  split at h
  · exact absurd h (by simp)
  · split at h
    · exact absurd h (by simp)
    · split at h
      · exact absurd h (by simp)
      · cases h
        exact stepsMono_append hInv rfl (addSet_length_le _ _)

theorem hillStep_mono_inr (sq : ℚ → ℚ) (p : Problem) (goalId : String) (s : HillSt)
    (r : SearchResult) (hInv : StepsMono s.steps s.visited)
    (h : hillStep sq p goalId s = some (.inr r)) : MonoResult r := by
  rw [hillStep] at h
  simp only [Option.some.injEq] at h
  split at h
  · cases h
    exact stepsMono_monoResult hInv _ rfl rfl
  · split at h
    · cases h
      exact stepsMono_monoResult (stepsMono_append hInv rfl le_rfl) _ rfl rfl
    · split at h
      · cases h
        exact stepsMono_monoResult (stepsMono_append hInv rfl le_rfl) _ rfl rfl
      · exact absurd h (by simp)

theorem beam_foldl_visited_le (chosen : List BeamCand) (visited : List String)
    (pm : NMap String) :
    visited.length ≤ (chosen.foldl
      (fun acc c => (addSet acc.1 c.1, acc.2.set c.1 c.2.2)) (visited, pm)).1.length := by
  induction chosen generalizing visited pm with
  | nil => exact le_rfl
  | cons c rest ih =>
    simp only [List.foldl_cons]
    exact le_trans (addSet_length_le _ _) (ih _ _)

theorem beamStep_mono_inl (sq : ℚ → ℚ) (p : Problem) (goalId startId : String) (w : ℕ)
    (s s' : BeamSt) (hInv : StepsMono s.steps s.visited)
    (h : beamStep sq p goalId startId w s = some (.inl s')) :
    StepsMono s'.steps s'.visited := by
  rw [beamStep] at h
  simp only [Option.some.injEq] at h
  split at h
  · exact absurd h (by simp)
  · split at h
    · exact absurd h (by simp)
    · split at h
      · exact absurd h (by simp)
      · cases h
        exact stepsMono_append hInv rfl (beam_foldl_visited_le _ _ _)

theorem beamStep_mono_inr (sq : ℚ → ℚ) (p : Problem) (goalId startId : String) (w : ℕ)
    (s : BeamSt) (r : SearchResult) (hInv : StepsMono s.steps s.visited)
    (h : beamStep sq p goalId startId w s = some (.inr r)) : MonoResult r := by
  rw [beamStep] at h
  simp only [Option.some.injEq] at h
  split at h
  · cases h
    exact stepsMono_monoResult hInv _ rfl rfl
  · split at h
    · cases h
      exact stepsMono_monoResult (stepsMono_append hInv rfl le_rfl) _ rfl rfl
    · split at h
      · cases h
        exact stepsMono_monoResult (stepsMono_append hInv rfl le_rfl) _ rfl rfl
      · exact absurd h (by simp)

/-- Initial traces satisfy the invariant (a one-step trace recording the
initial visited set). -/
theorem stepsMono_init (st : SearchStep) (visited : List String)
    (h : st.visited.length = visited.length) : StepsMono [st] visited :=
  ⟨List.chain'_singleton _, st, rfl, h⟩

theorem getLast?_map_comm {α β : Type} (f : α → β) (l : List α) :
    (l.getLast?).map f = (l.map f).getLast? := by
  induction l with
  | nil => rfl
  | cons a l ih =>
    cases l with
    | nil => rfl
    | cons b t =>
      show Option.map f (a :: b :: t).getLast? = (f a :: f b :: List.map f t).getLast?
      rw [List.getLast?_cons_cons, List.getLast?_cons_cons]
      exact ih

/-- C3 counterexample: IDA* resets its visited set between iterations and
records an empty visited set in its final exhaustion step, so the recorded
visited sizes are 0, 1, 0 on a two-node edgeless graph: not monotone, and
the final step's size 0 differs from `nodesVisited` = 1. -/
theorem idaStar_visited_sizes_decrease : ∃ r,
    runIDAStar sq0 graphUnreachable 5 5 = some r ∧
      r.steps.map (fun st => st.visited.length) = [0, 1, 0] ∧
      ¬ List.Chain' (fun a b => a ≤ b) (r.steps.map (fun st => st.visited.length)) ∧
      r.nodesVisited = 1 ∧
      (r.steps.getLast?).map (fun st => st.visited.length) = some 0 := by
  have hs : (runIDAStar sq0 graphUnreachable 5 5).isSome = true :=
    of_decide_eq_true (by with_unfolding_all rfl)
  refine ⟨(runIDAStar sq0 graphUnreachable 5 5).get hs, (Option.some_get hs).symm,
    of_decide_eq_true (by with_unfolding_all rfl), ?_, ?_, ?_⟩
  · have hmap : ((runIDAStar sq0 graphUnreachable 5 5).get hs).steps.map
        (fun st => st.visited.length) = [0, 1, 0] :=
      of_decide_eq_true (by with_unfolding_all rfl)
    rw [hmap]
    intro hch
    rw [List.chain'_cons, List.chain'_cons] at hch
    omega
  · exact of_decide_eq_true (by with_unfolding_all rfl)
  · have hmap : ((runIDAStar sq0 graphUnreachable 5 5).get hs).steps.map
        (fun st => st.visited.length) = [0, 1, 0] :=
      of_decide_eq_true (by with_unfolding_all rfl)
    rw [getLast?_map_comm, hmap]
    rfl

/-- C3 (amended: IDA* excluded): for the seven other algorithms, the size of
the recorded visited set never decreases from one step to the next, the
trace is non-empty, and `nodesVisited` equals the visited size of the final
recorded step. -/
theorem visited_monotone_and_final_count (sq : ℚ → ℚ) (p : Problem) (fuel : ℕ)
    (r : SearchResult) :
    (runBFS p fuel = some r → MonoResult r) ∧
    (runDFS p fuel = some r → MonoResult r) ∧
    (runUCS p fuel = some r → MonoResult r) ∧
    (runGreedy sq p fuel = some r → MonoResult r) ∧
    (runAStar sq p fuel = some r → MonoResult r) ∧
    (runHillClimbing sq p fuel = some r → MonoResult r) ∧
    (∀ w, runBeamSearch sq p w fuel = some r → MonoResult r) := by
  refine ⟨?_, ?_, ?_, ?_, ?_, ?_, ?_⟩
  · exact fun h => iterate_invariant
      (fun s s' hs hstep => bfsStep_mono_inl p (getGoalId p) s s' hs hstep)
      (fun s r' hs hstep => bfsStep_mono_inr p (getGoalId p) s r' hs hstep)
      fuel _ r (stepsMono_init _ _ rfl) h
  · exact fun h => iterate_invariant
      (fun s s' hs hstep => dfsStep_mono_inl p (getGoalId p) s s' hs hstep)
      (fun s r' hs hstep => dfsStep_mono_inr p (getGoalId p) s r' hs hstep)
      fuel _ r (stepsMono_init _ _ rfl) h
  · exact fun h => iterate_invariant
      (fun s s' hs hstep => ucsStep_mono_inl p (getGoalId p) s s' hs hstep)
      (fun s r' hs hstep => ucsStep_mono_inr p (getGoalId p) s r' hs hstep)
      fuel _ r (stepsMono_init _ _ rfl) h
  · exact fun h => iterate_invariant
      (fun s s' hs hstep => greedyStep_mono_inl sq p (getGoalId p) s s' hs hstep)
      (fun s r' hs hstep => greedyStep_mono_inr sq p (getGoalId p) s r' hs hstep)
      fuel _ r (stepsMono_init _ _ rfl) h
  · exact fun h => iterate_invariant
      (fun s s' hs hstep => astarStep_mono_inl sq p (getGoalId p) s s' hs hstep)
      (fun s r' hs hstep => astarStep_mono_inr sq p (getGoalId p) s r' hs hstep)
      fuel _ r (stepsMono_init _ _ rfl) h
  · exact fun h => iterate_invariant
      (fun s s' hs hstep => hillStep_mono_inl sq p (getGoalId p) s s' hs hstep)
      (fun s r' hs hstep => hillStep_mono_inr sq p (getGoalId p) s r' hs hstep)
      fuel _ r (stepsMono_init _ _ rfl) h
  · exact fun w h => iterate_invariant
      (fun s s' hs hstep => beamStep_mono_inl sq p (getGoalId p) (getStartId p) w s s' hs hstep)
      (fun s r' hs hstep => beamStep_mono_inr sq p (getGoalId p) (getStartId p) w s r' hs hstep)
      fuel _ r (stepsMono_init _ _ rfl) h

/-- Witness for C3's amended theorem: a BFS run on the walled grid. -/
theorem visited_monotone_and_final_count_witness :
    ∃ r, runBFS gridWalled 30 = some r ∧ MonoResult r := by
  have hs : (runBFS gridWalled 30).isSome = true :=
    of_decide_eq_true (by with_unfolding_all rfl)
  exact ⟨(runBFS gridWalled 30).get hs, (Option.some_get hs).symm,
    (visited_monotone_and_final_count sq0 gridWalled 30 _).1 (Option.some_get hs).symm⟩

/-! ### Parent maps and path reconstruction

The shared correctness core for C1 and C2: every algorithm only ever stores
`parentMap[x] = y` when `x` is a resolver neighbor of the already-visited
`y`, the start never gets a parent, and every visited non-start node has a
parent visited strictly earlier.  From these facts `reconstructPath` yields
a duplicate-free path from the start. -/

/-- No node id occurring in a problem is the empty string (JS-falsy).  Grid
problems satisfy this unconditionally. -/
def NoEmptyIds (p : Problem) : Prop :=
  getStartId p ≠ "" ∧ ∀ a q c, (q, c) ∈ getNeighbors p a → q ≠ ""

theorem gridCellToId_ne_empty (r c : ℕ) : gridCellToId r c ≠ "" := by
  intro h
  have hrt := idToGridCell_gridCellToId r c
  rw [h] at hrt
  have : idToGridCell "" = none := rfl
  rw [this] at hrt
  exact Option.noConfusion hrt

theorem grid_noEmptyIds (g : GridProblem) : NoEmptyIds (.grid g) := by
  constructor
  · exact gridCellToId_ne_empty _ _
  · intro a q c hq
    rw [getNeighbors] at hq
    rw [getGridNeighbors] at hq
    match hdec : idToGridCell a with
    | none => rw [hdec] at hq; exact absurd hq (List.not_mem_nil _)
    | some (row, col) =>
      rw [hdec] at hq
      obtain ⟨d, _, hfd⟩ := List.mem_filterMap.mp hq
      obtain ⟨_, cell, _, _, hqenc, _⟩ := (gridNeighborOfDir_some_iff g row col d q c).mp hfd
      rw [hqenc]
      exact gridCellToId_ne_empty _ _

/-- The parent-map invariant shared by all queue-driven algorithms. -/
structure ParentInv (p : Problem) (startId : String) (V : List String)
    (P : NMap String) : Prop where
  start_none : P startId = none
  edge : ∀ x y, P x = some y → y ∈ V ∧ ∃ c, (x, c) ∈ getNeighbors p y
  rank : ∀ x ∈ V, x ≠ startId → ∃ y, P x = some y ∧ V.indexOf y < V.indexOf x
  nodup : V.Nodup
  ne_empty : ∀ x ∈ V, x ≠ ""

/-- Walking the parent map from a visited node produces, before the given
accumulator, a parent-linked segment from the start to that node whose
visit ranks strictly increase. -/
theorem reconstructPathAux_chain (p : Problem) (startId : String) (V : List String)
    (P : NMap String) (inv : ParentInv p startId V P) :
    ∀ (n : ℕ) (x : String), x ∈ V → V.indexOf x < n →
      ∀ (fuel : ℕ), V.indexOf x < fuel → ∀ (acc : List String),
        ∃ pth, reconstructPathAux P fuel x acc = pth ++ acc ∧
          pth.head? = some startId ∧ pth.getLast? = some x ∧
          (∀ z ∈ pth, z ∈ V) ∧
          List.Chain' (fun a b => P b = some a) pth ∧
          List.Chain' (fun a b => V.indexOf a < V.indexOf b) pth := by
  intro n
  induction n with
  | zero => intro x _ h; omega
  | succ n ih =>
    intro x hxV hxn fuel hfuel acc
    match fuel, hfuel with
    | f + 1, _ =>
      rw [reconstructPathAux]
      rw [if_neg (inv.ne_empty x hxV)]
      match hP : P x with
      | none =>
        have hxs : x = startId := by
          by_contra hxs
          obtain ⟨y, hy, _⟩ := inv.rank x hxV hxs
          rw [hP] at hy
          exact Option.noConfusion hy
        exact ⟨[x], by simp, by rw [hxs]; rfl, rfl, by simp [hxV],
          List.chain'_singleton _, List.chain'_singleton _⟩
      | some y =>
        have hxs : x ≠ startId := by
          intro hxs
          rw [hxs, inv.start_none] at hP
          exact Option.noConfusion hP
        obtain ⟨y', hy', hidx⟩ := inv.rank x hxV hxs
        rw [hP] at hy'
        obtain rfl : y = y' := Option.some.inj hy'
        have hyV : y ∈ V := (inv.edge x y hP).1
        have hyn : V.indexOf y < n := by omega
        have hyf : V.indexOf y < f := by omega
        obtain ⟨pth', heq, hhead, hlast, hmem, hchP, hchIdx⟩ :=
          ih y hyV hyn f hyf (x :: acc)
        have hne : pth' ≠ [] := by
          intro hnil
          rw [hnil] at hhead
          exact Option.noConfusion hhead
        refine ⟨pth' ++ [x], ?_, ?_, ?_, ?_, ?_, ?_⟩
        · show reconstructPathAux P f y (x :: acc) = pth' ++ [x] ++ acc
          rw [heq, List.append_assoc]
          rfl
        · rw [List.head?_append_of_ne_nil _ hne]
          exact hhead
        · rw [List.getLast?_concat]
        · intro z hz
          rcases List.mem_append.mp hz with hz | hz
          · exact hmem z hz
          · rcases List.mem_singleton.mp hz with rfl
            exact hxV
        · rw [List.chain'_append]
          refine ⟨hchP, List.chain'_singleton _, ?_⟩
          intro a ha b hb
          rw [hlast] at ha
          rcases Option.mem_some_iff.mp ha with rfl
          simp only [List.head?_cons, Option.mem_some_iff] at hb
          rcases hb with rfl
          exact hP
        · rw [List.chain'_append]
          refine ⟨hchIdx, List.chain'_singleton _, ?_⟩
          intro a ha b hb
          rw [hlast] at ha
          rcases Option.mem_some_iff.mp ha with rfl
          simp only [List.head?_cons, Option.mem_some_iff] at hb
          rcases hb with rfl
          exact hidx

/-- The path reconstructed from a visited goal is duplicate-free, runs from
the start to the goal, and is connected by parent links. -/
theorem reconstructPath_valid (p : Problem) (startId : String) (V : List String)
    (P : NMap String) (inv : ParentInv p startId V P) (goal : String) (hg : goal ∈ V) :
    ∃ pth, reconstructPath P goal (V.length + 1) = pth ∧ pth.head? = some startId ∧
      pth.getLast? = some goal ∧ pth.Nodup ∧ (∀ z ∈ pth, z ∈ V) ∧
      List.Chain' (fun a b => P b = some a) pth := by
  have hidx : V.indexOf goal < V.length := List.indexOf_lt_length.mpr hg
  obtain ⟨pth, heq, hhead, hlast, hmem, hchP, hchIdx⟩ :=
    reconstructPathAux_chain p startId V P inv (V.indexOf goal + 1) goal hg
      (Nat.lt_succ_self _) (V.length + 1) (by omega) []
  refine ⟨pth, by rw [reconstructPath, heq, List.append_nil], hhead, hlast, ?_, hmem, hchP⟩
  haveI : IsTrans String (fun a b => V.indexOf a < V.indexOf b) :=
    ⟨fun _ _ _ hab hbc => lt_trans hab hbc⟩
  have hpw : pth.Pairwise (fun a b => V.indexOf a < V.indexOf b) :=
    (List.chain'_iff_pairwise.mp hchIdx)
  exact hpw.imp (fun h => by intro heq2; rw [heq2] at h; exact lt_irrefl _ h)

/-- A cost assignment along a path: each consecutive pair carries a cost the
resolver assigns to it. -/
inductive CostChain (p : Problem) : List String → List ℚ → Prop
  | single (a : String) : CostChain p [a] []
  | cons {a b : String} {rest : List String} {cs : List ℚ} (c : ℚ) :
      (b, c) ∈ getNeighbors p a → CostChain p (b :: rest) cs →
      CostChain p (a :: b :: rest) (c :: cs)

/-- Along a parent-linked path whose g entries satisfy the relaxation
equation, the g value of the last node is the g value of the first plus the
sum of a resolver cost assignment. -/
theorem pchain_cost_sum (p : Problem) (P : NMap String) (G : NMap ℚ)
    (g_edge : ∀ x y, P x = some y →
      ∃ gy c, G y = some gy ∧ (x, c) ∈ getNeighbors p y ∧ G x = some (gy + c)) :
    ∀ (rest : List String) (a : String) (ga : ℚ), G a = some ga →
      List.Chain' (fun u v => P v = some u) (a :: rest) →
      ∀ last ∈ (a :: rest).getLast?,
        ∃ costs, CostChain p (a :: rest) costs ∧ G last = some (ga + costs.sum) := by
  intro rest
  induction rest with
  | nil =>
    intro a ga hga _ last hlast
    rw [List.getLast?_singleton] at hlast
    rcases Option.mem_some_iff.mp hlast with rfl
    exact ⟨[], CostChain.single a, by rw [hga]; norm_num⟩
  | cons b rest' ih =>
    intro a ga hga hch last hlast
    rw [List.chain'_cons] at hch
    obtain ⟨hPb, hch'⟩ := hch
    obtain ⟨gy, c, hgy, hmem, hgb⟩ := g_edge b a hPb
    rw [hga] at hgy
    rcases Option.some.inj hgy with rfl
    have hlast' : last ∈ (b :: rest').getLast? := by
      rw [List.getLast?_cons_cons] at hlast
      cases rest' with
      | nil => exact hlast
      | cons u t => exact hlast
    obtain ⟨cs, hcc, hGlast⟩ := ih b (ga + c) hgb hch' last hlast'
    refine ⟨c :: cs, CostChain.cons c hmem hcc, ?_⟩
    rw [hGlast, List.sum_cons]
    ring_nf

/-! ### Cost invariants for UCS and A* -/

/-- The map invariant of the cost-aware algorithms: the parent invariant,
g(start) = 0, and every parent entry carries the relaxation equation
`g(x) = g(parent x) + c` for some resolver cost `c` of the pair. -/
structure CostMaps (p : Problem) (startId : String) (V : List String)
    (P : NMap String) (G : NMap ℚ) : Prop where
  pinv : ParentInv p startId V P
  g_start : G startId = some 0
  g_edge : ∀ x y, P x = some y →
    ∃ gy c, G y = some gy ∧ (x, c) ∈ getNeighbors p y ∧ G x = some (gy + c)

/-- Every queued id has a g value, a parent (unless it is the start), and is
non-empty. -/
def QProps (startId : String) (P : NMap String) (G : NMap ℚ)
    (q : List (String × ℚ)) : Prop :=
  ∀ x ∈ pqToArray q, (G x).isSome = true ∧ (x ≠ startId → (P x).isSome = true) ∧ x ≠ ""

/-- Extending the visited list with a fresh node preserves the parent
invariant, provided the node has a parent when it is not the start. -/
theorem parentInv_extend (p : Problem) (startId : String) (V : List String)
    (P : NMap String) (inv : ParentInv p startId V P) (current : String)
    (hcur : current ∉ V) (hcne : current ≠ "")
    (hpar : current ≠ startId → (P current).isSome = true) :
    ParentInv p startId (V ++ [current]) P := by
  refine ⟨inv.start_none, ?_, ?_, ?_, ?_⟩
  · intro x y h
    obtain ⟨hyV, hc⟩ := inv.edge x y h
    exact ⟨List.mem_append_left _ hyV, hc⟩
  · intro x hx hxs
    rcases List.mem_append.mp hx with hxV | hxc
    · obtain ⟨y, hy, hidx⟩ := inv.rank x hxV hxs
      have hyV := (inv.edge x y hy).1
      refine ⟨y, hy, ?_⟩
      rw [List.indexOf_append_of_mem hyV, List.indexOf_append_of_mem hxV]
      exact hidx
    · rcases List.mem_singleton.mp hxc with rfl
      obtain ⟨y, hy⟩ := Option.isSome_iff_exists.mp (hpar hxs)
      have hyV := (inv.edge x y hy).1
      refine ⟨y, hy, ?_⟩
      rw [List.indexOf_append_of_mem hyV, List.indexOf_append_of_not_mem hcur,
        List.indexOf_cons_self]
      have := List.indexOf_lt_length.mpr hyV
      omega
  · rw [List.nodup_append]
    exact ⟨inv.nodup, List.nodup_singleton _, by simpa using hcur⟩
  · intro x hx
    rcases List.mem_append.mp hx with h | h
    · exact inv.ne_empty x h
    · rcases List.mem_singleton.mp h with rfl
      exact hcne

/-- Extending the visited list preserves the cost-map invariant. -/
theorem costMaps_extend (p : Problem) (startId : String) (V : List String)
    (P : NMap String) (G : NMap ℚ) (inv : CostMaps p startId V P G)
    (current : String) (hcur : current ∉ V) (hcne : current ≠ "")
    (hpar : current ≠ startId → (P current).isSome = true) :
    CostMaps p startId (V ++ [current]) P G :=
  ⟨parentInv_extend p startId V P inv.pinv current hcur hcne hpar,
    inv.g_start, inv.g_edge⟩

/-- One relaxation update (setting parent and g of an unvisited neighbor of
the just-visited node) preserves the cost-map invariant. -/
theorem costMaps_relaxOne (p : Problem) (startId : String) (V : List String)
    (P : NMap String) (G : NMap ℚ) (inv : CostMaps p startId V P G)
    (current id : String) (cost gCur : ℚ) (hcurV : current ∈ V)
    (hstartV : startId ∈ V) (hidV : id ∉ V)
    (hmem : (id, cost) ∈ getNeighbors p current) (hGc : G current = some gCur) :
    CostMaps p startId V (P.set id current) (G.set id (gCur + cost)) := by
  have hids : id ≠ startId := fun h => hidV (h ▸ hstartV)
  have hidc : id ≠ current := fun h => hidV (h ▸ hcurV)
  refine ⟨⟨?_, ?_, ?_, inv.pinv.nodup, inv.pinv.ne_empty⟩, ?_, ?_⟩
  · rw [NMap.set_other _ _ _ _ (Ne.symm hids)]
    exact inv.pinv.start_none
  · intro x y h
    by_cases hx : x = id
    · subst hx
      rw [NMap.set_self] at h
      rcases Option.some.inj h with rfl
      exact ⟨hcurV, cost, hmem⟩
    · rw [NMap.set_other _ _ _ _ hx] at h
      exact inv.pinv.edge x y h
  · intro x hx hxs
    have hxid : x ≠ id := fun h => hidV (h ▸ hx)
    obtain ⟨y, hy, hidx⟩ := inv.pinv.rank x hx hxs
    exact ⟨y, by rw [NMap.set_other _ _ _ _ hxid]; exact hy, hidx⟩
  · rw [NMap.set_other _ _ _ _ (Ne.symm hids)]
    exact inv.g_start
  · intro x y h
    by_cases hx : x = id
    · subst hx
      rw [NMap.set_self] at h
      rcases Option.some.inj h with rfl
      refine ⟨gCur, cost, ?_, hmem, NMap.set_self _ _ _⟩
      rw [NMap.set_other _ _ _ _ (Ne.symm hidc)]
      exact hGc
    · rw [NMap.set_other _ _ _ _ hx] at h
      obtain ⟨gy, c, hgy, hmemy, hgx⟩ := inv.g_edge x y h
      have hyV := (inv.pinv.edge x y h).1
      have hyid : y ≠ id := fun hcontra => hidV (hcontra ▸ hyV)
      refine ⟨gy, c, ?_, hmemy, ?_⟩
      · rw [NMap.set_other _ _ _ _ hyid]
        exact hgy
      · rw [NMap.set_other _ _ _ _ hx]
        exact hgx

/-- Membership in the queue after an enqueue. -/
theorem pqEnqueue_mem (q : List (String × ℚ)) (item x : String) (prio : ℚ) :
    x ∈ pqToArray (pqEnqueue q item prio) ↔ x ∈ pqToArray q ∨ x = item := by
  rw [pqEnqueue, pqToArray]
  constructor
  · intro hx
    obtain ⟨e, he, rfl⟩ := List.mem_map.mp hx
    have he' := (List.perm_insertionSort prioLE (q ++ [(item, prio)])).mem_iff.mp he
    rcases List.mem_append.mp he' with h | h
    · exact Or.inl (List.mem_map_of_mem _ h)
    · rcases List.mem_singleton.mp h with rfl
      exact Or.inr rfl
  · intro hx
    rcases hx with hx | rfl
    · obtain ⟨e, he, rfl⟩ := List.mem_map.mp hx
      exact List.mem_map_of_mem _
        ((List.perm_insertionSort prioLE (q ++ [(item, prio)])).mem_iff.mpr
          (List.mem_append_left _ he))
    · exact List.mem_map_of_mem _
        ((List.perm_insertionSort prioLE _).mem_iff.mpr
          (List.mem_append_right _ (List.mem_singleton_self _)))

/-- The relaxation loop of UCS preserves the cost-map invariant and the
queue properties. -/
theorem ucsRelax_preserves (p : Problem) (startId current : String) (gCur : ℚ)
    (V : List String) (hcurV : current ∈ V) (hstartV : startId ∈ V)
    (hneids : ∀ a q c, (q, c) ∈ getNeighbors p a → q ≠ "") :
    ∀ (l : List (String × ℚ)), (∀ e ∈ l, e ∈ getNeighbors p current) →
    ∀ (pq : List (String × ℚ)) (P : NMap String) (G : NMap ℚ),
      CostMaps p startId V P G → QProps startId P G pq → G current = some gCur →
      CostMaps p startId V (ucsRelax current gCur V l pq P G).2.1
          (ucsRelax current gCur V l pq P G).2.2 ∧
        QProps startId (ucsRelax current gCur V l pq P G).2.1
          (ucsRelax current gCur V l pq P G).2.2
          (ucsRelax current gCur V l pq P G).1 := by
  intro l
  induction l with
  | nil =>
    intro _ pq P G hmaps hq _
    exact ⟨hmaps, hq⟩
  | cons e rest ih =>
    intro hl pq P G hmaps hq hGc
    obtain ⟨id, cost⟩ := e
    have hmem : (id, cost) ∈ getNeighbors p current := hl _ (List.mem_cons_self _ _)
    have hidne : id ≠ "" := hneids current id cost hmem
    have hrest : ∀ e ∈ rest, e ∈ getNeighbors p current :=
      fun e he => hl e (List.mem_cons_of_mem _ he)
    rw [ucsRelax]
    by_cases hidV : id ∈ V
    · rw [if_neg (by simpa using hidV)]
      exact ih hrest pq P G hmaps hq hGc
    · rw [if_pos (by simpa using hidV)]
      set improves : Bool :=
        (match G id with
        | none => true
        | some g => decide (gCur + cost < g)) with himp
      by_cases himpv : improves = true
      · rw [if_pos himpv]
        have hids : id ≠ startId := fun h => hidV (h ▸ hstartV)
        have hidc : id ≠ current := fun h => hidV (h ▸ hcurV)
        apply ih hrest
        · exact costMaps_relaxOne p startId V P G hmaps current id cost gCur hcurV
            hstartV hidV hmem hGc
        · intro x hx
          rcases (pqEnqueue_mem pq id x (gCur + cost)).mp hx with hx | rfl
          · obtain ⟨hg, hp, hne⟩ := hq x hx
            by_cases hxid : x = id
            · subst hxid
              exact ⟨by rw [NMap.set_self]; rfl,
                fun _ => by rw [NMap.set_self]; rfl, hne⟩
            · exact ⟨by rw [NMap.set_other _ _ _ _ hxid]; exact hg,
                fun hxs => by rw [NMap.set_other _ _ _ _ hxid]; exact hp hxs, hne⟩
          · exact ⟨by rw [NMap.set_self]; rfl, fun _ => by rw [NMap.set_self]; rfl, hidne⟩
        · rw [NMap.set_other _ _ _ _ (Ne.symm hidc)]
          exact hGc
      · rw [if_neg himpv]
        exact ih hrest pq P G hmaps hq hGc

/-- The full loop invariant of `runUCS`. -/
structure UcsInv (p : Problem) (startId : String) (s : UcsSt) : Prop where
  maps : CostMaps p startId s.visited s.parentMap s.gValues
  qprops : QProps startId s.parentMap s.gValues s.pq
  start_in : startId ∈ s.visited ∨ (s.visited = [] ∧ s.pq = [(startId, 0)])

/-- A successful result carries a parent-reconstructed path together with a
resolver cost assignment whose sum is the reported path cost. -/
def CostOk (p : Problem) (r : SearchResult) : Prop :=
  r.success = true →
    ∃ pth costs, r.finalPath = some pth ∧ CostChain p pth costs ∧
      r.pathCost = some costs.sum

/-- A looping `ucsStep` preserves the UCS invariant. -/
theorem ucsStep_inv_inl (p : Problem) (startId goalId : String)
    (hneids : ∀ a q c, (q, c) ∈ getNeighbors p a → q ≠ "")
    (s s' : UcsSt) (hinv : UcsInv p startId s)
    (h : ucsStep p goalId s = some (.inl s')) : UcsInv p startId s' := by
  rw [ucsStep] at h
  simp only [Option.some.injEq] at h
  split at h
  · exact absurd h (by simp)
  next current prio rest heq =>
    split at h
    next hcurV =>
      cases h
      refine ⟨hinv.maps, ?_, ?_⟩
      · intro x hx
        exact hinv.qprops x (by rw [heq, pqToArray]; exact List.mem_cons_of_mem _ hx)
      · left
        rcases hinv.start_in with h1 | ⟨h1, _⟩
        · exact h1
        · rw [h1] at hcurV
          exact absurd hcurV (List.not_mem_nil _)
    next hcurV =>
      split at h
      · exact absurd h (by simp)
      next hgoal =>
        cases h
        have hcurQ : current ∈ pqToArray s.pq := by
          rw [heq]
          exact List.mem_map_of_mem _ (List.mem_cons_self _ _)
        obtain ⟨hGcur, hPcur, hcurne⟩ := hinv.qprops current hcurQ
        obtain ⟨gCur, hGc⟩ := Option.isSome_iff_exists.mp hGcur
        have hvis : addSet s.visited current = s.visited ++ [current] := by
          rw [addSet, if_neg hcurV]
        have hstart' : startId ∈ addSet s.visited current := by
          rcases hinv.start_in with h1 | ⟨h1, h2⟩
          · exact (addSet_mem _ _ _).mpr (Or.inl h1)
          · rw [heq] at h2
            rcases List.cons.inj h2.symm with ⟨hpair, _⟩
            rcases Prod.mk.inj hpair with ⟨rfl, _⟩
            exact (addSet_mem _ _ _).mpr (Or.inr rfl)
        have hcur' : current ∈ addSet s.visited current :=
          (addSet_mem _ _ _).mpr (Or.inr rfl)
        have hmaps' : CostMaps p startId (addSet s.visited current)
            s.parentMap s.gValues := by
          rw [hvis]
          exact costMaps_extend p startId s.visited s.parentMap s.gValues
            hinv.maps current hcurV hcurne hPcur
        have hqrest : QProps startId s.parentMap s.gValues rest := by
          intro x hx
          exact hinv.qprops x (by rw [heq, pqToArray]; exact List.mem_cons_of_mem _ hx)
        have hrelax := ucsRelax_preserves p startId current gCur
          (addSet s.visited current) hcur' hstart' hneids
          (getNeighbors p current) (fun e he => he) rest s.parentMap s.gValues
          hmaps' hqrest hGc
        have hgetD : (s.gValues current).getD 0 = gCur := by
          rw [hGc]
          rfl
        rw [hgetD]
        exact ⟨hrelax.1, hrelax.2, Or.inl hstart'⟩

/-- A finishing `ucsStep` produces a cost-consistent result. -/
theorem ucsStep_inv_inr (p : Problem) (startId goalId : String)
    (s : UcsSt) (r : SearchResult) (hinv : UcsInv p startId s)
    (h : ucsStep p goalId s = some (.inr r)) : CostOk p r := by
  rw [ucsStep] at h
  simp only [Option.some.injEq] at h
  split at h
  · cases h
    intro hsucc
    exact absurd hsucc (by simp [ucsFailure])
  next current prio rest heq =>
    split at h
    · exact absurd h (by simp)
    next hcurV =>
      split at h
      next hgoal =>
        cases h
        intro _
        have hcurQ : current ∈ pqToArray s.pq := by
          rw [heq]
          exact List.mem_map_of_mem _ (List.mem_cons_self _ _)
        obtain ⟨hGcur, hPcur, hcurne⟩ := hinv.qprops current hcurQ
        have hvis : addSet s.visited current = s.visited ++ [current] := by
          rw [addSet, if_neg hcurV]
        have hcur' : current ∈ addSet s.visited current :=
          (addSet_mem _ _ _).mpr (Or.inr rfl)
        have hpinv' : ParentInv p startId (addSet s.visited current) s.parentMap := by
          rw [hvis]
          exact parentInv_extend p startId s.visited s.parentMap hinv.maps.pinv
            current hcurV hcurne hPcur
        subst hgoal
        obtain ⟨pth, hpth, hhead, hlast, _, _, hch⟩ :=
          reconstructPath_valid p startId (addSet s.visited current) s.parentMap
            hpinv' current hcur'
        match pth, hhead with
        | a :: restp, hhead =>
          have ha : a = startId := Option.some.inj hhead
          rw [ha] at hpth hlast hch
          obtain ⟨costs, hcc, hGlast⟩ :=
            pchain_cost_sum p s.parentMap s.gValues hinv.maps.g_edge restp startId 0
              hinv.maps.g_start hch current hlast
          refine ⟨startId :: restp, costs, by rw [hpth], hcc, ?_⟩
          show s.gValues current = some costs.sum
          rw [hGlast, zero_add]
      · exact absurd h (by simp)

/-- Any result produced by `runUCS` on a problem without empty ids is
cost-consistent. -/
theorem runUCS_cost (p : Problem) (hne : NoEmptyIds p) (fuel : ℕ)
    (r : SearchResult) (h : runUCS p fuel = some r) : CostOk p r := by
  rw [runUCS] at h
  refine iterate_invariant
    (ucsStep_inv_inl p (getStartId p) (getGoalId p) hne.2)
    (ucsStep_inv_inr p (getStartId p) (getGoalId p)) fuel _ r ?_ h
  refine ⟨⟨⟨rfl, ?_, ?_, List.nodup_nil, ?_⟩, NMap.set_self _ _ _, ?_⟩, ?_, ?_⟩
  · intro x y hxy
    exact absurd hxy (by simp [NMap.empty])
  · intro x hx
    exact absurd hx (List.not_mem_nil _)
  · intro x hx
    exact absurd hx (List.not_mem_nil _)
  · intro x y hxy
    exact absurd hxy (by simp [NMap.empty])
  · intro x hx
    have hx' : x = getStartId p := by simpa [pqToArray] using hx
    subst hx'
    refine ⟨?_, fun hxs => absurd rfl hxs, hne.1⟩
    show ((NMap.empty.set (getStartId p) 0) (getStartId p)).isSome = true
    rw [NMap.set_self]
    rfl
  · exact Or.inr ⟨rfl, rfl⟩

/-- The relaxation loop of A* preserves the cost-map invariant and the queue
properties; the h and f maps do not interfere. -/
theorem astarRelax_preserves (sq : ℚ → ℚ) (p : Problem) (startId goalId current : String)
    (gCur : ℚ) (V : List String) (hcurV : current ∈ V) (hstartV : startId ∈ V)
    (hneids : ∀ a q c, (q, c) ∈ getNeighbors p a → q ≠ "") :
    ∀ (l : List (String × ℚ)), (∀ e ∈ l, e ∈ getNeighbors p current) →
    ∀ (pq : List (String × ℚ)) (P : NMap String) (G hv fv : NMap ℚ),
      CostMaps p startId V P G → QProps startId P G pq → G current = some gCur →
      CostMaps p startId V (astarRelax sq p goalId current gCur V l pq P G hv fv).2.1
          (astarRelax sq p goalId current gCur V l pq P G hv fv).2.2.1 ∧
        QProps startId (astarRelax sq p goalId current gCur V l pq P G hv fv).2.1
          (astarRelax sq p goalId current gCur V l pq P G hv fv).2.2.1
          (astarRelax sq p goalId current gCur V l pq P G hv fv).1 := by
  intro l
  induction l with
  | nil =>
    intro _ pq P G hv fv hmaps hq _
    exact ⟨hmaps, hq⟩
  | cons e rest ih =>
    intro hl pq P G hv fv hmaps hq hGc
    obtain ⟨id, cost⟩ := e
    have hmem : (id, cost) ∈ getNeighbors p current := hl _ (List.mem_cons_self _ _)
    have hidne : id ≠ "" := hneids current id cost hmem
    have hrest : ∀ e ∈ rest, e ∈ getNeighbors p current :=
      fun e he => hl e (List.mem_cons_of_mem _ he)
    rw [astarRelax]
    by_cases hidV : id ∈ V
    · rw [if_neg (by simpa using hidV)]
      exact ih hrest pq P G hv fv hmaps hq hGc
    · rw [if_pos (by simpa using hidV)]
      set improves : Bool :=
        (match G id with
        | none => true
        | some g => decide (gCur + cost < g)) with himp
      by_cases himpv : improves = true
      · rw [if_pos himpv]
        have hids : id ≠ startId := fun h => hidV (h ▸ hstartV)
        have hidc : id ≠ current := fun h => hidV (h ▸ hcurV)
        apply ih hrest
        · exact costMaps_relaxOne p startId V P G hmaps current id cost gCur hcurV
            hstartV hidV hmem hGc
        · intro x hx
          rcases (pqEnqueue_mem pq id x _).mp hx with hx | rfl
          · obtain ⟨hg, hp, hne⟩ := hq x hx
            by_cases hxid : x = id
            · subst hxid
              exact ⟨by rw [NMap.set_self]; rfl,
                fun _ => by rw [NMap.set_self]; rfl, hne⟩
            · exact ⟨by rw [NMap.set_other _ _ _ _ hxid]; exact hg,
                fun hxs => by rw [NMap.set_other _ _ _ _ hxid]; exact hp hxs, hne⟩
          · exact ⟨by rw [NMap.set_self]; rfl, fun _ => by rw [NMap.set_self]; rfl, hidne⟩
        · rw [NMap.set_other _ _ _ _ (Ne.symm hidc)]
          exact hGc
      · rw [if_neg himpv]
        exact ih hrest pq P G hv fv hmaps hq hGc

/-- The full loop invariant of `runAStar`. -/
structure AStarInv (p : Problem) (startId : String) (s : AStarSt) : Prop where
  maps : CostMaps p startId s.visited s.parentMap s.gValues
  qprops : QProps startId s.parentMap s.gValues s.pq
  start_in : startId ∈ s.visited ∨ (s.visited = [] ∧ ∃ pr, s.pq = [(startId, pr)])

/-- A looping `astarStep` preserves the A* invariant. -/
theorem astarStep_inv_inl (sq : ℚ → ℚ) (p : Problem) (startId goalId : String)
    (hneids : ∀ a q c, (q, c) ∈ getNeighbors p a → q ≠ "")
    (s s' : AStarSt) (hinv : AStarInv p startId s)
    (h : astarStep sq p goalId s = some (.inl s')) : AStarInv p startId s' := by
  rw [astarStep] at h
  simp only [Option.some.injEq] at h
  split at h
  · exact absurd h (by simp)
  next current prio rest heq =>
    split at h
    next hcurV =>
      cases h
      refine ⟨hinv.maps, ?_, ?_⟩
      · intro x hx
        exact hinv.qprops x (by rw [heq, pqToArray]; exact List.mem_cons_of_mem _ hx)
      · left
        rcases hinv.start_in with h1 | ⟨h1, _⟩
        · exact h1
        · rw [h1] at hcurV
          exact absurd hcurV (List.not_mem_nil _)
    next hcurV =>
      split at h
      · exact absurd h (by simp)
      next hgoal =>
        cases h
        have hcurQ : current ∈ pqToArray s.pq := by
          rw [heq]
          exact List.mem_map_of_mem _ (List.mem_cons_self _ _)
        obtain ⟨hGcur, hPcur, hcurne⟩ := hinv.qprops current hcurQ
        obtain ⟨gCur, hGc⟩ := Option.isSome_iff_exists.mp hGcur
        have hvis : addSet s.visited current = s.visited ++ [current] := by
          rw [addSet, if_neg hcurV]
        have hstart' : startId ∈ addSet s.visited current := by
          rcases hinv.start_in with h1 | ⟨h1, pr, h2⟩
          · exact (addSet_mem _ _ _).mpr (Or.inl h1)
          · rw [heq] at h2
            rcases List.cons.inj h2 with ⟨hpair, _⟩
            rcases Prod.mk.inj hpair with ⟨rfl, _⟩
            exact (addSet_mem _ _ _).mpr (Or.inr rfl)
        have hcur' : current ∈ addSet s.visited current :=
          (addSet_mem _ _ _).mpr (Or.inr rfl)
        have hmaps' : CostMaps p startId (addSet s.visited current)
            s.parentMap s.gValues := by
          rw [hvis]
          exact costMaps_extend p startId s.visited s.parentMap s.gValues
            hinv.maps current hcurV hcurne hPcur
        have hqrest : QProps startId s.parentMap s.gValues rest := by
          intro x hx
          exact hinv.qprops x (by rw [heq, pqToArray]; exact List.mem_cons_of_mem _ hx)
        have hrelax := astarRelax_preserves sq p startId goalId current gCur
          (addSet s.visited current) hcur' hstart' hneids
          (getNeighbors p current) (fun e he => he) rest s.parentMap s.gValues
          s.hValues s.fValues hmaps' hqrest hGc
        have hgetD : (s.gValues current).getD 0 = gCur := by
          rw [hGc]
          rfl
        rw [hgetD]
        exact ⟨hrelax.1, hrelax.2, Or.inl hstart'⟩

/-- A finishing `astarStep` produces a cost-consistent result. -/
theorem astarStep_inv_inr (sq : ℚ → ℚ) (p : Problem) (startId goalId : String)
    (s : AStarSt) (r : SearchResult) (hinv : AStarInv p startId s)
    (h : astarStep sq p goalId s = some (.inr r)) : CostOk p r := by
  rw [astarStep] at h
  simp only [Option.some.injEq] at h
  split at h
  · cases h
    intro hsucc
    exact absurd hsucc (by simp [astarFailure])
  next current prio rest heq =>
    split at h
    · exact absurd h (by simp)
    next hcurV =>
      split at h
      next hgoal =>
        cases h
        intro _
        have hcurQ : current ∈ pqToArray s.pq := by
          rw [heq]
          exact List.mem_map_of_mem _ (List.mem_cons_self _ _)
        obtain ⟨hGcur, hPcur, hcurne⟩ := hinv.qprops current hcurQ
        have hvis : addSet s.visited current = s.visited ++ [current] := by
          rw [addSet, if_neg hcurV]
        have hcur' : current ∈ addSet s.visited current :=
          (addSet_mem _ _ _).mpr (Or.inr rfl)
        have hpinv' : ParentInv p startId (addSet s.visited current) s.parentMap := by
          rw [hvis]
          exact parentInv_extend p startId s.visited s.parentMap hinv.maps.pinv
            current hcurV hcurne hPcur
        subst hgoal
        obtain ⟨pth, hpth, hhead, hlast, _, _, hch⟩ :=
          reconstructPath_valid p startId (addSet s.visited current) s.parentMap
            hpinv' current hcur'
        match pth, hhead with
        | a :: restp, hhead =>
          have ha : a = startId := Option.some.inj hhead
          rw [ha] at hpth hlast hch
          obtain ⟨costs, hcc, hGlast⟩ :=
            pchain_cost_sum p s.parentMap s.gValues hinv.maps.g_edge restp startId 0
              hinv.maps.g_start hch current hlast
          refine ⟨startId :: restp, costs, by rw [hpth], hcc, ?_⟩
          show s.gValues current = some costs.sum
          rw [hGlast, zero_add]
      · exact absurd h (by simp)

/-- Any result produced by `runAStar` on a problem without empty ids is
cost-consistent. -/
theorem runAStar_cost (sq : ℚ → ℚ) (p : Problem) (hne : NoEmptyIds p) (fuel : ℕ)
    (r : SearchResult) (h : runAStar sq p fuel = some r) : CostOk p r := by
  rw [runAStar] at h
  refine iterate_invariant
    (astarStep_inv_inl sq p (getStartId p) (getGoalId p) hne.2)
    (astarStep_inv_inr sq p (getStartId p) (getGoalId p)) fuel _ r ?_ h
  refine ⟨⟨⟨rfl, ?_, ?_, List.nodup_nil, ?_⟩, NMap.set_self _ _ _, ?_⟩, ?_, ?_⟩
  · intro x y hxy
    exact absurd hxy (by simp [NMap.empty])
  · intro x hx
    exact absurd hx (List.not_mem_nil _)
  · intro x hx
    exact absurd hx (List.not_mem_nil _)
  · intro x y hxy
    exact absurd hxy (by simp [NMap.empty])
  · intro x hx
    have hx' : x = getStartId p := by
      simpa [pqToArray, pqEnqueue, List.insertionSort, List.orderedInsert] using hx
    subst hx'
    refine ⟨?_, fun hxs => absurd rfl hxs, hne.1⟩
    show ((NMap.empty.set (getStartId p) 0) (getStartId p)).isSome = true
    rw [NMap.set_self]
    rfl
  · exact Or.inr ⟨rfl, _, rfl⟩

/-- On success `runBFS` reports `pathCost = path.length - 1`: moves are
counted, weights and diagonal costs are ignored. -/
theorem runBFS_pathCost (p : Problem) (fuel : ℕ) (r : SearchResult)
    (h : runBFS p fuel = some r) : r.success = true →
    ∃ pth, r.finalPath = some pth ∧ r.pathCost = some ((pth.length : ℚ) - 1) := by
  rw [runBFS] at h
  refine @iterate_invariant _ _ _ (fun _ => True)
    (fun r' => r'.success = true →
      ∃ pth, r'.finalPath = some pth ∧ r'.pathCost = some ((pth.length : ℚ) - 1))
    (fun _ _ _ _ => trivial) ?_ fuel _ r trivial h
  intro s r' _ hstep
  rw [bfsStep] at hstep
  simp only [Option.some.injEq] at hstep
  split at hstep
  · cases hstep
    intro hsucc
    exact absurd hsucc (by simp [bfsFailure])
  · split at hstep
    · exact absurd hstep (by simp)
    · split at hstep
      · cases hstep
        intro _
        exact ⟨_, rfl, rfl⟩
      · exact absurd hstep (by simp)

/-- A `filterMap` whose hits determine their source produces pairwise
distinct first components. -/
theorem filterMap_targets_nodup {α : Type} (f : α → Option (String × ℚ))
    (inj : ∀ d d' x x', f d = some x → f d' = some x' → x.1 = x'.1 → d = d') :
    ∀ l : List α, l.Nodup → ((l.filterMap f).map Prod.fst).Nodup := by
  intro l
  induction l with
  | nil => intro _; simp
  | cons d rest ih =>
    intro hnd
    rcases List.nodup_cons.mp hnd with ⟨hd, hrest⟩
    rw [List.filterMap_cons]
    cases hf : f d with
    | none => exact ih hrest
    | some x =>
      rw [List.map_cons]
      refine List.nodup_cons.mpr ⟨?_, ih hrest⟩
      intro hmem
      obtain ⟨y, hy, hyx⟩ := List.mem_map.mp hmem
      obtain ⟨d', hd', hfd'⟩ := List.mem_filterMap.mp hy
      refine hd ?_
      rw [inj d d' x y hf hfd' hyx.symm]
      exact hd'

/-- The direction lists have no repeated offsets. -/
theorem gridDirections_nodup (b : Bool) : (gridDirections b).Nodup := by
  cases b <;> decide

/-- Distinct directions from the same decoded cell reach distinct target
ids. -/
theorem getGridNeighbors_fst_nodup (g : GridProblem) (a : String) :
    ((getGridNeighbors g a).map Prod.fst).Nodup := by
  rw [getGridNeighbors]
  cases hdec : idToGridCell a with
  | none => simp
  | some rc =>
    obtain ⟨row, col⟩ := rc
    refine filterMap_targets_nodup _ ?_ _ (gridDirections_nodup g.allowDiagonal)
    intro d d' x x' hf hf' hfst
    obtain ⟨hb, cell, _, _, hq, _⟩ :=
      (gridNeighborOfDir_some_iff g row col d x.1 x.2).mp hf
    obtain ⟨hb', cell', _, _, hq', _⟩ :=
      (gridNeighborOfDir_some_iff g row col d' x'.1 x'.2).mp hf'
    rw [hfst, hq'] at hq
    obtain ⟨h1, h2⟩ := gridCellToId_inj _ _ _ _ hq.symm
    have hr : (row : ℤ) + d.1 = (row : ℤ) + d'.1 := by
      rw [← Int.toNat_of_nonneg hb.1, ← Int.toNat_of_nonneg hb'.1, h1]
    have hc : (col : ℤ) + d.2 = (col : ℤ) + d'.2 := by
      rw [← Int.toNat_of_nonneg hb.2.2.1, ← Int.toNat_of_nonneg hb'.2.2.1, h2]
    exact Prod.ext (by omega) (by omega)

/-- A list with pairwise distinct first components has at most one entry for
each target. -/
theorem length_filter_fst_le_one (b : String) :
    ∀ l : List (String × ℚ), (l.map Prod.fst).Nodup →
      (l.filter (fun n => n.1 = b)).length ≤ 1 := by
  intro l
  induction l with
  | nil => intro _; simp
  | cons x rest ih =>
    intro hnd
    rw [List.map_cons, List.nodup_cons] at hnd
    rw [List.filter_cons]
    by_cases hx : x.1 = b
    · rw [if_pos (by simpa using hx)]
      have hnil : rest.filter (fun n => n.1 = b) = [] := by
        rw [List.filter_eq_nil_iff]
        intro y hy hyb
        refine hnd.1 ?_
        have hyb' : y.1 = b := by simpa using hyb
        rw [hx, ← hyb']
        exact List.mem_map_of_mem Prod.fst hy
      rw [hnil]
      simp
    · rw [if_neg (by simpa using hx)]
      exact ih hnd.2

/-! ### Path validity for every algorithm -/

/-- Setting the parent of an unvisited node to a visited neighbor source
preserves the parent invariant. -/
theorem parentInv_set (p : Problem) (startId : String) (V : List String)
    (P : NMap String) (inv : ParentInv p startId V P) (current id : String)
    (cost : ℚ) (hcurV : current ∈ V) (hstartV : startId ∈ V) (hidV : id ∉ V)
    (hmem : (id, cost) ∈ getNeighbors p current) :
    ParentInv p startId V (P.set id current) := by
  have hids : id ≠ startId := fun h => hidV (h ▸ hstartV)
  refine ⟨?_, ?_, ?_, inv.nodup, inv.ne_empty⟩
  · rw [NMap.set_other _ _ _ _ (Ne.symm hids)]
    exact inv.start_none
  · intro x y h
    by_cases hx : x = id
    · subst hx
      rw [NMap.set_self] at h
      rcases Option.some.inj h with rfl
      exact ⟨hcurV, cost, hmem⟩
    · rw [NMap.set_other _ _ _ _ hx] at h
      exact inv.edge x y h
  · intro x hx hxs
    have hxid : x ≠ id := fun h => hidV (h ▸ hx)
    obtain ⟨y, hy, hidx⟩ := inv.rank x hx hxs
    exact ⟨y, by rw [NMap.set_other _ _ _ _ hxid]; exact hy, hidx⟩

/-- Frontier property shared by the algorithms that do not track g: every
frontier id has a parent (unless it is the start) and is non-empty. -/
def FProps (startId : String) (P : NMap String) (ids : List String) : Prop :=
  ∀ x ∈ ids, (x ≠ startId → (P x).isSome = true) ∧ x ≠ ""

/-- A successful result's path is parent-reconstructed: start head, goal
last, no repetition, consecutive resolver neighbors. -/
def PathOk (p : Problem) (startId goalId : String) (r : SearchResult) : Prop :=
  r.success = true →
    ∃ pth, r.finalPath = some pth ∧ pth.head? = some startId ∧
      pth.getLast? = some goalId ∧ pth.Nodup ∧
      List.Chain' (fun a b => ∃ c, (b, c) ∈ getNeighbors p a) pth

/-- `reconstructPath` under the parent invariant yields a valid path whose
consecutive pairs are resolver neighbors. -/
theorem reconstructPath_pathOk (p : Problem) (startId : String) (V : List String)
    (P : NMap String) (inv : ParentInv p startId V P) (goal : String)
    (hg : goal ∈ V) :
    ∃ pth, reconstructPath P goal (V.length + 1) = pth ∧ pth.head? = some startId ∧
      pth.getLast? = some goal ∧ pth.Nodup ∧
      List.Chain' (fun a b => ∃ c, (b, c) ∈ getNeighbors p a) pth := by
  obtain ⟨pth, heq, hh, hl, hnd, _, hch⟩ := reconstructPath_valid p startId V P inv goal hg
  exact ⟨pth, heq, hh, hl, hnd, hch.imp (fun a b h => (inv.edge b a h).2)⟩

/-- The BFS loop invariant for path validity. -/
structure BfsInv (p : Problem) (startId : String) (s : BfsSt) : Prop where
  pinv : ParentInv p startId s.visited s.parentMap
  qprops : FProps startId s.parentMap s.queue
  start_in : startId ∈ s.visited ∨ (s.visited = [] ∧ s.queue = [startId])

/-- The BFS expansion loop preserves the parent invariant and the frontier
properties. -/
theorem bfsExpand_preserves (p : Problem) (startId current : String)
    (V : List String) (hcurV : current ∈ V) (hstartV : startId ∈ V)
    (hneids : ∀ a q c, (q, c) ∈ getNeighbors p a → q ≠ "") :
    ∀ (l : List (String × ℚ)), (∀ e ∈ l, e ∈ getNeighbors p current) →
    ∀ (q : List String) (P : NMap String),
      ParentInv p startId V P → FProps startId P q →
      ParentInv p startId V (bfsExpand current V l q P).2 ∧
        FProps startId (bfsExpand current V l q P).2 (bfsExpand current V l q P).1 := by
  intro l
  induction l with
  | nil =>
    intro _ q P hpinv hq
    exact ⟨hpinv, hq⟩
  | cons e rest ih =>
    intro hl q P hpinv hq
    obtain ⟨id, cost⟩ := e
    have hmem : (id, cost) ∈ getNeighbors p current := hl _ (List.mem_cons_self _ _)
    have hidne : id ≠ "" := hneids current id cost hmem
    have hrest : ∀ e ∈ rest, e ∈ getNeighbors p current :=
      fun e he => hl e (List.mem_cons_of_mem _ he)
    rw [bfsExpand]
    by_cases hguard : id ∉ V ∧ id ∉ q
    · rw [if_pos (by simpa using hguard)]
      refine ih hrest _ _
        (parentInv_set p startId V P hpinv current id cost hcurV hstartV hguard.1 hmem) ?_
      intro x hx
      rcases List.mem_append.mp hx with hx | hx
      · obtain ⟨hp, hne⟩ := hq x hx
        by_cases hxid : x = id
        · subst hxid
          exact ⟨fun _ => by rw [NMap.set_self]; rfl, hne⟩
        · exact ⟨fun hxs => by rw [NMap.set_other _ _ _ _ hxid]; exact hp hxs, hne⟩
      · rcases List.mem_singleton.mp hx with rfl
        exact ⟨fun _ => by rw [NMap.set_self]; rfl, hidne⟩
    · rw [if_neg (by simpa using hguard)]
      exact ih hrest q P hpinv hq

/-- A looping `bfsStep` preserves the BFS invariant. -/
theorem bfsStep_path_inl (p : Problem) (startId goalId : String)
    (hneids : ∀ a q c, (q, c) ∈ getNeighbors p a → q ≠ "")
    (s s' : BfsSt) (hinv : BfsInv p startId s)
    (h : bfsStep p goalId s = some (.inl s')) : BfsInv p startId s' := by
  rw [bfsStep] at h
  simp only [Option.some.injEq] at h
  split at h
  · exact absurd h (by simp)
  next current rest heq =>
    split at h
    next hcurV =>
      cases h
      refine ⟨hinv.pinv, ?_, ?_⟩
      · intro x hx
        exact hinv.qprops x (by rw [heq]; exact List.mem_cons_of_mem _ hx)
      · left
        rcases hinv.start_in with h1 | ⟨h1, _⟩
        · exact h1
        · rw [h1] at hcurV
          exact absurd hcurV (List.not_mem_nil _)
    next hcurV =>
      split at h
      · exact absurd h (by simp)
      next hgoal =>
        cases h
        have hcurQ : current ∈ s.queue := by
          rw [heq]
          exact List.mem_cons_self _ _
        obtain ⟨hPcur, hcurne⟩ := hinv.qprops current hcurQ
        have hvis : addSet s.visited current = s.visited ++ [current] := by
          rw [addSet, if_neg hcurV]
        have hstart' : startId ∈ addSet s.visited current := by
          rcases hinv.start_in with h1 | ⟨h1, h2⟩
          · exact (addSet_mem _ _ _).mpr (Or.inl h1)
          · rw [heq] at h2
            rcases List.cons.inj h2 with ⟨rfl, _⟩
            exact (addSet_mem _ _ _).mpr (Or.inr rfl)
        have hcur' : current ∈ addSet s.visited current :=
          (addSet_mem _ _ _).mpr (Or.inr rfl)
        have hpinv' : ParentInv p startId (addSet s.visited current) s.parentMap := by
          rw [hvis]
          exact parentInv_extend p startId s.visited s.parentMap hinv.pinv
            current hcurV hcurne hPcur
        have hqrest : FProps startId s.parentMap rest := by
          intro x hx
          exact hinv.qprops x (by rw [heq]; exact List.mem_cons_of_mem _ hx)
        have hexp := bfsExpand_preserves p startId current (addSet s.visited current)
          hcur' hstart' hneids (getNeighbors p current) (fun e he => he) rest
          s.parentMap hpinv' hqrest
        exact ⟨hexp.1, hexp.2, Or.inl hstart'⟩

/-- A finishing `bfsStep` produces a valid path. -/
theorem bfsStep_path_inr (p : Problem) (startId goalId : String)
    (s : BfsSt) (r : SearchResult) (hinv : BfsInv p startId s)
    (h : bfsStep p goalId s = some (.inr r)) : PathOk p startId goalId r := by
  rw [bfsStep] at h
  simp only [Option.some.injEq] at h
  split at h
  · cases h
    intro hsucc
    exact absurd hsucc (by simp [bfsFailure])
  next current rest heq =>
    split at h
    · exact absurd h (by simp)
    next hcurV =>
      split at h
      next hgoal =>
        cases h
        intro _
        have hcurQ : current ∈ s.queue := by
          rw [heq]
          exact List.mem_cons_self _ _
        obtain ⟨hPcur, hcurne⟩ := hinv.qprops current hcurQ
        have hvis : addSet s.visited current = s.visited ++ [current] := by
          rw [addSet, if_neg hcurV]
        have hcur' : current ∈ addSet s.visited current :=
          (addSet_mem _ _ _).mpr (Or.inr rfl)
        have hpinv' : ParentInv p startId (addSet s.visited current) s.parentMap := by
          rw [hvis]
          exact parentInv_extend p startId s.visited s.parentMap hinv.pinv
            current hcurV hcurne hPcur
        subst hgoal
        obtain ⟨pth, hpth, hh, hl, hnd, hch⟩ :=
          reconstructPath_pathOk p startId (addSet s.visited current) s.parentMap
            hpinv' current hcur'
        exact ⟨pth, by rw [hpth], hh, hl, hnd, hch⟩
      · exact absurd h (by simp)

/-- Any result of `runBFS` on a problem without empty ids has a valid path. -/
theorem runBFS_path (p : Problem) (hne : NoEmptyIds p) (fuel : ℕ)
    (r : SearchResult) (h : runBFS p fuel = some r) :
    PathOk p (getStartId p) (getGoalId p) r := by
  rw [runBFS] at h
  refine iterate_invariant
    (bfsStep_path_inl p (getStartId p) (getGoalId p) hne.2)
    (bfsStep_path_inr p (getStartId p) (getGoalId p)) fuel _ r ?_ h
  refine ⟨⟨rfl, ?_, ?_, List.nodup_nil, ?_⟩, ?_, Or.inr ⟨rfl, rfl⟩⟩
  · intro x y hxy
    exact absurd hxy (by simp [NMap.empty])
  · intro x hx
    exact absurd hx (List.not_mem_nil _)
  · intro x hx
    exact absurd hx (List.not_mem_nil _)
  · intro x hx
    rcases List.mem_singleton.mp hx with rfl
    exact ⟨fun hxs => absurd rfl hxs, hne.1⟩

/-- The DFS loop invariant for path validity. -/
structure DfsInv (p : Problem) (startId : String) (s : DfsSt) : Prop where
  pinv : ParentInv p startId s.visited s.parentMap
  sprops : FProps startId s.parentMap s.stack
  start_in : startId ∈ s.visited ∨ (s.visited = [] ∧ s.stack = [startId])

/-- The DFS expansion loop preserves the parent invariant and the stack
properties (its set-once parent update keeps any existing entry). -/
theorem dfsExpand_preserves (p : Problem) (startId current : String)
    (V : List String) (hcurV : current ∈ V) (hstartV : startId ∈ V)
    (hneids : ∀ a q c, (q, c) ∈ getNeighbors p a → q ≠ "") :
    ∀ (l : List (String × ℚ)), (∀ e ∈ l, e ∈ getNeighbors p current) →
    ∀ (st : List String) (P : NMap String),
      ParentInv p startId V P → FProps startId P st →
      ParentInv p startId V (dfsExpand current V l st P).2 ∧
        FProps startId (dfsExpand current V l st P).2 (dfsExpand current V l st P).1 := by
  intro l
  induction l with
  | nil =>
    intro _ st P hpinv hs
    exact ⟨hpinv, hs⟩
  | cons e rest ih =>
    intro hl st P hpinv hs
    obtain ⟨id, cost⟩ := e
    have hmem : (id, cost) ∈ getNeighbors p current := hl _ (List.mem_cons_self _ _)
    have hidne : id ≠ "" := hneids current id cost hmem
    have hrest : ∀ e ∈ rest, e ∈ getNeighbors p current :=
      fun e he => hl e (List.mem_cons_of_mem _ he)
    rw [dfsExpand]
    by_cases hidV : id ∈ V
    · rw [if_neg (by simpa using hidV)]
      exact ih hrest st P hpinv hs
    · rw [if_pos (by simpa using hidV)]
      have hstack : ∀ (P' : NMap String), (P' id).isSome = true →
          (∀ x, x ≠ id → P' x = P x) → FProps startId P' (st ++ [id]) := by
        intro P' hPid hPother x hx
        rcases List.mem_append.mp hx with hx | hx
        · obtain ⟨hp, hne⟩ := hs x hx
          by_cases hxid : x = id
          · subst hxid
            exact ⟨fun _ => hPid, hne⟩
          · exact ⟨fun hxs => by rw [hPother x hxid]; exact hp hxs, hne⟩
        · rcases List.mem_singleton.mp hx with rfl
          exact ⟨fun _ => hPid, hidne⟩
      split
      next hPid =>
        refine ih hrest _ _
          (parentInv_set p startId V P hpinv current id cost hcurV hstartV hidV hmem) ?_
        exact hstack (P.set id current) (by rw [NMap.set_self]; rfl)
          (fun x hxid => NMap.set_other _ _ _ _ hxid)
      next v hPid =>
        by_cases hv : v = ""
        · rw [if_pos hv]
          refine ih hrest _ _
            (parentInv_set p startId V P hpinv current id cost hcurV hstartV hidV hmem) ?_
          exact hstack (P.set id current) (by rw [NMap.set_self]; rfl)
            (fun x hxid => NMap.set_other _ _ _ _ hxid)
        · rw [if_neg hv]
          exact ih hrest _ _ hpinv (hstack P (by rw [hPid]; rfl) (fun _ _ => rfl))

/-- A looping `dfsStep` preserves the DFS invariant. -/
theorem dfsStep_path_inl (p : Problem) (startId goalId : String)
    (hneids : ∀ a q c, (q, c) ∈ getNeighbors p a → q ≠ "")
    (s s' : DfsSt) (hinv : DfsInv p startId s)
    (h : dfsStep p goalId s = some (.inl s')) : DfsInv p startId s' := by
  rw [dfsStep] at h
  simp only [Option.some.injEq] at h
  split at h
  · exact absurd h (by simp)
  next current heq =>
    have hcurS : current ∈ s.stack := List.mem_of_mem_getLast? heq
    have hsubrest : ∀ x ∈ s.stack.dropLast, x ∈ s.stack :=
      fun x hx => (List.dropLast_sublist s.stack).mem hx
    split at h
    next hcurV =>
      cases h
      refine ⟨hinv.pinv, ?_, ?_⟩
      · intro x hx
        exact hinv.sprops x (hsubrest x hx)
      · left
        rcases hinv.start_in with h1 | ⟨h1, _⟩
        · exact h1
        · rw [h1] at hcurV
          exact absurd hcurV (List.not_mem_nil _)
    next hcurV =>
      split at h
      · exact absurd h (by simp)
      next hgoal =>
        cases h
        obtain ⟨hPcur, hcurne⟩ := hinv.sprops current hcurS
        have hvis : addSet s.visited current = s.visited ++ [current] := by
          rw [addSet, if_neg hcurV]
        have hstart' : startId ∈ addSet s.visited current := by
          rcases hinv.start_in with h1 | ⟨h1, h2⟩
          · exact (addSet_mem _ _ _).mpr (Or.inl h1)
          · rw [h2] at heq
            rcases Option.some.inj heq with rfl
            exact (addSet_mem _ _ _).mpr (Or.inr rfl)
        have hcur' : current ∈ addSet s.visited current :=
          (addSet_mem _ _ _).mpr (Or.inr rfl)
        have hpinv' : ParentInv p startId (addSet s.visited current) s.parentMap := by
          rw [hvis]
          exact parentInv_extend p startId s.visited s.parentMap hinv.pinv
            current hcurV hcurne hPcur
        have hsrest : FProps startId s.parentMap s.stack.dropLast :=
          fun x hx => hinv.sprops x (hsubrest x hx)
        have hexp := dfsExpand_preserves p startId current (addSet s.visited current)
          hcur' hstart' hneids (getNeighbors p current).reverse
          (fun e he => List.mem_reverse.mp he) s.stack.dropLast
          s.parentMap hpinv' hsrest
        exact ⟨hexp.1, hexp.2, Or.inl hstart'⟩

/-- A finishing `dfsStep` produces a valid path. -/
theorem dfsStep_path_inr (p : Problem) (startId goalId : String)
    (s : DfsSt) (r : SearchResult) (hinv : DfsInv p startId s)
    (h : dfsStep p goalId s = some (.inr r)) : PathOk p startId goalId r := by
  rw [dfsStep] at h
  simp only [Option.some.injEq] at h
  split at h
  · cases h
    intro hsucc
    exact absurd hsucc (by simp [dfsFailure])
  next current heq =>
    have hcurS : current ∈ s.stack := List.mem_of_mem_getLast? heq
    split at h
    · exact absurd h (by simp)
    next hcurV =>
      split at h
      next hgoal =>
        cases h
        intro _
        obtain ⟨hPcur, hcurne⟩ := hinv.sprops current hcurS
        have hvis : addSet s.visited current = s.visited ++ [current] := by
          rw [addSet, if_neg hcurV]
        have hcur' : current ∈ addSet s.visited current :=
          (addSet_mem _ _ _).mpr (Or.inr rfl)
        have hpinv' : ParentInv p startId (addSet s.visited current) s.parentMap := by
          rw [hvis]
          exact parentInv_extend p startId s.visited s.parentMap hinv.pinv
            current hcurV hcurne hPcur
        subst hgoal
        obtain ⟨pth, hpth, hh, hl, hnd, hch⟩ :=
          reconstructPath_pathOk p startId (addSet s.visited current) s.parentMap
            hpinv' current hcur'
        exact ⟨pth, by rw [hpth], hh, hl, hnd, hch⟩
      · exact absurd h (by simp)

/-- Any result of `runDFS` on a problem without empty ids has a valid path. -/
theorem runDFS_path (p : Problem) (hne : NoEmptyIds p) (fuel : ℕ)
    (r : SearchResult) (h : runDFS p fuel = some r) :
    PathOk p (getStartId p) (getGoalId p) r := by
  rw [runDFS] at h
  refine iterate_invariant
    (dfsStep_path_inl p (getStartId p) (getGoalId p) hne.2)
    (dfsStep_path_inr p (getStartId p) (getGoalId p)) fuel _ r ?_ h
  refine ⟨⟨rfl, ?_, ?_, List.nodup_nil, ?_⟩, ?_, Or.inr ⟨rfl, rfl⟩⟩
  · intro x y hxy
    exact absurd hxy (by simp [NMap.empty])
  · intro x hx
    exact absurd hx (List.not_mem_nil _)
  · intro x hx
    exact absurd hx (List.not_mem_nil _)
  · intro x hx
    rcases List.mem_singleton.mp hx with rfl
    exact ⟨fun hxs => absurd rfl hxs, hne.1⟩

/-- The greedy loop invariant for path validity. -/
structure GreedyInv (p : Problem) (startId : String) (s : GreedySt) : Prop where
  pinv : ParentInv p startId s.visited s.parentMap
  qprops : FProps startId s.parentMap (pqToArray s.pq)
  start_in : startId ∈ s.visited ∨ (s.visited = [] ∧ ∃ pr, s.pq = [(startId, pr)])

/-- The greedy expansion loop preserves the parent invariant and the
frontier properties. -/
theorem greedyExpand_preserves (sq : ℚ → ℚ) (p : Problem) (startId goalId current : String)
    (gCur : ℚ) (V : List String) (hcurV : current ∈ V) (hstartV : startId ∈ V)
    (hneids : ∀ a q c, (q, c) ∈ getNeighbors p a → q ≠ "") :
    ∀ (l : List (String × ℚ)), (∀ e ∈ l, e ∈ getNeighbors p current) →
    ∀ (pq : List (String × ℚ)) (P : NMap String) (hv gv : NMap ℚ),
      ParentInv p startId V P → FProps startId P (pqToArray pq) →
      ParentInv p startId V (greedyExpand sq p goalId current gCur V l pq P hv gv).2.1 ∧
        FProps startId (greedyExpand sq p goalId current gCur V l pq P hv gv).2.1
          (pqToArray (greedyExpand sq p goalId current gCur V l pq P hv gv).1) := by
  intro l
  induction l with
  | nil =>
    intro _ pq P hv gv hpinv hq
    exact ⟨hpinv, hq⟩
  | cons e rest ih =>
    intro hl pq P hv gv hpinv hq
    obtain ⟨id, cost⟩ := e
    have hmem : (id, cost) ∈ getNeighbors p current := hl _ (List.mem_cons_self _ _)
    have hidne : id ≠ "" := hneids current id cost hmem
    have hrest : ∀ e ∈ rest, e ∈ getNeighbors p current :=
      fun e he => hl e (List.mem_cons_of_mem _ he)
    rw [greedyExpand]
    by_cases hidV : id ∈ V
    · rw [if_neg (by simpa using hidV)]
      exact ih hrest pq P hv gv hpinv hq
    · rw [if_pos (by simpa using hidV)]
      refine ih hrest _ _ _ _
        (parentInv_set p startId V P hpinv current id cost hcurV hstartV hidV hmem) ?_
      intro x hx
      rcases (pqEnqueue_mem pq id x _).mp hx with hx | rfl
      · obtain ⟨hp, hne⟩ := hq x hx
        by_cases hxid : x = id
        · subst hxid
          exact ⟨fun _ => by rw [NMap.set_self]; rfl, hne⟩
        · exact ⟨fun hxs => by rw [NMap.set_other _ _ _ _ hxid]; exact hp hxs, hne⟩
      · exact ⟨fun _ => by rw [NMap.set_self]; rfl, hidne⟩

/-- A looping `greedyStep` preserves the greedy invariant. -/
theorem greedyStep_path_inl (sq : ℚ → ℚ) (p : Problem) (startId goalId : String)
    (hneids : ∀ a q c, (q, c) ∈ getNeighbors p a → q ≠ "")
    (s s' : GreedySt) (hinv : GreedyInv p startId s)
    (h : greedyStep sq p goalId s = some (.inl s')) : GreedyInv p startId s' := by
  rw [greedyStep] at h
  simp only [Option.some.injEq] at h
  split at h
  · exact absurd h (by simp)
  next current prio rest heq =>
    split at h
    next hcurV =>
      cases h
      refine ⟨hinv.pinv, ?_, ?_⟩
      · intro x hx
        exact hinv.qprops x (by rw [heq, pqToArray]; exact List.mem_cons_of_mem _ hx)
      · left
        rcases hinv.start_in with h1 | ⟨h1, _⟩
        · exact h1
        · rw [h1] at hcurV
          exact absurd hcurV (List.not_mem_nil _)
    next hcurV =>
      split at h
      · exact absurd h (by simp)
      next hgoal =>
        cases h
        have hcurQ : current ∈ pqToArray s.pq := by
          rw [heq]
          exact List.mem_map_of_mem _ (List.mem_cons_self _ _)
        obtain ⟨hPcur, hcurne⟩ := hinv.qprops current hcurQ
        have hvis : addSet s.visited current = s.visited ++ [current] := by
          rw [addSet, if_neg hcurV]
        have hstart' : startId ∈ addSet s.visited current := by
          rcases hinv.start_in with h1 | ⟨h1, pr, h2⟩
          · exact (addSet_mem _ _ _).mpr (Or.inl h1)
          · rw [heq] at h2
            rcases List.cons.inj h2 with ⟨hpair, _⟩
            rcases Prod.mk.inj hpair with ⟨rfl, _⟩
            exact (addSet_mem _ _ _).mpr (Or.inr rfl)
        have hcur' : current ∈ addSet s.visited current :=
          (addSet_mem _ _ _).mpr (Or.inr rfl)
        have hpinv' : ParentInv p startId (addSet s.visited current) s.parentMap := by
          rw [hvis]
          exact parentInv_extend p startId s.visited s.parentMap hinv.pinv
            current hcurV hcurne hPcur
        have hqrest : FProps startId s.parentMap (pqToArray rest) := by
          intro x hx
          exact hinv.qprops x (by rw [heq, pqToArray]; exact List.mem_cons_of_mem _ hx)
        have hexp := greedyExpand_preserves sq p startId goalId current
          ((s.gValues current).getD 0) (addSet s.visited current) hcur' hstart' hneids
          (getNeighbors p current) (fun e he => he) rest s.parentMap
          s.hValues s.gValues hpinv' hqrest
        exact ⟨hexp.1, hexp.2, Or.inl hstart'⟩

/-- A finishing `greedyStep` produces a valid path. -/
theorem greedyStep_path_inr (sq : ℚ → ℚ) (p : Problem) (startId goalId : String)
    (s : GreedySt) (r : SearchResult) (hinv : GreedyInv p startId s)
    (h : greedyStep sq p goalId s = some (.inr r)) : PathOk p startId goalId r := by
  rw [greedyStep] at h
  simp only [Option.some.injEq] at h
  split at h
  · cases h
    intro hsucc
    exact absurd hsucc (by simp [greedyFailure])
  next current prio rest heq =>
    split at h
    · exact absurd h (by simp)
    next hcurV =>
      split at h
      next hgoal =>
        cases h
        intro _
        have hcurQ : current ∈ pqToArray s.pq := by
          rw [heq]
          exact List.mem_map_of_mem _ (List.mem_cons_self _ _)
        obtain ⟨hPcur, hcurne⟩ := hinv.qprops current hcurQ
        have hvis : addSet s.visited current = s.visited ++ [current] := by
          rw [addSet, if_neg hcurV]
        have hcur' : current ∈ addSet s.visited current :=
          (addSet_mem _ _ _).mpr (Or.inr rfl)
        have hpinv' : ParentInv p startId (addSet s.visited current) s.parentMap := by
          rw [hvis]
          exact parentInv_extend p startId s.visited s.parentMap hinv.pinv
            current hcurV hcurne hPcur
        subst hgoal
        obtain ⟨pth, hpth, hh, hl, hnd, hch⟩ :=
          reconstructPath_pathOk p startId (addSet s.visited current) s.parentMap
            hpinv' current hcur'
        exact ⟨pth, by rw [hpth], hh, hl, hnd, hch⟩
      · exact absurd h (by simp)

/-- Any result of `runGreedy` on a problem without empty ids has a valid
path. -/
theorem runGreedy_path (sq : ℚ → ℚ) (p : Problem) (hne : NoEmptyIds p) (fuel : ℕ)
    (r : SearchResult) (h : runGreedy sq p fuel = some r) :
    PathOk p (getStartId p) (getGoalId p) r := by
  rw [runGreedy] at h
  refine iterate_invariant
    (greedyStep_path_inl sq p (getStartId p) (getGoalId p) hne.2)
    (greedyStep_path_inr sq p (getStartId p) (getGoalId p)) fuel _ r ?_ h
  refine ⟨⟨rfl, ?_, ?_, List.nodup_nil, ?_⟩, ?_, Or.inr ⟨rfl, _, rfl⟩⟩
  · intro x y hxy
    exact absurd hxy (by simp [NMap.empty])
  · intro x hx
    exact absurd hx (List.not_mem_nil _)
  · intro x hx
    exact absurd hx (List.not_mem_nil _)
  · intro x hx
    have hx' : x = getStartId p := by
      simpa [pqToArray, pqEnqueue, List.insertionSort, List.orderedInsert] using hx
    subst hx'
    exact ⟨fun hxs => absurd rfl hxs, hne.1⟩

/-- Any result of `runUCS` on a problem without empty ids has a valid path. -/
theorem runUCS_path (p : Problem) (hne : NoEmptyIds p) (fuel : ℕ)
    (r : SearchResult) (h : runUCS p fuel = some r) :
    PathOk p (getStartId p) (getGoalId p) r := by
  rw [runUCS] at h
  refine iterate_invariant
    (ucsStep_inv_inl p (getStartId p) (getGoalId p) hne.2) ?_ fuel _ r ?_ h
  · intro s r' hinv hstep
    rw [ucsStep] at hstep
    simp only [Option.some.injEq] at hstep
    split at hstep
    · cases hstep
      intro hsucc
      exact absurd hsucc (by simp [ucsFailure])
    next current prio rest heq =>
      split at hstep
      · exact absurd hstep (by simp)
      next hcurV =>
        split at hstep
        next hgoal =>
          cases hstep
          intro _
          have hcurQ : current ∈ pqToArray s.pq := by
            rw [heq]
            exact List.mem_map_of_mem _ (List.mem_cons_self _ _)
          obtain ⟨_, hPcur, hcurne⟩ := hinv.qprops current hcurQ
          have hvis : addSet s.visited current = s.visited ++ [current] := by
            rw [addSet, if_neg hcurV]
          have hcur' : current ∈ addSet s.visited current :=
            (addSet_mem _ _ _).mpr (Or.inr rfl)
          have hpinv' : ParentInv p (getStartId p) (addSet s.visited current)
              s.parentMap := by
            rw [hvis]
            exact parentInv_extend p (getStartId p) s.visited s.parentMap
              hinv.maps.pinv current hcurV hcurne hPcur
          rw [← hgoal]
          obtain ⟨pth, hpth, hh, hl, hnd, hch⟩ :=
            reconstructPath_pathOk p (getStartId p) (addSet s.visited current)
              s.parentMap hpinv' current hcur'
          exact ⟨pth, by rw [hpth], hh, hl, hnd, hch⟩
        · exact absurd hstep (by simp)
  · refine ⟨⟨⟨rfl, ?_, ?_, List.nodup_nil, ?_⟩, NMap.set_self _ _ _, ?_⟩, ?_,
      Or.inr ⟨rfl, rfl⟩⟩
    · intro x y hxy
      exact absurd hxy (by simp [NMap.empty])
    · intro x hx
      exact absurd hx (List.not_mem_nil _)
    · intro x hx
      exact absurd hx (List.not_mem_nil _)
    · intro x y hxy
      exact absurd hxy (by simp [NMap.empty])
    · intro x hx
      have hx' : x = getStartId p := by simpa [pqToArray] using hx
      subst hx'
      refine ⟨?_, fun hxs => absurd rfl hxs, hne.1⟩
      show ((NMap.empty.set (getStartId p) 0) (getStartId p)).isSome = true
      rw [NMap.set_self]
      rfl

/-- Any result of `runAStar` on a problem without empty ids has a valid
path. -/
theorem runAStar_path (sq : ℚ → ℚ) (p : Problem) (hne : NoEmptyIds p) (fuel : ℕ)
    (r : SearchResult) (h : runAStar sq p fuel = some r) :
    PathOk p (getStartId p) (getGoalId p) r := by
  rw [runAStar] at h
  refine iterate_invariant
    (astarStep_inv_inl sq p (getStartId p) (getGoalId p) hne.2) ?_ fuel _ r ?_ h
  · intro s r' hinv hstep
    rw [astarStep] at hstep
    simp only [Option.some.injEq] at hstep
    split at hstep
    · cases hstep
      intro hsucc
      exact absurd hsucc (by simp [astarFailure])
    next current prio rest heq =>
      split at hstep
      · exact absurd hstep (by simp)
      next hcurV =>
        split at hstep
        next hgoal =>
          cases hstep
          intro _
          have hcurQ : current ∈ pqToArray s.pq := by
            rw [heq]
            exact List.mem_map_of_mem _ (List.mem_cons_self _ _)
          obtain ⟨_, hPcur, hcurne⟩ := hinv.qprops current hcurQ
          have hvis : addSet s.visited current = s.visited ++ [current] := by
            rw [addSet, if_neg hcurV]
          have hcur' : current ∈ addSet s.visited current :=
            (addSet_mem _ _ _).mpr (Or.inr rfl)
          have hpinv' : ParentInv p (getStartId p) (addSet s.visited current)
              s.parentMap := by
            rw [hvis]
            exact parentInv_extend p (getStartId p) s.visited s.parentMap
              hinv.maps.pinv current hcurV hcurne hPcur
          rw [← hgoal]
          obtain ⟨pth, hpth, hh, hl, hnd, hch⟩ :=
            reconstructPath_pathOk p (getStartId p) (addSet s.visited current)
              s.parentMap hpinv' current hcur'
          exact ⟨pth, by rw [hpth], hh, hl, hnd, hch⟩
        · exact absurd hstep (by simp)
  · refine ⟨⟨⟨rfl, ?_, ?_, List.nodup_nil, ?_⟩, NMap.set_self _ _ _, ?_⟩, ?_,
      Or.inr ⟨rfl, _, rfl⟩⟩
    · intro x y hxy
      exact absurd hxy (by simp [NMap.empty])
    · intro x hx
      exact absurd hx (List.not_mem_nil _)
    · intro x hx
      exact absurd hx (List.not_mem_nil _)
    · intro x y hxy
      exact absurd hxy (by simp [NMap.empty])
    · intro x hx
      have hx' : x = getStartId p := by
        simpa [pqToArray, pqEnqueue, List.insertionSort, List.orderedInsert] using hx
      subst hx'
      refine ⟨?_, fun hxs => absurd rfl hxs, hne.1⟩
      show ((NMap.empty.set (getStartId p) 0) (getStartId p)).isSome = true
      rw [NMap.set_self]
      rfl

/-- The hill-climbing loop invariant for path validity. -/
structure HillInv (p : Problem) (startId : String) (s : HillSt) : Prop where
  pinv : ParentInv p startId s.visited s.parentMap
  cur_in : s.current ∈ s.visited
  start_in : startId ∈ s.visited

/-- A best neighbor reported by the hill-climbing scan is an unvisited
resolver neighbor of the current node. -/
theorem hillScan_best (sq : ℚ → ℚ) (p : Problem) (goalId current : String)
    (gCur : ℚ) (V : List String) :
    ∀ (l : List (String × ℚ)), (∀ e ∈ l, e ∈ getNeighbors p current) →
    ∀ (hv gv : NMap ℚ) (best : Option String) (bestH : ℚ),
      (∀ b, best = some b → b ∉ V ∧ ∃ c, (b, c) ∈ getNeighbors p current) →
      ∀ b, (hillScan sq p goalId current gCur V l hv gv best bestH).2.2.1 = some b →
        b ∉ V ∧ ∃ c, (b, c) ∈ getNeighbors p current := by
  intro l
  induction l with
  | nil =>
    intro _ hv gv best bestH hbest b hb
    exact hbest b hb
  | cons e rest ih =>
    intro hl hv gv best bestH hbest b hb
    obtain ⟨id, cost⟩ := e
    have hmem : (id, cost) ∈ getNeighbors p current := hl _ (List.mem_cons_self _ _)
    have hrest : ∀ e ∈ rest, e ∈ getNeighbors p current :=
      fun e he => hl e (List.mem_cons_of_mem _ he)
    rw [hillScan] at hb
    by_cases hidV : id ∈ V
    · rw [if_neg (by simpa using hidV)] at hb
      exact ih hrest hv gv best bestH hbest b hb
    · rw [if_pos (by simpa using hidV)] at hb
      by_cases hlt : manhattanDistance sq id goalId p < bestH
      · rw [if_pos hlt] at hb
        refine ih hrest _ _ _ _ ?_ b hb
        intro b' hb'
        rcases Option.some.inj hb' with rfl
        exact ⟨hidV, cost, hmem⟩
      · rw [if_neg hlt] at hb
        exact ih hrest _ _ best bestH hbest b hb

/-- A looping `hillStep` preserves the hill-climbing invariant. -/
theorem hillStep_path_inl (sq : ℚ → ℚ) (p : Problem) (startId goalId : String)
    (hneids : ∀ a q c, (q, c) ∈ getNeighbors p a → q ≠ "")
    (s s' : HillSt) (hinv : HillInv p startId s)
    (h : hillStep sq p goalId s = some (.inl s')) : HillInv p startId s' := by
  rw [hillStep] at h
  simp only [Option.some.injEq] at h
  split at h
  · exact absurd h (by simp)
  · split at h
    · exact absurd h (by simp)
    next bestNeighbor heqb =>
      split at h
      · exact absurd h (by simp)
      cases h
      obtain ⟨hbV, c, hmem⟩ := hillScan_best sq p goalId s.current
        ((s.gValues s.current).getD 0) s.visited (getNeighbors p s.current)
        (fun e he => he) s.hValues s.gValues none ((s.hValues s.current).getD 0)
        (fun b hb => absurd hb (by simp)) bestNeighbor heqb
      have hbne : bestNeighbor ≠ "" := hneids s.current bestNeighbor c hmem
      have hvis : addSet s.visited bestNeighbor = s.visited ++ [bestNeighbor] := by
        rw [addSet, if_neg hbV]
      have hpinv' := parentInv_set p startId s.visited s.parentMap hinv.pinv
        s.current bestNeighbor c hinv.cur_in hinv.start_in hbV hmem
      refine ⟨?_, (addSet_mem _ _ _).mpr (Or.inr rfl),
        (addSet_mem _ _ _).mpr (Or.inl hinv.start_in)⟩
      rw [hvis]
      exact parentInv_extend p startId s.visited _ hpinv' bestNeighbor hbV hbne
        (fun _ => by rw [NMap.set_self]; rfl)

/-- A finishing `hillStep` produces a valid path. -/
theorem hillStep_path_inr (sq : ℚ → ℚ) (p : Problem) (startId goalId : String)
    (s : HillSt) (r : SearchResult) (hinv : HillInv p startId s)
    (h : hillStep sq p goalId s = some (.inr r)) : PathOk p startId goalId r := by
  rw [hillStep] at h
  simp only [Option.some.injEq] at h
  split at h
  next hgoal =>
    cases h
    intro _
    rw [← hgoal]
    obtain ⟨pth, hpth, hh, hl, hnd, hch⟩ :=
      reconstructPath_pathOk p startId s.visited s.parentMap hinv.pinv
        s.current hinv.cur_in
    exact ⟨pth, by rw [hpth], hh, hl, hnd, hch⟩
  · split at h
    next heqb =>
      cases h
      intro hsucc
      exact absurd hsucc (by simp)
    · split at h
      · cases h
        intro hsucc
        exact absurd hsucc (by simp)
      · exact absurd h (by simp)

/-- Any result of `runHillClimbing` on a problem without empty ids has a
valid path. -/
theorem runHillClimbing_path (sq : ℚ → ℚ) (p : Problem) (hne : NoEmptyIds p)
    (fuel : ℕ) (r : SearchResult) (h : runHillClimbing sq p fuel = some r) :
    PathOk p (getStartId p) (getGoalId p) r := by
  rw [runHillClimbing] at h
  refine iterate_invariant
    (hillStep_path_inl sq p (getStartId p) (getGoalId p) hne.2)
    (hillStep_path_inr sq p (getStartId p) (getGoalId p)) fuel _ r ?_ h
  refine ⟨⟨rfl, ?_, ?_, List.nodup_singleton _, ?_⟩,
    List.mem_singleton_self _, List.mem_singleton_self _⟩
  · intro x y hxy
    exact absurd hxy (by simp [NMap.empty])
  · intro x hx hxs
    rcases List.mem_singleton.mp hx with rfl
    exact absurd rfl hxs
  · intro x hx
    rcases List.mem_singleton.mp hx with rfl
    exact hne.1

/-- The beam-search loop invariant for path validity. -/
structure BeamInv (p : Problem) (startId : String) (s : BeamSt) : Prop where
  pinv : ParentInv p startId s.visited s.parentMap
  beam_sub : ∀ x ∈ s.beam, x ∈ s.visited
  start_in : startId ∈ s.visited

/-- Every candidate is an unvisited, non-empty resolver neighbor of its
recorded parent, which is visited. -/
def CandProps (p : Problem) (V0 : List String) (cands : List BeamCand) : Prop :=
  ∀ c ∈ cands, c.1 ∉ V0 ∧ c.1 ≠ "" ∧ c.2.2 ∈ V0 ∧
    ∃ cost, (c.1, cost) ∈ getNeighbors p c.2.2

/-- The per-member gather loop only appends valid candidates. -/
theorem beamGather_cands (sq : ℚ → ℚ) (p : Problem) (goalId current : String)
    (V : List String) (hcurV : current ∈ V)
    (hneids : ∀ a q c, (q, c) ∈ getNeighbors p a → q ≠ "") :
    ∀ (l : List (String × ℚ)), (∀ e ∈ l, e ∈ getNeighbors p current) →
    ∀ (cands : List BeamCand) (hv gv : NMap ℚ), CandProps p V cands →
      CandProps p V (beamGather sq p goalId current V l cands hv gv).1 := by
  intro l
  induction l with
  | nil =>
    intro _ cands hv gv hc
    exact hc
  | cons e rest ih =>
    intro hl cands hv gv hc
    obtain ⟨id, cost⟩ := e
    have hmem : (id, cost) ∈ getNeighbors p current := hl _ (List.mem_cons_self _ _)
    have hrest : ∀ e ∈ rest, e ∈ getNeighbors p current :=
      fun e he => hl e (List.mem_cons_of_mem _ he)
    rw [beamGather]
    by_cases hidV : id ∈ V
    · rw [if_neg (by simpa using hidV)]
      exact ih hrest cands hv gv hc
    · rw [if_pos (by simpa using hidV)]
      refine ih hrest _ _ _ ?_
      intro c hcmem
      rcases List.mem_append.mp hcmem with hcmem | hcmem
      · exact hc c hcmem
      · rcases List.mem_singleton.mp hcmem with rfl
        exact ⟨hidV, hneids current id cost hmem, hcurV, cost, hmem⟩

/-- A `.inl` result of the member scan carries only valid candidates. -/
theorem beamScan_inl_cands (sq : ℚ → ℚ) (p : Problem) (goalId : String)
    (V : List String)
    (hneids : ∀ a q c, (q, c) ∈ getNeighbors p a → q ≠ "") :
    ∀ (beam : List String), (∀ x ∈ beam, x ∈ V) →
    ∀ (cands : List BeamCand) (hv gv : NMap ℚ)
      (out : List BeamCand × NMap ℚ × NMap ℚ), CandProps p V cands →
      beamScan sq p goalId V beam cands hv gv = .inl out → CandProps p V out.1 := by
  intro beam
  induction beam with
  | nil =>
    intro _ cands hv gv out hc h
    rw [beamScan] at h
    rcases Sum.inl.inj h with rfl
    exact hc
  | cons current rest ih =>
    intro hsub cands hv gv out hc h
    rw [beamScan] at h
    by_cases hgoal : current = goalId
    · rw [if_pos hgoal] at h
      exact absurd h (by simp)
    · rw [if_neg hgoal] at h
      have hcurV : current ∈ V := hsub current (List.mem_cons_self _ _)
      exact ih (fun x hx => hsub x (List.mem_cons_of_mem _ hx)) _ _ _ out
        (beamGather_cands sq p goalId current V hcurV hneids
          (getNeighbors p current) (fun e he => he) cands hv gv hc) h

/-- A `.inr` result of the member scan means the goal was a beam member. -/
theorem beamScan_inr_goal (sq : ℚ → ℚ) (p : Problem) (goalId : String)
    (V : List String) :
    ∀ (beam : List String) (cands : List BeamCand) (hv gv : NMap ℚ)
      (out : NMap ℚ × NMap ℚ),
      beamScan sq p goalId V beam cands hv gv = .inr out → goalId ∈ beam := by
  intro beam
  induction beam with
  | nil =>
    intro cands hv gv out h
    rw [beamScan] at h
    exact absurd h (by simp)
  | cons current rest ih =>
    intro cands hv gv out h
    rw [beamScan] at h
    by_cases hgoal : current = goalId
    · rw [← hgoal]
      exact List.mem_cons_self _ _
    · rw [if_neg hgoal] at h
      exact List.mem_cons_of_mem _ (ih _ _ _ out h)

/-- Overwriting the parent of a node outside the pre-round visited list with
a pre-round parent preserves the parent invariant. -/
theorem parentInv_overwrite (p : Problem) (startId : String)
    (V0 extra : List String) (P : NMap String)
    (inv : ParentInv p startId (V0 ++ extra) P) (id parent : String) (cost : ℚ)
    (hidV0 : id ∉ V0) (hstart : startId ∈ V0) (hparV0 : parent ∈ V0)
    (hmem : (id, cost) ∈ getNeighbors p parent) :
    ParentInv p startId (V0 ++ extra) (P.set id parent) := by
  have hids : id ≠ startId := fun h => hidV0 (h ▸ hstart)
  refine ⟨?_, ?_, ?_, inv.nodup, inv.ne_empty⟩
  · rw [NMap.set_other _ _ _ _ (Ne.symm hids)]
    exact inv.start_none
  · intro x y h
    by_cases hx : x = id
    · subst hx
      rw [NMap.set_self] at h
      rcases Option.some.inj h with rfl
      exact ⟨List.mem_append_left _ hparV0, cost, hmem⟩
    · rw [NMap.set_other _ _ _ _ hx] at h
      exact inv.edge x y h
  · intro x hx hxs
    by_cases hxid : x = id
    · subst hxid
      refine ⟨parent, NMap.set_self _ _ _, ?_⟩
      rw [List.indexOf_append_of_mem hparV0, List.indexOf_append_of_not_mem hidV0]
      have := List.indexOf_lt_length.mpr hparV0
      omega
    · obtain ⟨y, hy, hidx⟩ := inv.rank x hx hxs
      exact ⟨y, by rw [NMap.set_other _ _ _ _ hxid]; exact hy, hidx⟩

/-- The pruning fold of beam search (adding each chosen candidate to the
visited list and recording its parent) preserves the parent invariant, never
removes visited nodes, and visits every chosen candidate. -/
theorem beamFold_preserves (p : Problem) (startId : String) (V0 : List String)
    (hstart : startId ∈ V0) :
    ∀ (chosen : List BeamCand), CandProps p V0 chosen →
    ∀ (W : List String) (P : NMap String) (extra : List String),
      W = V0 ++ extra → ParentInv p startId W P →
      ParentInv p startId
          (chosen.foldl (fun acc c => (addSet acc.1 c.1, acc.2.set c.1 c.2.2)) (W, P)).1
          (chosen.foldl (fun acc c => (addSet acc.1 c.1, acc.2.set c.1 c.2.2)) (W, P)).2 ∧
        (∃ extra', (chosen.foldl
          (fun acc c => (addSet acc.1 c.1, acc.2.set c.1 c.2.2)) (W, P)).1 = V0 ++ extra') ∧
        (∀ x ∈ W, x ∈ (chosen.foldl
          (fun acc c => (addSet acc.1 c.1, acc.2.set c.1 c.2.2)) (W, P)).1) ∧
        (∀ c ∈ chosen, c.1 ∈ (chosen.foldl
          (fun acc c => (addSet acc.1 c.1, acc.2.set c.1 c.2.2)) (W, P)).1) := by
  intro chosen
  induction chosen with
  | nil =>
    intro _ W P extra hW hinv
    exact ⟨hinv, ⟨extra, hW⟩, fun x hx => hx, fun c hc => absurd hc (List.not_mem_nil _)⟩
  | cons c rest ih =>
    intro hc W P extra hW hinv
    obtain ⟨hcV0, hcne, hparV0, cost, hmem⟩ := hc c (List.mem_cons_self _ _)
    have hrest : CandProps p V0 rest := fun c' hc' => hc c' (List.mem_cons_of_mem _ hc')
    rw [List.foldl_cons]
    by_cases hcW : c.1 ∈ W
    · have haddW : addSet W c.1 = W := by rw [addSet, if_pos hcW]
      have hinv' : ParentInv p startId W (P.set c.1 c.2.2) := by
        rw [hW] at hinv ⊢
        exact parentInv_overwrite p startId V0 extra P hinv c.1 c.2.2 cost
          hcV0 hstart hparV0 hmem
      have hres := ih hrest (addSet W c.1) (P.set c.1 c.2.2) extra
        (by rw [haddW]; exact hW) (by rw [haddW]; exact hinv')
      refine ⟨hres.1, hres.2.1, ?_, ?_⟩
      · intro x hx
        exact hres.2.2.1 x (by rw [haddW]; exact hx)
      · intro c' hc'
        rcases List.mem_cons.mp hc' with rfl | hc'
        · exact hres.2.2.1 c'.1 (by rw [haddW]; exact hcW)
        · exact hres.2.2.2 c' hc'
    · have haddW : addSet W c.1 = W ++ [c.1] := by rw [addSet, if_neg hcW]
      have hstartW : startId ∈ W := by
        rw [hW]
        exact List.mem_append_left _ hstart
      have hparW : c.2.2 ∈ W := by
        rw [hW]
        exact List.mem_append_left _ hparV0
      have hinv' : ParentInv p startId (W ++ [c.1]) (P.set c.1 c.2.2) :=
        parentInv_extend p startId W _
          (parentInv_set p startId W P hinv c.2.2 c.1 cost hparW hstartW hcW hmem)
          c.1 hcW hcne (fun _ => by rw [NMap.set_self]; rfl)
      have hres := ih hrest (addSet W c.1) (P.set c.1 c.2.2) (extra ++ [c.1])
        (by rw [haddW, hW, List.append_assoc]) (by rw [haddW]; exact hinv')
      refine ⟨hres.1, hres.2.1, ?_, ?_⟩
      · intro x hx
        exact hres.2.2.1 x (by rw [haddW]; exact List.mem_append_left _ hx)
      · intro c' hc'
        rcases List.mem_cons.mp hc' with rfl | hc'
        · exact hres.2.2.1 c'.1
            (by rw [haddW]; exact List.mem_append_right _ (List.mem_singleton_self _))
        · exact hres.2.2.2 c' hc'

/-- A looping `beamStep` preserves the beam invariant. -/
theorem beamStep_path_inl (sq : ℚ → ℚ) (p : Problem) (startId goalId : String)
    (beamWidth : ℕ)
    (hneids : ∀ a q c, (q, c) ∈ getNeighbors p a → q ≠ "")
    (s s' : BeamSt) (hinv : BeamInv p startId s)
    (h : beamStep sq p goalId startId beamWidth s = some (.inl s')) :
    BeamInv p startId s' := by
  rw [beamStep] at h
  simp only [Option.some.injEq] at h
  split at h
  · exact absurd h (by simp)
  · split at h
    · exact absurd h (by simp)
    next cands hv' gv' heqscan =>
      split at h
      · exact absurd h (by simp)
      next hcempty =>
        cases h
        have hcands : CandProps p s.visited cands := by
          have := beamScan_inl_cands sq p goalId s.visited hneids s.beam
            hinv.beam_sub [] s.hValues s.gValues (cands, hv', gv')
            (fun c hc => absurd hc (List.not_mem_nil _)) heqscan
          exact this
        have hchosen : CandProps p s.visited
            ((List.insertionSort candLE cands).take beamWidth) := by
          intro c hc
          exact hcands c ((List.perm_insertionSort candLE cands).mem_iff.mp
            (List.take_subset _ _ hc))
        have hres := beamFold_preserves p startId s.visited hinv.start_in
          ((List.insertionSort candLE cands).take beamWidth) hchosen
          s.visited s.parentMap [] (List.append_nil _).symm hinv.pinv
        refine ⟨hres.1, ?_, hres.2.2.1 startId hinv.start_in⟩
        intro x hx
        obtain ⟨c, hcmem, rfl⟩ := List.mem_map.mp hx
        exact hres.2.2.2 c hcmem

/-- A finishing `beamStep` produces a valid path. -/
theorem beamStep_path_inr (sq : ℚ → ℚ) (p : Problem) (startId goalId : String)
    (beamWidth : ℕ) (s : BeamSt) (r : SearchResult) (hinv : BeamInv p startId s)
    (h : beamStep sq p goalId startId beamWidth s = some (.inr r)) :
    PathOk p startId goalId r := by
  rw [beamStep] at h
  simp only [Option.some.injEq] at h
  split at h
  · cases h
    intro hsucc
    exact absurd hsucc (by simp)
  · split at h
    next hv' gv' heqscan =>
      cases h
      intro _
      have hgoalV : goalId ∈ s.visited :=
        hinv.beam_sub goalId (beamScan_inr_goal sq p goalId s.visited s.beam
          [] s.hValues s.gValues (hv', gv') heqscan)
      obtain ⟨pth, hpth, hh, hl, hnd, hch⟩ :=
        reconstructPath_pathOk p startId s.visited s.parentMap hinv.pinv
          goalId hgoalV
      exact ⟨pth, by rw [hpth], hh, hl, hnd, hch⟩
    next cands hv' gv' heqscan =>
      split at h
      · cases h
        intro hsucc
        exact absurd hsucc (by simp)
      · exact absurd h (by simp)

/-- Any result of `runBeamSearch` on a problem without empty ids has a valid
path. -/
theorem runBeamSearch_path (sq : ℚ → ℚ) (p : Problem) (hne : NoEmptyIds p)
    (beamWidth fuel : ℕ) (r : SearchResult)
    (h : runBeamSearch sq p beamWidth fuel = some r) :
    PathOk p (getStartId p) (getGoalId p) r := by
  rw [runBeamSearch] at h
  refine iterate_invariant
    (beamStep_path_inl sq p (getStartId p) (getGoalId p) beamWidth hne.2)
    (beamStep_path_inr sq p (getStartId p) (getGoalId p) beamWidth) fuel _ r ?_ h
  refine ⟨⟨rfl, ?_, ?_, List.nodup_singleton _, ?_⟩,
    fun x hx => hx, List.mem_singleton_self _⟩
  · intro x y hxy
    exact absurd hxy (by simp [NMap.empty])
  · intro x hx hxs
    rcases List.mem_singleton.mp hx with rfl
    exact absurd rfl hxs
  · intro x hx
    rcases List.mem_singleton.mp hx with rfl
    exact hne.1

/-- The current-path invariant of the IDA* recursion: starts at the start
id, never repeats, and follows resolver edges. -/
def IdaPathProp (p : Problem) (startId : String) (path : List String) : Prop :=
  path.head? = some startId ∧ path.Nodup ∧
    List.Chain' (fun a b => ∃ c, (b, c) ∈ getNeighbors p a) path

/-- Input property of a pending IDA* activation. -/
def IdaCallOk (p : Problem) (startId : String) : IdaCall → Prop
  | .search st _ => IdaPathProp p startId st.path
  | .nbrs st _ node rest _ => IdaPathProp p startId st.path ∧
      st.path.getLast? = some node ∧ ∀ e ∈ rest, e ∈ getNeighbors p node

/-- The current path of a pending activation. -/
def IdaCall.curPath : IdaCall → List String
  | .search st _ => st.path
  | .nbrs st _ _ _ _ => st.path

theorem getLast?_eq_getLastD (l : List String) (hl : l ≠ []) :
    l.getLast? = some (l.getLastD "") := by
  have hs : l.getLast?.isSome = true := List.getLast?_isSome.mpr hl
  obtain ⟨x, hx⟩ := Option.isSome_iff_exists.mp hs
  rw [List.getLastD_eq_getLast?, hx]
  rfl

theorem head?_append_singleton (l : List String) (x a : String)
    (h : l.head? = some a) : (l ++ [x]).head? = some a := by
  cases l with
  | nil => exact absurd h (by simp)
  | cons b t => exact h

theorem nodup_append_singleton (l : List String) (x : String) (hnd : l.Nodup)
    (hx : x ∉ l) : (l ++ [x]).Nodup := by
  rw [List.nodup_append]
  exact ⟨hnd, List.nodup_singleton _, by simpa using hx⟩

theorem chain'_append_singleton {R : String → String → Prop} (l : List String)
    (x last : String) (hch : List.Chain' R l) (hlast : l.getLast? = some last)
    (hRx : R last x) : List.Chain' R (l ++ [x]) := by
  rw [List.chain'_append]
  refine ⟨hch, List.chain'_singleton _, ?_⟩
  intro a ha b hb
  rw [hlast] at ha
  rcases Option.mem_some_iff.mp ha with rfl
  rcases Option.mem_some_iff.mp (by simpa using hb) with rfl
  exact hRx

/-- The IDA* recursion, run on a valid activation, returns found paths that
are valid start-to-goal paths, and restores the caller's current path on a
cut. -/
theorem idaGo_path (sq : ℚ → ℚ) (p : Problem) (goalId : String) (bound : ℚ)
    (startId : String) :
    ∀ (fuel : ℕ) (call : IdaCall), IdaCallOk p startId call →
      ∀ (ret : IdaRet) (st' : IdaSt),
        idaGo sq p goalId bound fuel call = some (ret, st') →
        (∀ pth c, ret = .found pth c → pth.head? = some startId ∧
          pth.getLast? = some goalId ∧ pth.Nodup ∧
          List.Chain' (fun a b => ∃ c2, (b, c2) ∈ getNeighbors p a) pth) ∧
        (∀ t, ret = .cut t → st'.path = call.curPath) := by
  intro fuel
  induction fuel with
  | zero =>
    intro call _ ret st' h
    rw [idaGo] at h
    exact absurd h (by simp)
  | succ fuel ih =>
    intro call hok ret st' h
    cases call with
    | search st g =>
      have hpp : IdaPathProp p startId st.path := hok
      have hnil : st.path ≠ [] := by
        intro hcon
        rw [hcon] at hpp
        exact absurd hpp.1 (by simp)
      have hlastD : st.path.getLast? = some (st.path.getLastD "") :=
        getLast?_eq_getLastD st.path hnil
      rw [idaGo] at h
      simp only [Option.some.injEq, Prod.mk.injEq] at h
      split at h
      · obtain ⟨rfl, rfl⟩ := h
        refine ⟨fun pth c hcon => absurd hcon (by simp), fun t _ => rfl⟩
      · split at h
        next hgoal =>
          obtain ⟨rfl, rfl⟩ := h
          refine ⟨?_, fun t hcon => absurd hcon (by simp)⟩
          intro pth c hfound
          rcases IdaRet.found.inj hfound with ⟨rfl, rfl⟩
          exact ⟨hpp.1, by rw [← hgoal]; exact hlastD, hpp.2.1, hpp.2.2⟩
        next hgoal =>
          have hres := ih _ ?hok ret st' h
          case hok => exact ⟨hpp, hlastD, fun e he => he⟩
          exact ⟨hres.1, fun t hc => hres.2 t hc⟩
    | nbrs st g node l mn =>
      obtain ⟨hpp, hlast, hnbrs⟩ := hok
      cases l with
      | nil =>
        rw [idaGo] at h
        simp only [Option.some.injEq, Prod.mk.injEq] at h
        obtain ⟨rfl, rfl⟩ := h
        exact ⟨fun pth c hcon => absurd hcon (by simp), fun t _ => rfl⟩
      | cons e rest =>
        obtain ⟨id, cost⟩ := e
        rw [idaGo] at h
        split at h
        next hidpath =>
          exact ih (.nbrs st g node rest mn)
            ⟨hpp, hlast, fun e he => hnbrs e (List.mem_cons_of_mem _ he)⟩ ret st' h
        next hidpath =>
          have hmem : (id, cost) ∈ getNeighbors p node :=
            hnbrs _ (List.mem_cons_self _ _)
          have hpp' : IdaPathProp p startId (st.path ++ [id]) :=
            ⟨head?_append_singleton _ _ _ hpp.1,
              nodup_append_singleton _ _ hpp.2.1 hidpath,
              chain'_append_singleton _ _ _ hpp.2.2 hlast ⟨cost, hmem⟩⟩
          simp only [] at h
          split at h
          · exact absurd h (by simp)
          next pth c st'' heqsearch =>
            have hres := ih
              (.search { st with path := st.path ++ [id],
                                 parentMap := st.parentMap.set id node } (g + cost))
              hpp' (.found pth c) st'' heqsearch
            obtain ⟨rfl, rfl⟩ := h
            exact ⟨fun pth' c' hf => by
              rcases IdaRet.found.inj hf with ⟨rfl, rfl⟩
              exact hres.1 _ _ rfl,
              fun t hcon => absurd hcon (by simp)⟩
          next t st'' heqsearch =>
            have hres := ih
              (.search { st with path := st.path ++ [id],
                                 parentMap := st.parentMap.set id node } (g + cost))
              hpp' (.cut t) st'' heqsearch
            have hpath'' : st''.path = st.path ++ [id] := hres.2 t rfl
            have hdrop : st''.path.dropLast = st.path := by
              rw [hpath'']
              exact List.dropLast_concat
            have hres2 := ih (.nbrs { st'' with path := st''.path.dropLast } g node
              rest (if ltInf t mn then t else mn))
              ⟨by rw [IdaPathProp, hdrop]; exact hpp, by rw [hdrop]; exact hlast,
                fun e he => hnbrs e (List.mem_cons_of_mem _ he)⟩ ret st' h
            refine ⟨hres2.1, ?_⟩
            intro t' hcut
            rw [hres2.2 t' hcut]
            exact hdrop

/-- A looping IDA* outer step restores the single-node start path. -/
theorem idaOuterStep_path_inl (sq : ℚ → ℚ) (p : Problem) (goalId startId : String)
    (innerFuel : ℕ) (os os' : IdaOuterSt) (hpath : os.st.path = [startId])
    (h : idaOuterStep sq p goalId startId innerFuel os = some (.inl os')) :
    os'.st.path = [startId] := by
  rw [idaOuterStep] at h
  split at h
  · exact absurd h (by simp)
  · exact absurd h (by simp)
  next t st' heq =>
    split at h
    · exact absurd h (by simp)
    next t' =>
      have hpp : IdaCallOk p startId (.search { os.st with visited := [] } 0) := by
        show IdaPathProp p startId os.st.path
        rw [hpath]
        exact ⟨rfl, List.nodup_singleton _, List.chain'_singleton _⟩
      rw [idaSearch] at heq
      have hres := idaGo_path sq p goalId os.bound startId innerFuel _ hpp
        (.cut (some t')) st' heq
      have hst' : st'.path = [startId] := by
        rw [hres.2 (some t') rfl]
        exact hpath
      obtain rfl := Sum.inl.inj (Option.some.inj h)
      exact hst'

/-- A finishing IDA* outer step produces a valid path. -/
theorem idaOuterStep_path_inr (sq : ℚ → ℚ) (p : Problem) (goalId startId : String)
    (innerFuel : ℕ) (os : IdaOuterSt) (r : SearchResult)
    (hpath : os.st.path = [startId])
    (h : idaOuterStep sq p goalId startId innerFuel os = some (.inr r)) :
    PathOk p startId goalId r := by
  rw [idaOuterStep] at h
  split at h
  · exact absurd h (by simp)
  next pth cost st' heq =>
    have hpp : IdaCallOk p startId (.search { os.st with visited := [] } 0) := by
      show IdaPathProp p startId os.st.path
      rw [hpath]
      exact ⟨rfl, List.nodup_singleton _, List.chain'_singleton _⟩
    rw [idaSearch] at heq
    have hres := idaGo_path sq p goalId os.bound startId innerFuel _ hpp
      (.found pth cost) st' heq
    obtain ⟨hh, hl, hnd, hch⟩ := hres.1 pth cost rfl
    obtain rfl := Sum.inr.inj (Option.some.inj h)
    intro _
    exact ⟨pth, rfl, hh, hl, hnd, hch⟩
  next t st' heq =>
    split at h
    · obtain rfl := Sum.inr.inj (Option.some.inj h)
      intro hsucc
      exact absurd hsucc (by simp)
    next t' =>
      exact absurd h (by simp)

/-- Any result of `runIDAStar` has a valid path (no empty-id hypothesis is
needed: the recursion works on the current path, which starts at the start
id). -/
theorem runIDAStar_path (sq : ℚ → ℚ) (p : Problem) (outerFuel innerFuel : ℕ)
    (r : SearchResult) (h : runIDAStar sq p outerFuel innerFuel = some r) :
    PathOk p (getStartId p) (getGoalId p) r := by
  rw [runIDAStar] at h
  exact iterate_invariant
    (fun os os' hinv hstep =>
      idaOuterStep_path_inl sq p (getGoalId p) (getStartId p) innerFuel os os' hinv hstep)
    (fun os r' hinv hstep =>
      idaOuterStep_path_inr sq p (getGoalId p) (getStartId p) innerFuel os r' hinv hstep)
    outerFuel _ r rfl h

/-! ### Exhaustion on an unreachable goal -/

/-- Reachability along resolver edges (the spec's "reachable component of
start"). -/
inductive Reach (p : Problem) (start : String) : String → Prop
  | start : Reach p start start
  | step {x y : String} (c : ℚ) : Reach p start x → (y, c) ∈ getNeighbors p x →
      Reach p start y

/-- The exhaustion result shape: failure with no path, no cost, a non-empty
trace, and a nodesVisited count equal to the size of the reachable
component (presented as a duplicate-free list enumerating the component). -/
def ExhaustOk (p : Problem) (start : String) (r : SearchResult) : Prop :=
  r.success = false ∧ r.finalPath = none ∧ r.pathCost = none ∧ r.steps ≠ [] ∧
    ∃ V : List String, V.Nodup ∧ (∀ x, x ∈ V ↔ Reach p start x) ∧
      r.nodesVisited = V.length

/-- A weaker failure shape without the visit count, for the three local
algorithms. -/
def FailOk (r : SearchResult) : Prop :=
  r.success = false ∧ r.finalPath = none ∧ r.pathCost = none ∧ r.steps ≠ []

/-- Every node on a resolver-edge chain out of a reachable head is
reachable; in particular the last one. -/
theorem chain_reach (p : Problem) (start : String) :
    ∀ (pth : List String) (a : String), Reach p start a →
      List.Chain' (fun u v => ∃ c, (v, c) ∈ getNeighbors p u) (a :: pth) →
      ∀ z ∈ (a :: pth).getLast?, Reach p start z := by
  intro pth
  induction pth with
  | nil =>
    intro a ha _ z hz
    rcases Option.mem_some_iff.mp hz with rfl
    exact ha
  | cons b rest ih =>
    intro a ha hch z hz
    rw [List.chain'_cons] at hch
    obtain ⟨⟨c, hmem⟩, hch'⟩ := hch
    have hb : Reach p start b := Reach.step c ha hmem
    rw [List.getLast?_cons_cons] at hz
    exact ih b hb hch' z hz

/-- The BFS reachability/closure invariant. -/
structure BfsReach (p : Problem) (start : String) (s : BfsSt) : Prop where
  vis : ∀ x ∈ s.visited, Reach p start x
  frontier : ∀ x ∈ s.queue, Reach p start x
  closed : ∀ x ∈ s.visited, ∀ y c, (y, c) ∈ getNeighbors p x →
    y ∈ s.visited ∨ y ∈ s.queue
  start_in : start ∈ s.visited ∨ start ∈ s.queue
  nodup : s.visited.Nodup
  steps_ne : s.steps ≠ []

/-- The BFS expansion keeps old queue members and accounts for every
processed neighbor. -/
theorem bfsExpand_queue (current : String) (V : List String) :
    ∀ (l : List (String × ℚ)) (q : List String) (pm : NMap String),
      (∀ x ∈ q, x ∈ (bfsExpand current V l q pm).1) ∧
      (∀ y c, (y, c) ∈ l → y ∈ V ∨ y ∈ (bfsExpand current V l q pm).1) ∧
      (∀ x ∈ (bfsExpand current V l q pm).1, x ∈ q ∨ ∃ c, (x, c) ∈ l) := by
  intro l
  induction l with
  | nil =>
    intro q pm
    exact ⟨fun x hx => hx, fun y c hc => absurd hc (List.not_mem_nil _),
      fun x hx => Or.inl hx⟩
  | cons e rest ih =>
    intro q pm
    obtain ⟨id, cost⟩ := e
    rw [bfsExpand]
    by_cases hguard : id ∉ V ∧ id ∉ q
    · rw [if_pos (by simpa using hguard)]
      obtain ⟨hmono, hproc, hsrc⟩ := ih (q ++ [id]) (pm.set id current)
      refine ⟨?_, ?_, ?_⟩
      · intro x hx
        exact hmono x (List.mem_append_left _ hx)
      · intro y c hc
        rcases List.mem_cons.mp hc with hc | hc
        · rcases Prod.mk.inj hc with ⟨rfl, rfl⟩
          exact Or.inr (hmono y (List.mem_append_right _ (List.mem_singleton_self _)))
        · exact hproc y c hc
      · intro x hx
        rcases hsrc x hx with hx' | ⟨c, hc⟩
        · rcases List.mem_append.mp hx' with hx' | hx'
          · exact Or.inl hx'
          · rcases List.mem_singleton.mp hx' with rfl
            exact Or.inr ⟨cost, List.mem_cons_self _ _⟩
        · exact Or.inr ⟨c, List.mem_cons_of_mem _ hc⟩
    · rw [if_neg (by simpa using hguard)]
      obtain ⟨hmono, hproc, hsrc⟩ := ih q pm
      refine ⟨hmono, ?_, ?_⟩
      · intro y c hc
        rcases List.mem_cons.mp hc with hc | hc
        · rcases Prod.mk.inj hc with ⟨rfl, rfl⟩
          rcases Decidable.not_and_iff_or_not.mp hguard with hy | hy
          · exact Or.inl (Decidable.not_not.mp hy)
          · exact Or.inr (hmono y (Decidable.not_not.mp hy))
        · exact hproc y c hc
      · intro x hx
        rcases hsrc x hx with hx' | ⟨c, hc⟩
        · exact Or.inl hx'
        · exact Or.inr ⟨c, List.mem_cons_of_mem _ hc⟩

/-- A looping `bfsStep` preserves the reachability/closure invariant. -/
theorem bfsStep_reach_inl (p : Problem) (start goalId : String)
    (s s' : BfsSt) (hinv : BfsReach p start s)
    (h : bfsStep p goalId s = some (.inl s')) : BfsReach p start s' := by
  rw [bfsStep] at h
  simp only [Option.some.injEq] at h
  split at h
  · exact absurd h (by simp)
  next current rest heq =>
    have hcurQ : current ∈ s.queue := by
      rw [heq]
      exact List.mem_cons_self _ _
    have hcurR : Reach p start current := hinv.frontier current hcurQ
    split at h
    next hcurV =>
      cases h
      refine ⟨hinv.vis, ?_, ?_, ?_, hinv.nodup, hinv.steps_ne⟩
      · intro x hx
        exact hinv.frontier x (by rw [heq]; exact List.mem_cons_of_mem _ hx)
      · intro x hx y c hc
        rcases hinv.closed x hx y c hc with hy | hy
        · exact Or.inl hy
        · rw [heq] at hy
          rcases List.mem_cons.mp hy with rfl | hy
          · exact Or.inl hcurV
          · exact Or.inr hy
      · rcases hinv.start_in with h1 | h1
        · exact Or.inl h1
        · rw [heq] at h1
          rcases List.mem_cons.mp h1 with rfl | h1
          · exact Or.inl hcurV
          · exact Or.inr h1
    next hcurV =>
      split at h
      · exact absurd h (by simp)
      next hgoal =>
        cases h
        obtain ⟨hmono, hproc, hsrc⟩ := bfsExpand_queue current
          (addSet s.visited current) (getNeighbors p current) rest s.parentMap
        have hvismem : ∀ x ∈ addSet s.visited current, x ∈ s.visited ∨ x = current :=
          fun x hx => (addSet_mem _ _ _).mp hx
        refine ⟨?_, ?_, ?_, ?_, addSet_nodup _ _ hinv.nodup, ?_⟩
        · intro x hx
          rcases hvismem x hx with hx' | rfl
          · exact hinv.vis x hx'
          · exact hcurR
        · intro x hx
          rcases hsrc x hx with hx' | ⟨c, hc⟩
          · exact hinv.frontier x (by rw [heq]; exact List.mem_cons_of_mem _ hx')
          · exact Reach.step c hcurR hc
        · intro x hx y c hc
          rcases hvismem x hx with hx' | rfl
          · rcases hinv.closed x hx' y c hc with hy | hy
            · exact Or.inl ((addSet_mem _ _ _).mpr (Or.inl hy))
            · rw [heq] at hy
              rcases List.mem_cons.mp hy with rfl | hy
              · exact Or.inl ((addSet_mem _ _ _).mpr (Or.inr rfl))
              · exact Or.inr (hmono y hy)
          · rcases hproc y c hc with hy | hy
            · exact Or.inl hy
            · exact Or.inr hy
        · rcases hinv.start_in with h1 | h1
          · exact Or.inl ((addSet_mem _ _ _).mpr (Or.inl h1))
          · rw [heq] at h1
            rcases List.mem_cons.mp h1 with rfl | h1
            · exact Or.inl ((addSet_mem _ _ _).mpr (Or.inr rfl))
            · exact Or.inr (hmono start h1)
        · intro hcon
          exact absurd (List.append_eq_nil.mp hcon).1 hinv.steps_ne

/-- A finishing `bfsStep` on an unreachable goal is an exhaustion. -/
theorem bfsStep_reach_inr (p : Problem) (start goalId : String)
    (hunreach : ¬ Reach p start goalId) (s : BfsSt) (r : SearchResult)
    (hinv : BfsReach p start s)
    (h : bfsStep p goalId s = some (.inr r)) : ExhaustOk p start r := by
  rw [bfsStep] at h
  simp only [Option.some.injEq] at h
  split at h
  next heq =>
    cases h
    refine ⟨rfl, rfl, rfl, hinv.steps_ne, s.visited, hinv.nodup, ?_, rfl⟩
    intro x
    constructor
    · exact hinv.vis x
    · intro hx
      induction hx with
      | start =>
        rcases hinv.start_in with h1 | h1
        · exact h1
        · rw [heq] at h1
          exact absurd h1 (List.not_mem_nil _)
      | step c hr hmem ihr =>
        rcases hinv.closed _ ihr _ _ hmem with hy | hy
        · exact hy
        · rw [heq] at hy
          exact absurd hy (List.not_mem_nil _)
  next current rest heq =>
    split at h
    · exact absurd h (by simp)
    · split at h
      next hgoal =>
        exfalso
        refine hunreach ?_
        rw [← hgoal]
        exact hinv.frontier current (by rw [heq]; exact List.mem_cons_self _ _)
      · exact absurd h (by simp)

/-- On an unreachable goal, any `runBFS` result is an exhaustion whose visit
count enumerates the reachable component. -/
theorem runBFS_exhaust (p : Problem)
    (hunreach : ¬ Reach p (getStartId p) (getGoalId p)) (fuel : ℕ)
    (r : SearchResult) (h : runBFS p fuel = some r) :
    ExhaustOk p (getStartId p) r := by
  rw [runBFS] at h
  refine iterate_invariant (bfsStep_reach_inl p (getStartId p) (getGoalId p))
    (bfsStep_reach_inr p (getStartId p) (getGoalId p) hunreach) fuel _ r ?_ h
  refine ⟨?_, ?_, ?_, Or.inr (List.mem_singleton_self _), List.nodup_nil, by simp⟩
  · intro x hx
    exact absurd hx (List.not_mem_nil _)
  · intro x hx
    rcases List.mem_singleton.mp hx with rfl
    exact Reach.start
  · intro x hx
    exact absurd hx (List.not_mem_nil _)

/-- The DFS reachability/closure invariant. -/
structure DfsReach (p : Problem) (start : String) (s : DfsSt) : Prop where
  vis : ∀ x ∈ s.visited, Reach p start x
  frontier : ∀ x ∈ s.stack, Reach p start x
  closed : ∀ x ∈ s.visited, ∀ y c, (y, c) ∈ getNeighbors p x →
    y ∈ s.visited ∨ y ∈ s.stack
  start_in : start ∈ s.visited ∨ start ∈ s.stack
  nodup : s.visited.Nodup
  steps_ne : s.steps ≠ []

/-- The DFS expansion keeps old stack members and accounts for every
processed neighbor. -/
theorem dfsExpand_stack (current : String) (V : List String) :
    ∀ (l : List (String × ℚ)) (st : List String) (pm : NMap String),
      (∀ x ∈ st, x ∈ (dfsExpand current V l st pm).1) ∧
      (∀ y c, (y, c) ∈ l → y ∈ V ∨ y ∈ (dfsExpand current V l st pm).1) ∧
      (∀ x ∈ (dfsExpand current V l st pm).1, x ∈ st ∨ ∃ c, (x, c) ∈ l) := by
  intro l
  induction l with
  | nil =>
    intro st pm
    exact ⟨fun x hx => hx, fun y c hc => absurd hc (List.not_mem_nil _),
      fun x hx => Or.inl hx⟩
  | cons e rest ih =>
    intro st pm
    obtain ⟨id, cost⟩ := e
    rw [dfsExpand]
    by_cases hidV : id ∈ V
    · rw [if_neg (by simpa using hidV)]
      obtain ⟨hmono, hproc, hsrc⟩ := ih st pm
      refine ⟨hmono, ?_, ?_⟩
      · intro y c hc
        rcases List.mem_cons.mp hc with hc | hc
        · rcases Prod.mk.inj hc with ⟨rfl, rfl⟩
          exact Or.inl hidV
        · exact hproc y c hc
      · intro x hx
        rcases hsrc x hx with hx' | ⟨c, hc⟩
        · exact Or.inl hx'
        · exact Or.inr ⟨c, List.mem_cons_of_mem _ hc⟩
    · rw [if_pos (by simpa using hidV)]
      have hkey : ∀ (pm' : NMap String),
          (∀ x ∈ st, x ∈ (dfsExpand current V rest (st ++ [id]) pm').1) ∧
          (∀ y c, (y, c) ∈ (id, cost) :: rest →
            y ∈ V ∨ y ∈ (dfsExpand current V rest (st ++ [id]) pm').1) ∧
          (∀ x ∈ (dfsExpand current V rest (st ++ [id]) pm').1,
            x ∈ st ∨ ∃ c, (x, c) ∈ (id, cost) :: rest) := by
        intro pm'
        obtain ⟨hmono, hproc, hsrc⟩ := ih (st ++ [id]) pm'
        refine ⟨?_, ?_, ?_⟩
        · intro x hx
          exact hmono x (List.mem_append_left _ hx)
        · intro y c hc
          rcases List.mem_cons.mp hc with hc | hc
          · rcases Prod.mk.inj hc with ⟨rfl, rfl⟩
            exact Or.inr (hmono y (List.mem_append_right _ (List.mem_singleton_self _)))
          · exact hproc y c hc
        · intro x hx
          rcases hsrc x hx with hx' | ⟨c, hc⟩
          · rcases List.mem_append.mp hx' with hx' | hx'
            · exact Or.inl hx'
            · rcases List.mem_singleton.mp hx' with rfl
              exact Or.inr ⟨cost, List.mem_cons_self _ _⟩
          · exact Or.inr ⟨c, List.mem_cons_of_mem _ hc⟩
      split
      · exact hkey _
      · split
        · exact hkey _
        · exact hkey _

/-- A looping `dfsStep` preserves the reachability/closure invariant. -/
theorem dfsStep_reach_inl (p : Problem) (start goalId : String)
    (s s' : DfsSt) (hinv : DfsReach p start s)
    (h : dfsStep p goalId s = some (.inl s')) : DfsReach p start s' := by
  rw [dfsStep] at h
  simp only [Option.some.injEq] at h
  split at h
  · exact absurd h (by simp)
  next current heq =>
    have hcurS : current ∈ s.stack := List.mem_of_mem_getLast? heq
    have hcurR : Reach p start current := hinv.frontier current hcurS
    have hdecomp : s.stack.dropLast ++ [current] = s.stack :=
      List.dropLast_append_getLast? current heq
    have hmemstack : ∀ y ∈ s.stack, y ∈ s.stack.dropLast ∨ y = current := by
      intro y hy
      rw [← hdecomp] at hy
      rcases List.mem_append.mp hy with hy | hy
      · exact Or.inl hy
      · exact Or.inr (List.mem_singleton.mp hy)
    split at h
    next hcurV =>
      cases h
      refine ⟨hinv.vis, ?_, ?_, ?_, hinv.nodup, hinv.steps_ne⟩
      · intro x hx
        exact hinv.frontier x ((List.dropLast_sublist s.stack).mem hx)
      · intro x hx y c hc
        rcases hinv.closed x hx y c hc with hy | hy
        · exact Or.inl hy
        · rcases hmemstack y hy with hy | rfl
          · exact Or.inr hy
          · exact Or.inl hcurV
      · rcases hinv.start_in with h1 | h1
        · exact Or.inl h1
        · rcases hmemstack start h1 with h1 | rfl
          · exact Or.inr h1
          · exact Or.inl hcurV
    next hcurV =>
      split at h
      · exact absurd h (by simp)
      next hgoal =>
        cases h
        obtain ⟨hmono, hproc, hsrc⟩ := dfsExpand_stack current
          (addSet s.visited current) (getNeighbors p current).reverse
          s.stack.dropLast s.parentMap
        have hvismem : ∀ x ∈ addSet s.visited current, x ∈ s.visited ∨ x = current :=
          fun x hx => (addSet_mem _ _ _).mp hx
        refine ⟨?_, ?_, ?_, ?_, addSet_nodup _ _ hinv.nodup, ?_⟩
        · intro x hx
          rcases hvismem x hx with hx' | rfl
          · exact hinv.vis x hx'
          · exact hcurR
        · intro x hx
          rcases hsrc x hx with hx' | ⟨c, hc⟩
          · exact hinv.frontier x ((List.dropLast_sublist s.stack).mem hx')
          · exact Reach.step c hcurR (List.mem_reverse.mp hc)
        · intro x hx y c hc
          rcases hvismem x hx with hx' | rfl
          · rcases hinv.closed x hx' y c hc with hy | hy
            · exact Or.inl ((addSet_mem _ _ _).mpr (Or.inl hy))
            · rcases hmemstack y hy with hy | rfl
              · exact Or.inr (hmono y hy)
              · exact Or.inl ((addSet_mem _ _ _).mpr (Or.inr rfl))
          · rcases hproc y c (List.mem_reverse.mpr hc) with hy | hy
            · exact Or.inl hy
            · exact Or.inr hy
        · rcases hinv.start_in with h1 | h1
          · exact Or.inl ((addSet_mem _ _ _).mpr (Or.inl h1))
          · rcases hmemstack start h1 with h1 | rfl
            · exact Or.inr (hmono start h1)
            · exact Or.inl ((addSet_mem _ _ _).mpr (Or.inr rfl))
        · intro hcon
          exact absurd (List.append_eq_nil.mp hcon).1 hinv.steps_ne

/-- A finishing `dfsStep` on an unreachable goal is an exhaustion. -/
theorem dfsStep_reach_inr (p : Problem) (start goalId : String)
    (hunreach : ¬ Reach p start goalId) (s : DfsSt) (r : SearchResult)
    (hinv : DfsReach p start s)
    (h : dfsStep p goalId s = some (.inr r)) : ExhaustOk p start r := by
  rw [dfsStep] at h
  simp only [Option.some.injEq] at h
  split at h
  next heq =>
    cases h
    have hnil : s.stack = [] := by
      cases hs : s.stack with
      | nil => rfl
      | cons b t =>
        rw [hs] at heq
        rw [getLast?_eq_getLastD (b :: t) (by simp)] at heq
        exact absurd heq (by simp)
    refine ⟨rfl, rfl, rfl, hinv.steps_ne, s.visited, hinv.nodup, ?_, rfl⟩
    intro x
    constructor
    · exact hinv.vis x
    · intro hx
      induction hx with
      | start =>
        rcases hinv.start_in with h1 | h1
        · exact h1
        · rw [hnil] at h1
          exact absurd h1 (List.not_mem_nil _)
      | step c hr hmem ihr =>
        rcases hinv.closed _ ihr _ _ hmem with hy | hy
        · exact hy
        · rw [hnil] at hy
          exact absurd hy (List.not_mem_nil _)
  next current heq =>
    have hcurS : current ∈ s.stack := List.mem_of_mem_getLast? heq
    split at h
    · exact absurd h (by simp)
    · split at h
      next hgoal =>
        exfalso
        refine hunreach ?_
        rw [← hgoal]
        exact hinv.frontier current hcurS
      · exact absurd h (by simp)

/-- On an unreachable goal, any `runDFS` result is an exhaustion whose visit
count enumerates the reachable component. -/
theorem runDFS_exhaust (p : Problem)
    (hunreach : ¬ Reach p (getStartId p) (getGoalId p)) (fuel : ℕ)
    (r : SearchResult) (h : runDFS p fuel = some r) :
    ExhaustOk p (getStartId p) r := by
  rw [runDFS] at h
  refine iterate_invariant (dfsStep_reach_inl p (getStartId p) (getGoalId p))
    (dfsStep_reach_inr p (getStartId p) (getGoalId p) hunreach) fuel _ r ?_ h
  refine ⟨?_, ?_, ?_, Or.inr (List.mem_singleton_self _), List.nodup_nil, by simp⟩
  · intro x hx
    exact absurd hx (List.not_mem_nil _)
  · intro x hx
    rcases List.mem_singleton.mp hx with rfl
    exact Reach.start
  · intro x hx
    exact absurd hx (List.not_mem_nil _)

/-- The greedy reachability/closure invariant. -/
structure GreedyReach (p : Problem) (start : String) (s : GreedySt) : Prop where
  vis : ∀ x ∈ s.visited, Reach p start x
  frontier : ∀ x ∈ pqToArray s.pq, Reach p start x
  closed : ∀ x ∈ s.visited, ∀ y c, (y, c) ∈ getNeighbors p x →
    y ∈ s.visited ∨ y ∈ pqToArray s.pq
  start_in : start ∈ s.visited ∨ start ∈ pqToArray s.pq
  nodup : s.visited.Nodup
  steps_ne : s.steps ≠ []

/-- The greedy expansion keeps old queue members and accounts for every
processed neighbor. -/
theorem greedyExpand_queue (sq : ℚ → ℚ) (p : Problem) (goalId current : String)
    (gCur : ℚ) (V : List String) :
    ∀ (l : List (String × ℚ)) (pq : List (String × ℚ)) (P : NMap String)
      (hv gv : NMap ℚ),
      (∀ x ∈ pqToArray pq,
        x ∈ pqToArray (greedyExpand sq p goalId current gCur V l pq P hv gv).1) ∧
      (∀ y c, (y, c) ∈ l → y ∈ V ∨
        y ∈ pqToArray (greedyExpand sq p goalId current gCur V l pq P hv gv).1) ∧
      (∀ x ∈ pqToArray (greedyExpand sq p goalId current gCur V l pq P hv gv).1,
        x ∈ pqToArray pq ∨ ∃ c, (x, c) ∈ l) := by
  intro l
  induction l with
  | nil =>
    intro pq P hv gv
    exact ⟨fun x hx => hx, fun y c hc => absurd hc (List.not_mem_nil _),
      fun x hx => Or.inl hx⟩
  | cons e rest ih =>
    intro pq P hv gv
    obtain ⟨id, cost⟩ := e
    rw [greedyExpand]
    by_cases hidV : id ∈ V
    · rw [if_neg (by simpa using hidV)]
      obtain ⟨hmono, hproc, hsrc⟩ := ih pq P hv gv
      refine ⟨hmono, ?_, ?_⟩
      · intro y c hc
        rcases List.mem_cons.mp hc with hc | hc
        · rcases Prod.mk.inj hc with ⟨rfl, rfl⟩
          exact Or.inl hidV
        · exact hproc y c hc
      · intro x hx
        rcases hsrc x hx with hx' | ⟨c, hc⟩
        · exact Or.inl hx'
        · exact Or.inr ⟨c, List.mem_cons_of_mem _ hc⟩
    · rw [if_pos (by simpa using hidV)]
      obtain ⟨hmono, hproc, hsrc⟩ := ih (pqEnqueue pq id (manhattanDistance sq id goalId p))
        (P.set id current) (hv.set id (manhattanDistance sq id goalId p))
        (gv.set id (gCur + cost))
      refine ⟨?_, ?_, ?_⟩
      · intro x hx
        exact hmono x ((pqEnqueue_mem _ _ _ _).mpr (Or.inl hx))
      · intro y c hc
        rcases List.mem_cons.mp hc with hc | hc
        · rcases Prod.mk.inj hc with ⟨rfl, rfl⟩
          exact Or.inr (hmono y ((pqEnqueue_mem _ _ _ _).mpr (Or.inr rfl)))
        · exact hproc y c hc
      · intro x hx
        rcases hsrc x hx with hx' | ⟨c, hc⟩
        · rcases (pqEnqueue_mem _ _ _ _).mp hx' with hx' | rfl
          · exact Or.inl hx'
          · exact Or.inr ⟨cost, List.mem_cons_self _ _⟩
        · exact Or.inr ⟨c, List.mem_cons_of_mem _ hc⟩

/-- A looping `greedyStep` preserves the reachability/closure invariant. -/
theorem greedyStep_reach_inl (sq : ℚ → ℚ) (p : Problem) (start goalId : String)
    (s s' : GreedySt) (hinv : GreedyReach p start s)
    (h : greedyStep sq p goalId s = some (.inl s')) : GreedyReach p start s' := by
  rw [greedyStep] at h
  simp only [Option.some.injEq] at h
  split at h
  · exact absurd h (by simp)
  next current prio rest heq =>
    have hcurQ : current ∈ pqToArray s.pq := by
      rw [heq]
      exact List.mem_map_of_mem _ (List.mem_cons_self _ _)
    have hcurR : Reach p start current := hinv.frontier current hcurQ
    have hmemq : ∀ y ∈ pqToArray s.pq, y ∈ pqToArray rest ∨ y = current := by
      intro y hy
      rw [heq, pqToArray, List.map_cons] at hy
      rcases List.mem_cons.mp hy with rfl | hy
      · exact Or.inr rfl
      · exact Or.inl hy
    split at h
    next hcurV =>
      cases h
      refine ⟨hinv.vis, ?_, ?_, ?_, hinv.nodup, hinv.steps_ne⟩
      · intro x hx
        exact hinv.frontier x (by rw [heq, pqToArray]; exact List.mem_cons_of_mem _ hx)
      · intro x hx y c hc
        rcases hinv.closed x hx y c hc with hy | hy
        · exact Or.inl hy
        · rcases hmemq y hy with hy | rfl
          · exact Or.inr hy
          · exact Or.inl hcurV
      · rcases hinv.start_in with h1 | h1
        · exact Or.inl h1
        · rcases hmemq start h1 with h1 | rfl
          · exact Or.inr h1
          · exact Or.inl hcurV
    next hcurV =>
      split at h
      · exact absurd h (by simp)
      next hgoal =>
        cases h
        obtain ⟨hmono, hproc, hsrc⟩ := greedyExpand_queue sq p goalId current
          ((s.gValues current).getD 0) (addSet s.visited current)
          (getNeighbors p current) rest s.parentMap s.hValues s.gValues
        have hvismem : ∀ x ∈ addSet s.visited current, x ∈ s.visited ∨ x = current :=
          fun x hx => (addSet_mem _ _ _).mp hx
        refine ⟨?_, ?_, ?_, ?_, addSet_nodup _ _ hinv.nodup, ?_⟩
        · intro x hx
          rcases hvismem x hx with hx' | rfl
          · exact hinv.vis x hx'
          · exact hcurR
        · intro x hx
          rcases hsrc x hx with hx' | ⟨c, hc⟩
          · exact hinv.frontier x
              (by rw [heq, pqToArray]; exact List.mem_cons_of_mem _ hx')
          · exact Reach.step c hcurR hc
        · intro x hx y c hc
          rcases hvismem x hx with hx' | rfl
          · rcases hinv.closed x hx' y c hc with hy | hy
            · exact Or.inl ((addSet_mem _ _ _).mpr (Or.inl hy))
            · rcases hmemq y hy with hy | rfl
              · exact Or.inr (hmono y hy)
              · exact Or.inl ((addSet_mem _ _ _).mpr (Or.inr rfl))
          · rcases hproc y c hc with hy | hy
            · exact Or.inl hy
            · exact Or.inr hy
        · rcases hinv.start_in with h1 | h1
          · exact Or.inl ((addSet_mem _ _ _).mpr (Or.inl h1))
          · rcases hmemq start h1 with h1 | rfl
            · exact Or.inr (hmono start h1)
            · exact Or.inl ((addSet_mem _ _ _).mpr (Or.inr rfl))
        · intro hcon
          exact absurd (List.append_eq_nil.mp hcon).1 hinv.steps_ne

/-- A finishing `greedyStep` on an unreachable goal is an exhaustion. -/
theorem greedyStep_reach_inr (sq : ℚ → ℚ) (p : Problem) (start goalId : String)
    (hunreach : ¬ Reach p start goalId) (s : GreedySt) (r : SearchResult)
    (hinv : GreedyReach p start s)
    (h : greedyStep sq p goalId s = some (.inr r)) : ExhaustOk p start r := by
  rw [greedyStep] at h
  simp only [Option.some.injEq] at h
  split at h
  next heq =>
    cases h
    refine ⟨rfl, rfl, rfl, hinv.steps_ne, s.visited, hinv.nodup, ?_, rfl⟩
    intro x
    constructor
    · exact hinv.vis x
    · intro hx
      induction hx with
      | start =>
        rcases hinv.start_in with h1 | h1
        · exact h1
        · rw [heq] at h1
          exact absurd h1 (List.not_mem_nil _)
      | step c hr hmem ihr =>
        rcases hinv.closed _ ihr _ _ hmem with hy | hy
        · exact hy
        · rw [heq] at hy
          exact absurd hy (List.not_mem_nil _)
  next current prio rest heq =>
    split at h
    · exact absurd h (by simp)
    · split at h
      next hgoal =>
        exfalso
        refine hunreach ?_
        rw [← hgoal]
        exact hinv.frontier current
          (by rw [heq]; exact List.mem_map_of_mem _ (List.mem_cons_self _ _))
      · exact absurd h (by simp)

/-- On an unreachable goal, any `runGreedy` result is an exhaustion whose
visit count enumerates the reachable component. -/
theorem runGreedy_exhaust (sq : ℚ → ℚ) (p : Problem)
    (hunreach : ¬ Reach p (getStartId p) (getGoalId p)) (fuel : ℕ)
    (r : SearchResult) (h : runGreedy sq p fuel = some r) :
    ExhaustOk p (getStartId p) r := by
  rw [runGreedy] at h
  refine iterate_invariant (greedyStep_reach_inl sq p (getStartId p) (getGoalId p))
    (greedyStep_reach_inr sq p (getStartId p) (getGoalId p) hunreach) fuel _ r ?_ h
  have hq : pqToArray (pqEnqueue []
      (getStartId p) (manhattanDistance sq (getStartId p) (getGoalId p) p)) =
      [getStartId p] := rfl
  refine ⟨?_, ?_, ?_, ?_, List.nodup_nil, by simp⟩
  · intro x hx
    exact absurd hx (List.not_mem_nil _)
  · intro x hx
    rw [hq] at hx
    rcases List.mem_singleton.mp hx with rfl
    exact Reach.start
  · intro x hx
    exact absurd hx (List.not_mem_nil _)
  · rw [hq]
    exact Or.inr (List.mem_singleton_self _)

/-- The UCS reachability/closure invariant: a defined g entry means the node
is visited or queued, so a skipped (non-improving) relaxation loses no
coverage. -/
structure UcsReach (p : Problem) (start : String) (s : UcsSt) : Prop where
  vis : ∀ x ∈ s.visited, Reach p start x
  frontier : ∀ x ∈ pqToArray s.pq, Reach p start x
  gdef : ∀ x, (s.gValues x).isSome = true → x ∈ s.visited ∨ x ∈ pqToArray s.pq
  closed : ∀ x ∈ s.visited, ∀ y c, (y, c) ∈ getNeighbors p x →
    y ∈ s.visited ∨ y ∈ pqToArray s.pq
  start_in : start ∈ s.visited ∨ start ∈ pqToArray s.pq
  nodup : s.visited.Nodup
  steps_ne : s.steps ≠ []

/-- The UCS relaxation keeps old queue members, covers every processed
neighbor, and preserves the g-coverage property. -/
theorem ucsRelax_queue (current : String) (gCur : ℚ) (V : List String) :
    ∀ (l : List (String × ℚ)) (pq : List (String × ℚ)) (P : NMap String)
      (G : NMap ℚ),
      (∀ x, (G x).isSome = true → x ∈ V ∨ x ∈ pqToArray pq) →
      (∀ x ∈ pqToArray pq, x ∈ pqToArray (ucsRelax current gCur V l pq P G).1) ∧
      (∀ y c, (y, c) ∈ l → y ∈ V ∨
        y ∈ pqToArray (ucsRelax current gCur V l pq P G).1) ∧
      (∀ x ∈ pqToArray (ucsRelax current gCur V l pq P G).1,
        x ∈ pqToArray pq ∨ ∃ c, (x, c) ∈ l) ∧
      (∀ x, ((ucsRelax current gCur V l pq P G).2.2 x).isSome = true →
        x ∈ V ∨ x ∈ pqToArray (ucsRelax current gCur V l pq P G).1) := by
  intro l
  induction l with
  | nil =>
    intro pq P G hgdef
    exact ⟨fun x hx => hx, fun y c hc => absurd hc (List.not_mem_nil _),
      fun x hx => Or.inl hx, hgdef⟩
  | cons e rest ih =>
    intro pq P G hgdef
    obtain ⟨id, cost⟩ := e
    rw [ucsRelax]
    by_cases hidV : id ∈ V
    · rw [if_neg (by simpa using hidV)]
      obtain ⟨hmono, hproc, hsrc, hg⟩ := ih pq P G hgdef
      refine ⟨hmono, ?_, ?_, hg⟩
      · intro y c hc
        rcases List.mem_cons.mp hc with hc | hc
        · rcases Prod.mk.inj hc with ⟨rfl, rfl⟩
          exact Or.inl hidV
        · exact hproc y c hc
      · intro x hx
        rcases hsrc x hx with hx' | ⟨c, hc⟩
        · exact Or.inl hx'
        · exact Or.inr ⟨c, List.mem_cons_of_mem _ hc⟩
    · rw [if_pos (by simpa using hidV)]
      set improves : Bool :=
        (match G id with
        | none => true
        | some g => decide (gCur + cost < g)) with himp
      by_cases himpv : improves = true
      · rw [if_pos himpv]
        have hgdef' : ∀ x, ((G.set id (gCur + cost)) x).isSome = true →
            x ∈ V ∨ x ∈ pqToArray (pqEnqueue pq id (gCur + cost)) := by
          intro x hx
          by_cases hxid : x = id
          · exact Or.inr ((pqEnqueue_mem _ _ _ _).mpr (Or.inr hxid))
          · rw [NMap.set_other _ _ _ _ hxid] at hx
            rcases hgdef x hx with hx' | hx'
            · exact Or.inl hx'
            · exact Or.inr ((pqEnqueue_mem _ _ _ _).mpr (Or.inl hx'))
        obtain ⟨hmono, hproc, hsrc, hg⟩ := ih (pqEnqueue pq id (gCur + cost))
          (P.set id current) (G.set id (gCur + cost)) hgdef'
        refine ⟨?_, ?_, ?_, hg⟩
        · intro x hx
          exact hmono x ((pqEnqueue_mem _ _ _ _).mpr (Or.inl hx))
        · intro y c hc
          rcases List.mem_cons.mp hc with hc | hc
          · rcases Prod.mk.inj hc with ⟨rfl, rfl⟩
            exact Or.inr (hmono y ((pqEnqueue_mem _ _ _ _).mpr (Or.inr rfl)))
          · exact hproc y c hc
        · intro x hx
          rcases hsrc x hx with hx' | ⟨c, hc⟩
          · rcases (pqEnqueue_mem _ _ _ _).mp hx' with hx' | rfl
            · exact Or.inl hx'
            · exact Or.inr ⟨cost, List.mem_cons_self _ _⟩
          · exact Or.inr ⟨c, List.mem_cons_of_mem _ hc⟩
      · rw [if_neg himpv]
        have hgsome : (G id).isSome = true := by
          cases hG : G id with
          | none =>
            rw [himp, hG] at himpv
            exact absurd rfl himpv
          | some g => rfl
        obtain ⟨hmono, hproc, hsrc, hg⟩ := ih pq P G hgdef
        refine ⟨hmono, ?_, ?_, hg⟩
        · intro y c hc
          rcases List.mem_cons.mp hc with hc | hc
          · rcases Prod.mk.inj hc with ⟨rfl, rfl⟩
            rcases hgdef y hgsome with hy | hy
            · exact Or.inl hy
            · exact Or.inr (hmono y hy)
          · exact hproc y c hc
        · intro x hx
          rcases hsrc x hx with hx' | ⟨c, hc⟩
          · exact Or.inl hx'
          · exact Or.inr ⟨c, List.mem_cons_of_mem _ hc⟩

/-- A looping `ucsStep` preserves the reachability/closure invariant. -/
theorem ucsStep_reach_inl (p : Problem) (start goalId : String)
    (s s' : UcsSt) (hinv : UcsReach p start s)
    (h : ucsStep p goalId s = some (.inl s')) : UcsReach p start s' := by
  rw [ucsStep] at h
  simp only [Option.some.injEq] at h
  split at h
  · exact absurd h (by simp)
  next current prio rest heq =>
    have hcurQ : current ∈ pqToArray s.pq := by
      rw [heq]
      exact List.mem_map_of_mem _ (List.mem_cons_self _ _)
    have hcurR : Reach p start current := hinv.frontier current hcurQ
    have hmemq : ∀ y ∈ pqToArray s.pq, y ∈ pqToArray rest ∨ y = current := by
      intro y hy
      rw [heq, pqToArray, List.map_cons] at hy
      rcases List.mem_cons.mp hy with rfl | hy
      · exact Or.inr rfl
      · exact Or.inl hy
    split at h
    next hcurV =>
      cases h
      refine ⟨hinv.vis, ?_, ?_, ?_, ?_, hinv.nodup, hinv.steps_ne⟩
      · intro x hx
        exact hinv.frontier x (by rw [heq, pqToArray]; exact List.mem_cons_of_mem _ hx)
      · intro x hx
        rcases hinv.gdef x hx with hx' | hx'
        · exact Or.inl hx'
        · rcases hmemq x hx' with hx' | rfl
          · exact Or.inr hx'
          · exact Or.inl hcurV
      · intro x hx y c hc
        rcases hinv.closed x hx y c hc with hy | hy
        · exact Or.inl hy
        · rcases hmemq y hy with hy | rfl
          · exact Or.inr hy
          · exact Or.inl hcurV
      · rcases hinv.start_in with h1 | h1
        · exact Or.inl h1
        · rcases hmemq start h1 with h1 | rfl
          · exact Or.inr h1
          · exact Or.inl hcurV
    next hcurV =>
      split at h
      · exact absurd h (by simp)
      next hgoal =>
        cases h
        have hvismem : ∀ x ∈ addSet s.visited current, x ∈ s.visited ∨ x = current :=
          fun x hx => (addSet_mem _ _ _).mp hx
        have hgdef0 : ∀ x, (s.gValues x).isSome = true →
            x ∈ addSet s.visited current ∨ x ∈ pqToArray rest := by
          intro x hx
          rcases hinv.gdef x hx with hx' | hx'
          · exact Or.inl ((addSet_mem _ _ _).mpr (Or.inl hx'))
          · rcases hmemq x hx' with hx' | rfl
            · exact Or.inr hx'
            · exact Or.inl ((addSet_mem _ _ _).mpr (Or.inr rfl))
        obtain ⟨hmono, hproc, hsrc, hg⟩ := ucsRelax_queue current
          ((s.gValues current).getD 0) (addSet s.visited current)
          (getNeighbors p current) rest s.parentMap s.gValues hgdef0
        refine ⟨?_, ?_, hg, ?_, ?_, addSet_nodup _ _ hinv.nodup, ?_⟩
        · intro x hx
          rcases hvismem x hx with hx' | rfl
          · exact hinv.vis x hx'
          · exact hcurR
        · intro x hx
          rcases hsrc x hx with hx' | ⟨c, hc⟩
          · exact hinv.frontier x
              (by rw [heq, pqToArray]; exact List.mem_cons_of_mem _ hx')
          · exact Reach.step c hcurR hc
        · intro x hx y c hc
          rcases hvismem x hx with hx' | rfl
          · rcases hinv.closed x hx' y c hc with hy | hy
            · exact Or.inl ((addSet_mem _ _ _).mpr (Or.inl hy))
            · rcases hmemq y hy with hy | rfl
              · exact Or.inr (hmono y hy)
              · exact Or.inl ((addSet_mem _ _ _).mpr (Or.inr rfl))
          · rcases hproc y c hc with hy | hy
            · exact Or.inl hy
            · exact Or.inr hy
        · rcases hinv.start_in with h1 | h1
          · exact Or.inl ((addSet_mem _ _ _).mpr (Or.inl h1))
          · rcases hmemq start h1 with h1 | rfl
            · exact Or.inr (hmono start h1)
            · exact Or.inl ((addSet_mem _ _ _).mpr (Or.inr rfl))
        · intro hcon
          exact absurd (List.append_eq_nil.mp hcon).1 hinv.steps_ne

/-- A finishing `ucsStep` on an unreachable goal is an exhaustion. -/
theorem ucsStep_reach_inr (p : Problem) (start goalId : String)
    (hunreach : ¬ Reach p start goalId) (s : UcsSt) (r : SearchResult)
    (hinv : UcsReach p start s)
    (h : ucsStep p goalId s = some (.inr r)) : ExhaustOk p start r := by
  rw [ucsStep] at h
  simp only [Option.some.injEq] at h
  split at h
  next heq =>
    cases h
    refine ⟨rfl, rfl, rfl, hinv.steps_ne, s.visited, hinv.nodup, ?_, rfl⟩
    intro x
    constructor
    · exact hinv.vis x
    · intro hx
      induction hx with
      | start =>
        rcases hinv.start_in with h1 | h1
        · exact h1
        · rw [heq] at h1
          exact absurd h1 (List.not_mem_nil _)
      | step c hr hmem ihr =>
        rcases hinv.closed _ ihr _ _ hmem with hy | hy
        · exact hy
        · rw [heq] at hy
          exact absurd hy (List.not_mem_nil _)
  next current prio rest heq =>
    split at h
    · exact absurd h (by simp)
    · split at h
      next hgoal =>
        exfalso
        refine hunreach ?_
        rw [← hgoal]
        exact hinv.frontier current
          (by rw [heq]; exact List.mem_map_of_mem _ (List.mem_cons_self _ _))
      · exact absurd h (by simp)

/-- On an unreachable goal, any `runUCS` result is an exhaustion whose visit
count enumerates the reachable component. -/
theorem runUCS_exhaust (p : Problem)
    (hunreach : ¬ Reach p (getStartId p) (getGoalId p)) (fuel : ℕ)
    (r : SearchResult) (h : runUCS p fuel = some r) :
    ExhaustOk p (getStartId p) r := by
  rw [runUCS] at h
  refine iterate_invariant (ucsStep_reach_inl p (getStartId p) (getGoalId p))
    (ucsStep_reach_inr p (getStartId p) (getGoalId p) hunreach) fuel _ r ?_ h
  refine ⟨?_, ?_, ?_, ?_, Or.inr (by simp [pqToArray]), List.nodup_nil, by simp⟩
  · intro x hx
    exact absurd hx (List.not_mem_nil _)
  · intro x hx
    have hx' : x = getStartId p := by simpa [pqToArray] using hx
    subst hx'
    exact Reach.start
  · intro x hx
    by_cases hxs : x = getStartId p
    · exact Or.inr (by simp [pqToArray, hxs])
    · exfalso
      simp [NMap.set, NMap.empty, hxs] at hx
  · intro x hx
    exact absurd hx (List.not_mem_nil _)

/-- The A* reachability/closure invariant. -/
structure AStarReach (p : Problem) (start : String) (s : AStarSt) : Prop where
  vis : ∀ x ∈ s.visited, Reach p start x
  frontier : ∀ x ∈ pqToArray s.pq, Reach p start x
  gdef : ∀ x, (s.gValues x).isSome = true → x ∈ s.visited ∨ x ∈ pqToArray s.pq
  closed : ∀ x ∈ s.visited, ∀ y c, (y, c) ∈ getNeighbors p x →
    y ∈ s.visited ∨ y ∈ pqToArray s.pq
  start_in : start ∈ s.visited ∨ start ∈ pqToArray s.pq
  nodup : s.visited.Nodup
  steps_ne : s.steps ≠ []

/-- The A* relaxation keeps old queue members, covers every processed
neighbor, and preserves the g-coverage property. -/
theorem astarRelax_queue (sq : ℚ → ℚ) (p : Problem) (goalId current : String)
    (gCur : ℚ) (V : List String) :
    ∀ (l : List (String × ℚ)) (pq : List (String × ℚ)) (P : NMap String)
      (G hv fv : NMap ℚ),
      (∀ x, (G x).isSome = true → x ∈ V ∨ x ∈ pqToArray pq) →
      (∀ x ∈ pqToArray pq,
        x ∈ pqToArray (astarRelax sq p goalId current gCur V l pq P G hv fv).1) ∧
      (∀ y c, (y, c) ∈ l → y ∈ V ∨
        y ∈ pqToArray (astarRelax sq p goalId current gCur V l pq P G hv fv).1) ∧
      (∀ x ∈ pqToArray (astarRelax sq p goalId current gCur V l pq P G hv fv).1,
        x ∈ pqToArray pq ∨ ∃ c, (x, c) ∈ l) ∧
      (∀ x, ((astarRelax sq p goalId current gCur V l pq P G hv fv).2.2.1 x).isSome = true →
        x ∈ V ∨ x ∈ pqToArray (astarRelax sq p goalId current gCur V l pq P G hv fv).1) := by
  intro l
  induction l with
  | nil =>
    intro pq P G hv fv hgdef
    exact ⟨fun x hx => hx, fun y c hc => absurd hc (List.not_mem_nil _),
      fun x hx => Or.inl hx, hgdef⟩
  | cons e rest ih =>
    intro pq P G hv fv hgdef
    obtain ⟨id, cost⟩ := e
    rw [astarRelax]
    by_cases hidV : id ∈ V
    · rw [if_neg (by simpa using hidV)]
      obtain ⟨hmono, hproc, hsrc, hg⟩ := ih pq P G hv fv hgdef
      refine ⟨hmono, ?_, ?_, hg⟩
      · intro y c hc
        rcases List.mem_cons.mp hc with hc | hc
        · rcases Prod.mk.inj hc with ⟨rfl, rfl⟩
          exact Or.inl hidV
        · exact hproc y c hc
      · intro x hx
        rcases hsrc x hx with hx' | ⟨c, hc⟩
        · exact Or.inl hx'
        · exact Or.inr ⟨c, List.mem_cons_of_mem _ hc⟩
    · rw [if_pos (by simpa using hidV)]
      set improves : Bool :=
        (match G id with
        | none => true
        | some g => decide (gCur + cost < g)) with himp
      by_cases himpv : improves = true
      · rw [if_pos himpv]
        have hgdef' : ∀ x, ((G.set id (gCur + cost)) x).isSome = true →
            x ∈ V ∨ x ∈ pqToArray (pqEnqueue pq id
              (gCur + cost + manhattanDistance sq id goalId p)) := by
          intro x hx
          by_cases hxid : x = id
          · exact Or.inr ((pqEnqueue_mem _ _ _ _).mpr (Or.inr hxid))
          · rw [NMap.set_other _ _ _ _ hxid] at hx
            rcases hgdef x hx with hx' | hx'
            · exact Or.inl hx'
            · exact Or.inr ((pqEnqueue_mem _ _ _ _).mpr (Or.inl hx'))
        obtain ⟨hmono, hproc, hsrc, hg⟩ := ih (pqEnqueue pq id
          (gCur + cost + manhattanDistance sq id goalId p))
          (P.set id current) (G.set id (gCur + cost))
          (hv.set id (manhattanDistance sq id goalId p))
          (fv.set id (gCur + cost + manhattanDistance sq id goalId p)) hgdef'
        refine ⟨?_, ?_, ?_, hg⟩
        · intro x hx
          exact hmono x ((pqEnqueue_mem _ _ _ _).mpr (Or.inl hx))
        · intro y c hc
          rcases List.mem_cons.mp hc with hc | hc
          · rcases Prod.mk.inj hc with ⟨rfl, rfl⟩
            exact Or.inr (hmono y ((pqEnqueue_mem _ _ _ _).mpr (Or.inr rfl)))
          · exact hproc y c hc
        · intro x hx
          rcases hsrc x hx with hx' | ⟨c, hc⟩
          · rcases (pqEnqueue_mem _ _ _ _).mp hx' with hx' | rfl
            · exact Or.inl hx'
            · exact Or.inr ⟨cost, List.mem_cons_self _ _⟩
          · exact Or.inr ⟨c, List.mem_cons_of_mem _ hc⟩
      · rw [if_neg himpv]
        have hgsome : (G id).isSome = true := by
          cases hG : G id with
          | none =>
            rw [himp, hG] at himpv
            exact absurd rfl himpv
          | some g => rfl
        obtain ⟨hmono, hproc, hsrc, hg⟩ := ih pq P G hv fv hgdef
        refine ⟨hmono, ?_, ?_, hg⟩
        · intro y c hc
          rcases List.mem_cons.mp hc with hc | hc
          · rcases Prod.mk.inj hc with ⟨rfl, rfl⟩
            rcases hgdef y hgsome with hy | hy
            · exact Or.inl hy
            · exact Or.inr (hmono y hy)
          · exact hproc y c hc
        · intro x hx
          rcases hsrc x hx with hx' | ⟨c, hc⟩
          · exact Or.inl hx'
          · exact Or.inr ⟨c, List.mem_cons_of_mem _ hc⟩

/-- A looping `astarStep` preserves the reachability/closure invariant. -/
theorem astarStep_reach_inl (sq : ℚ → ℚ) (p : Problem) (start goalId : String)
    (s s' : AStarSt) (hinv : AStarReach p start s)
    (h : astarStep sq p goalId s = some (.inl s')) : AStarReach p start s' := by
  rw [astarStep] at h
  simp only [Option.some.injEq] at h
  split at h
  · exact absurd h (by simp)
  next current prio rest heq =>
    have hcurQ : current ∈ pqToArray s.pq := by
      rw [heq]
      exact List.mem_map_of_mem _ (List.mem_cons_self _ _)
    have hcurR : Reach p start current := hinv.frontier current hcurQ
    have hmemq : ∀ y ∈ pqToArray s.pq, y ∈ pqToArray rest ∨ y = current := by
      intro y hy
      rw [heq, pqToArray, List.map_cons] at hy
      rcases List.mem_cons.mp hy with rfl | hy
      · exact Or.inr rfl
      · exact Or.inl hy
    split at h
    next hcurV =>
      cases h
      refine ⟨hinv.vis, ?_, ?_, ?_, ?_, hinv.nodup, hinv.steps_ne⟩
      · intro x hx
        exact hinv.frontier x (by rw [heq, pqToArray]; exact List.mem_cons_of_mem _ hx)
      · intro x hx
        rcases hinv.gdef x hx with hx' | hx'
        · exact Or.inl hx'
        · rcases hmemq x hx' with hx' | rfl
          · exact Or.inr hx'
          · exact Or.inl hcurV
      · intro x hx y c hc
        rcases hinv.closed x hx y c hc with hy | hy
        · exact Or.inl hy
        · rcases hmemq y hy with hy | rfl
          · exact Or.inr hy
          · exact Or.inl hcurV
      · rcases hinv.start_in with h1 | h1
        · exact Or.inl h1
        · rcases hmemq start h1 with h1 | rfl
          · exact Or.inr h1
          · exact Or.inl hcurV
    next hcurV =>
      split at h
      · exact absurd h (by simp)
      next hgoal =>
        cases h
        have hvismem : ∀ x ∈ addSet s.visited current, x ∈ s.visited ∨ x = current :=
          fun x hx => (addSet_mem _ _ _).mp hx
        have hgdef0 : ∀ x, (s.gValues x).isSome = true →
            x ∈ addSet s.visited current ∨ x ∈ pqToArray rest := by
          intro x hx
          rcases hinv.gdef x hx with hx' | hx'
          · exact Or.inl ((addSet_mem _ _ _).mpr (Or.inl hx'))
          · rcases hmemq x hx' with hx' | rfl
            · exact Or.inr hx'
            · exact Or.inl ((addSet_mem _ _ _).mpr (Or.inr rfl))
        obtain ⟨hmono, hproc, hsrc, hg⟩ := astarRelax_queue sq p goalId current
          ((s.gValues current).getD 0) (addSet s.visited current)
          (getNeighbors p current) rest s.parentMap s.gValues s.hValues s.fValues hgdef0
        refine ⟨?_, ?_, hg, ?_, ?_, addSet_nodup _ _ hinv.nodup, ?_⟩
        · intro x hx
          rcases hvismem x hx with hx' | rfl
          · exact hinv.vis x hx'
          · exact hcurR
        · intro x hx
          rcases hsrc x hx with hx' | ⟨c, hc⟩
          · exact hinv.frontier x
              (by rw [heq, pqToArray]; exact List.mem_cons_of_mem _ hx')
          · exact Reach.step c hcurR hc
        · intro x hx y c hc
          rcases hvismem x hx with hx' | rfl
          · rcases hinv.closed x hx' y c hc with hy | hy
            · exact Or.inl ((addSet_mem _ _ _).mpr (Or.inl hy))
            · rcases hmemq y hy with hy | rfl
              · exact Or.inr (hmono y hy)
              · exact Or.inl ((addSet_mem _ _ _).mpr (Or.inr rfl))
          · rcases hproc y c hc with hy | hy
            · exact Or.inl hy
            · exact Or.inr hy
        · rcases hinv.start_in with h1 | h1
          · exact Or.inl ((addSet_mem _ _ _).mpr (Or.inl h1))
          · rcases hmemq start h1 with h1 | rfl
            · exact Or.inr (hmono start h1)
            · exact Or.inl ((addSet_mem _ _ _).mpr (Or.inr rfl))
        · intro hcon
          exact absurd (List.append_eq_nil.mp hcon).1 hinv.steps_ne

/-- A finishing `astarStep` on an unreachable goal is an exhaustion. -/
theorem astarStep_reach_inr (sq : ℚ → ℚ) (p : Problem) (start goalId : String)
    (hunreach : ¬ Reach p start goalId) (s : AStarSt) (r : SearchResult)
    (hinv : AStarReach p start s)
    (h : astarStep sq p goalId s = some (.inr r)) : ExhaustOk p start r := by
  rw [astarStep] at h
  simp only [Option.some.injEq] at h
  split at h
  next heq =>
    cases h
    refine ⟨rfl, rfl, rfl, hinv.steps_ne, s.visited, hinv.nodup, ?_, rfl⟩
    intro x
    constructor
    · exact hinv.vis x
    · intro hx
      induction hx with
      | start =>
        rcases hinv.start_in with h1 | h1
        · exact h1
        · rw [heq] at h1
          exact absurd h1 (List.not_mem_nil _)
      | step c hr hmem ihr =>
        rcases hinv.closed _ ihr _ _ hmem with hy | hy
        · exact hy
        · rw [heq] at hy
          exact absurd hy (List.not_mem_nil _)
  next current prio rest heq =>
    split at h
    · exact absurd h (by simp)
    · split at h
      next hgoal =>
        exfalso
        refine hunreach ?_
        rw [← hgoal]
        exact hinv.frontier current
          (by rw [heq]; exact List.mem_map_of_mem _ (List.mem_cons_self _ _))
      · exact absurd h (by simp)

/-- On an unreachable goal, any `runAStar` result is an exhaustion whose
visit count enumerates the reachable component. -/
theorem runAStar_exhaust (sq : ℚ → ℚ) (p : Problem)
    (hunreach : ¬ Reach p (getStartId p) (getGoalId p)) (fuel : ℕ)
    (r : SearchResult) (h : runAStar sq p fuel = some r) :
    ExhaustOk p (getStartId p) r := by
  rw [runAStar] at h
  refine iterate_invariant (astarStep_reach_inl sq p (getStartId p) (getGoalId p))
    (astarStep_reach_inr sq p (getStartId p) (getGoalId p) hunreach) fuel _ r ?_ h
  have hq : pqToArray (pqEnqueue [] (getStartId p)
      (manhattanDistance sq (getStartId p) (getGoalId p) p)) = [getStartId p] := rfl
  refine ⟨?_, ?_, ?_, ?_, Or.inr (by rw [hq]; exact List.mem_singleton_self _),
    List.nodup_nil, by simp⟩
  · intro x hx
    exact absurd hx (List.not_mem_nil _)
  · intro x hx
    rw [hq] at hx
    rcases List.mem_singleton.mp hx with rfl
    exact Reach.start
  · intro x hx
    by_cases hxs : x = getStartId p
    · exact Or.inr (by rw [hq, hxs]; exact List.mem_singleton_self _)
    · exfalso
      simp [NMap.set, NMap.empty, hxs] at hx
  · intro x hx
    exact absurd hx (List.not_mem_nil _)

/-- The hill-climbing reachability invariant. -/
structure HillReach (p : Problem) (start : String) (s : HillSt) : Prop where
  cur_reach : Reach p start s.current
  steps_ne : s.steps ≠ []

/-- A looping `hillStep` preserves the reachability invariant. -/
theorem hillStep_reach_inl (sq : ℚ → ℚ) (p : Problem) (start goalId : String)
    (s s' : HillSt) (hinv : HillReach p start s)
    (h : hillStep sq p goalId s = some (.inl s')) : HillReach p start s' := by
  rw [hillStep] at h
  simp only [Option.some.injEq] at h
  split at h
  · exact absurd h (by simp)
  · split at h
    · exact absurd h (by simp)
    next bestNeighbor heqb =>
      split at h
      · exact absurd h (by simp)
      cases h
      obtain ⟨_, c, hmem⟩ := hillScan_best sq p goalId s.current
        ((s.gValues s.current).getD 0) s.visited (getNeighbors p s.current)
        (fun e he => he) s.hValues s.gValues none ((s.hValues s.current).getD 0)
        (fun b hb => absurd hb (by simp)) bestNeighbor heqb
      refine ⟨Reach.step c hinv.cur_reach hmem, ?_⟩
      intro hcon
      exact absurd (List.append_eq_nil.mp hcon).1 hinv.steps_ne

/-- A finishing `hillStep` on an unreachable goal is a failure. -/
theorem hillStep_reach_inr (sq : ℚ → ℚ) (p : Problem) (start goalId : String)
    (hunreach : ¬ Reach p start goalId) (s : HillSt) (r : SearchResult)
    (hinv : HillReach p start s)
    (h : hillStep sq p goalId s = some (.inr r)) : FailOk r := by
  rw [hillStep] at h
  simp only [Option.some.injEq] at h
  split at h
  next hgoal =>
    exfalso
    refine hunreach ?_
    rw [← hgoal]
    exact hinv.cur_reach
  · split at h
    next heqb =>
      cases h
      refine ⟨rfl, rfl, rfl, ?_⟩
      intro hcon
      exact absurd (List.append_eq_nil.mp hcon).1 hinv.steps_ne
    · split at h
      · cases h
        refine ⟨rfl, rfl, rfl, ?_⟩
        intro hcon
        exact absurd (List.append_eq_nil.mp hcon).1 hinv.steps_ne
      · exact absurd h (by simp)

/-- On an unreachable goal, any `runHillClimbing` result is a failure with
no path, no cost and a non-empty trace. -/
theorem runHillClimbing_fail (sq : ℚ → ℚ) (p : Problem)
    (hunreach : ¬ Reach p (getStartId p) (getGoalId p)) (fuel : ℕ)
    (r : SearchResult) (h : runHillClimbing sq p fuel = some r) : FailOk r := by
  rw [runHillClimbing] at h
  exact iterate_invariant (hillStep_reach_inl sq p (getStartId p) (getGoalId p))
    (hillStep_reach_inr sq p (getStartId p) (getGoalId p) hunreach) fuel _ r
    ⟨Reach.start, by simp⟩ h

/-- The beam-search reachability invariant. -/
structure BeamReach (p : Problem) (start : String) (s : BeamSt) : Prop where
  vis : ∀ x ∈ s.visited, Reach p start x
  beam_sub : ∀ x ∈ s.beam, x ∈ s.visited
  steps_ne : s.steps ≠ []

/-- Membership through the beam pruning fold. -/
theorem beamFold_mem :
    ∀ (chosen : List BeamCand) (W : List String) (P : NMap String),
      (∀ x ∈ W, x ∈ (chosen.foldl
        (fun acc c => (addSet acc.1 c.1, acc.2.set c.1 c.2.2)) (W, P)).1) ∧
      (∀ c ∈ chosen, c.1 ∈ (chosen.foldl
        (fun acc c => (addSet acc.1 c.1, acc.2.set c.1 c.2.2)) (W, P)).1) ∧
      (∀ x ∈ (chosen.foldl
        (fun acc c => (addSet acc.1 c.1, acc.2.set c.1 c.2.2)) (W, P)).1,
        x ∈ W ∨ ∃ c ∈ chosen, x = c.1) := by
  intro chosen
  induction chosen with
  | nil =>
    intro W P
    exact ⟨fun x hx => hx, fun c hc => absurd hc (List.not_mem_nil _),
      fun x hx => Or.inl hx⟩
  | cons c rest ih =>
    intro W P
    rw [List.foldl_cons]
    obtain ⟨hmono, hchosen, hsrc⟩ := ih (addSet W c.1) (P.set c.1 c.2.2)
    refine ⟨?_, ?_, ?_⟩
    · intro x hx
      exact hmono x ((addSet_mem _ _ _).mpr (Or.inl hx))
    · intro c' hc'
      rcases List.mem_cons.mp hc' with rfl | hc'
      · exact hmono c'.1 ((addSet_mem _ _ _).mpr (Or.inr rfl))
      · exact hchosen c' hc'
    · intro x hx
      rcases hsrc x hx with hx' | ⟨c', hc', rfl⟩
      · rcases (addSet_mem _ _ _).mp hx' with hx' | rfl
        · exact Or.inl hx'
        · exact Or.inr ⟨c, List.mem_cons_self _ _, rfl⟩
      · exact Or.inr ⟨c', List.mem_cons_of_mem _ hc', rfl⟩

/-- A looping `beamStep` preserves the reachability invariant. -/
theorem beamStep_reach_inl (sq : ℚ → ℚ) (p : Problem) (start goalId : String)
    (beamWidth : ℕ)
    (hneids : ∀ a q c, (q, c) ∈ getNeighbors p a → q ≠ "")
    (s s' : BeamSt) (hinv : BeamReach p start s)
    (h : beamStep sq p goalId start beamWidth s = some (.inl s')) :
    BeamReach p start s' := by
  rw [beamStep] at h
  simp only [Option.some.injEq] at h
  split at h
  · exact absurd h (by simp)
  · split at h
    · exact absurd h (by simp)
    next cands hv' gv' heqscan =>
      split at h
      · exact absurd h (by simp)
      next hcempty =>
        cases h
        have hcands : CandProps p s.visited cands :=
          beamScan_inl_cands sq p goalId s.visited hneids s.beam hinv.beam_sub
            [] s.hValues s.gValues (cands, hv', gv')
            (fun c hc => absurd hc (List.not_mem_nil _)) heqscan
        have hchosen : CandProps p s.visited
            ((List.insertionSort candLE cands).take beamWidth) := by
          intro c hc
          exact hcands c ((List.perm_insertionSort candLE cands).mem_iff.mp
            (List.take_subset _ _ hc))
        obtain ⟨hmono, hchall, hsrc⟩ := beamFold_mem
          ((List.insertionSort candLE cands).take beamWidth) s.visited s.parentMap
        refine ⟨?_, ?_, ?_⟩
        · intro x hx
          rcases hsrc x hx with hx' | ⟨c, hc, rfl⟩
          · exact hinv.vis x hx'
          · obtain ⟨_, _, hpar, cost, hmem⟩ := hchosen c hc
            exact Reach.step cost (hinv.vis _ hpar) hmem
        · intro x hx
          obtain ⟨c, hc, rfl⟩ := List.mem_map.mp hx
          exact hchall c hc
        · intro hcon
          exact absurd (List.append_eq_nil.mp hcon).1 hinv.steps_ne

/-- A finishing `beamStep` on an unreachable goal is a failure. -/
theorem beamStep_reach_inr (sq : ℚ → ℚ) (p : Problem) (start goalId : String)
    (beamWidth : ℕ) (hunreach : ¬ Reach p start goalId)
    (s : BeamSt) (r : SearchResult) (hinv : BeamReach p start s)
    (h : beamStep sq p goalId start beamWidth s = some (.inr r)) : FailOk r := by
  rw [beamStep] at h
  simp only [Option.some.injEq] at h
  split at h
  · cases h
    exact ⟨rfl, rfl, rfl, hinv.steps_ne⟩
  · split at h
    next hv' gv' heqscan =>
      exfalso
      refine hunreach ?_
      exact hinv.vis goalId (hinv.beam_sub goalId
        (beamScan_inr_goal sq p goalId s.visited s.beam [] s.hValues s.gValues
          (hv', gv') heqscan))
    next cands hv' gv' heqscan =>
      split at h
      · cases h
        refine ⟨rfl, rfl, rfl, ?_⟩
        intro hcon
        exact absurd (List.append_eq_nil.mp hcon).1 hinv.steps_ne
      · exact absurd h (by simp)

/-- On an unreachable goal, any `runBeamSearch` result (on a problem without
empty ids) is a failure with no path, no cost and a non-empty trace. -/
theorem runBeamSearch_fail (sq : ℚ → ℚ) (p : Problem)
    (hneids : ∀ a q c, (q, c) ∈ getNeighbors p a → q ≠ "")
    (hunreach : ¬ Reach p (getStartId p) (getGoalId p)) (beamWidth fuel : ℕ)
    (r : SearchResult) (h : runBeamSearch sq p beamWidth fuel = some r) :
    FailOk r := by
  rw [runBeamSearch] at h
  refine iterate_invariant
    (beamStep_reach_inl sq p (getStartId p) (getGoalId p) beamWidth hneids)
    (beamStep_reach_inr sq p (getStartId p) (getGoalId p) beamWidth hunreach)
    fuel _ r ?_ h
  refine ⟨?_, fun x hx => hx, by simp⟩
  intro x hx
  rcases List.mem_singleton.mp hx with rfl
  exact Reach.start

/-- A finishing IDA* outer step on an unreachable goal is a failure. -/
theorem idaOuterStep_fail_inr (sq : ℚ → ℚ) (p : Problem) (goalId startId : String)
    (hunreach : ¬ Reach p startId goalId) (innerFuel : ℕ) (os : IdaOuterSt)
    (r : SearchResult) (hpath : os.st.path = [startId])
    (h : idaOuterStep sq p goalId startId innerFuel os = some (.inr r)) :
    FailOk r := by
  rw [idaOuterStep] at h
  split at h
  · exact absurd h (by simp)
  next pth cost st' heq =>
    exfalso
    have hpp : IdaCallOk p startId (.search { os.st with visited := [] } 0) := by
      show IdaPathProp p startId os.st.path
      rw [hpath]
      exact ⟨rfl, List.nodup_singleton _, List.chain'_singleton _⟩
    rw [idaSearch] at heq
    have hres := idaGo_path sq p goalId os.bound startId innerFuel _ hpp
      (.found pth cost) st' heq
    obtain ⟨hh, hl, _, hch⟩ := hres.1 pth cost rfl
    match pth, hh, hl, hch with
    | a :: rest, hh, hl, hch =>
      have ha : a = startId := Option.some.inj hh
      rw [ha] at hl hch
      exact hunreach (chain_reach p startId rest startId Reach.start hch goalId hl)
  next t st' heq =>
    split at h
    · obtain rfl := Sum.inr.inj (Option.some.inj h)
      exact ⟨rfl, rfl, rfl, by simp⟩
    next t' =>
      exact absurd h (by simp)

/-- On an unreachable goal, any `runIDAStar` result is a failure with no
path, no cost and a non-empty trace. -/
theorem runIDAStar_fail (sq : ℚ → ℚ) (p : Problem)
    (hunreach : ¬ Reach p (getStartId p) (getGoalId p)) (outerFuel innerFuel : ℕ)
    (r : SearchResult) (h : runIDAStar sq p outerFuel innerFuel = some r) :
    FailOk r := by
  rw [runIDAStar] at h
  exact iterate_invariant
    (fun os os' hinv hstep =>
      idaOuterStep_path_inl sq p (getGoalId p) (getStartId p) innerFuel os os' hinv hstep)
    (fun os r' hinv hstep =>
      idaOuterStep_fail_inr sq p (getGoalId p) (getStartId p) hunreach innerFuel os r'
        hinv hstep)
    outerFuel _ r rfl h

/-! ### A finite universe of node ids -/

/-- Every id an engine run can ever touch: the start id, every grid cell
encoding, every edge endpoint. -/
def allIds (p : Problem) : List String :=
  getStartId p ::
    (match p with
     | .grid g => (List.range g.rows).flatMap
         (fun r => (List.range g.cols).map (fun c => gridCellToId r c))
     | .graph g => g.edges.flatMap (fun e => [e.to', e.from']))

theorem start_mem_allIds (p : Problem) : getStartId p ∈ allIds p :=
  List.mem_cons_self _ _

/-- Every resolver target lies in the id universe. -/
theorem nbr_mem_allIds (p : Problem) (x y : String) (c : ℚ)
    (hmem : (y, c) ∈ getNeighbors p x) : y ∈ allIds p := by
  cases p with
  | grid g =>
    rw [allIds]
    refine List.mem_cons_of_mem _ ?_
    rw [getNeighbors, getGridNeighbors] at hmem
    match hdec : idToGridCell x with
    | none =>
      rw [hdec] at hmem
      exact absurd hmem (List.not_mem_nil _)
    | some rc =>
      obtain ⟨row, col⟩ := rc
      rw [hdec] at hmem
      obtain ⟨d, _, hfd⟩ := List.mem_filterMap.mp hmem
      obtain ⟨hb, cell, _, _, hy, _⟩ := (gridNeighborOfDir_some_iff g row col d y c).mp hfd
      have hr : ((row : ℤ) + d.1).toNat < g.rows := by omega
      have hc : ((col : ℤ) + d.2).toNat < g.cols := by omega
      refine List.mem_flatMap.mpr ⟨((row : ℤ) + d.1).toNat, List.mem_range.mpr hr, ?_⟩
      exact List.mem_map.mpr ⟨((col : ℤ) + d.2).toNat, List.mem_range.mpr hc, hy.symm⟩
  | graph g =>
    rw [allIds]
    refine List.mem_cons_of_mem _ ?_
    rw [getNeighbors, getGraphNeighbors] at hmem
    obtain ⟨e, he, hyc⟩ := List.mem_flatMap.mp hmem
    refine List.mem_flatMap.mpr ⟨e, he, ?_⟩
    rcases List.mem_append.mp hyc with h1 | h1
    · by_cases hcnd : e.from' = x
      · rw [if_pos hcnd] at h1
        rcases List.mem_singleton.mp h1 with h1
        rcases Prod.mk.inj h1 with ⟨rfl, _⟩
        exact List.mem_cons_self _ _
      · rw [if_neg hcnd] at h1
        exact absurd h1 (List.not_mem_nil _)
    · by_cases hcnd : ¬g.isDirected ∧ e.to' = x
      · rw [if_pos hcnd] at h1
        rcases List.mem_singleton.mp h1 with h1
        rcases Prod.mk.inj h1 with ⟨rfl, _⟩
        exact List.mem_cons_of_mem _ (List.mem_singleton_self _)
      · rw [if_neg hcnd] at h1
        exact absurd h1 (List.not_mem_nil _)

/-- A bound on the length of any resolver answer. -/
def degBound (p : Problem) : ℕ :=
  match p with
  | .grid _ => 8
  | .graph g => 2 * g.edges.length

theorem getNeighbors_length_le (p : Problem) (x : String) :
    (getNeighbors p x).length ≤ degBound p := by
  cases p with
  | grid g =>
    rw [getNeighbors, getGridNeighbors, degBound]
    match idToGridCell x with
    | none => simp
    | some rc =>
      obtain ⟨row, col⟩ := rc
      calc ((gridDirections g.allowDiagonal).filterMap
              (gridNeighborOfDir g row col)).length
          ≤ (gridDirections g.allowDiagonal).length :=
            List.length_filterMap_le _ _
        _ ≤ 8 := by cases g.allowDiagonal <;> simp [gridDirections]
  | graph g =>
    rw [getNeighbors, getGraphNeighbors, degBound]
    induction g.edges with
    | nil => simp
    | cons e rest ih =>
      rw [List.flatMap_cons, List.length_append, List.length_cons]
      have h1 : ((if e.from' = x then [(e.to', e.weight)] else []) ++
          (if ¬g.isDirected ∧ e.to' = x then [(e.from', e.weight)] else [])).length ≤ 2 := by
        rw [List.length_append]
        have h2 : (if e.from' = x then [(e.to', e.weight)] else []).length ≤ 1 := by
          split <;> simp
        have h3 : (if ¬g.isDirected ∧ e.to' = x then
            [(e.from', e.weight)] else []).length ≤ 1 := by
          split <;> simp
        omega
      omega

/-- A duplicate-free list inside a universe is no longer than the
deduplicated universe. -/
theorem nodup_subset_length (V L : List String) (h1 : V.Nodup)
    (h2 : ∀ x ∈ V, x ∈ L) : V.length ≤ L.dedup.length := by
  have h3 : V.toFinset.card = V.length := List.toFinset_card_of_nodup h1
  have h4 : L.dedup.toFinset.card = L.dedup.length :=
    List.toFinset_card_of_nodup (List.nodup_dedup L)
  have h5 : V.toFinset ⊆ L.dedup.toFinset := by
    intro x hx
    rw [List.mem_toFinset] at hx ⊢
    rw [List.mem_dedup]
    exact h2 x hx
  have h6 := Finset.card_le_card h5
  omega

/-- A duplicate-free list inside a universe that saturates the universe's
size contains every universe member. -/
theorem nodup_subset_full (V L : List String) (h1 : V.Nodup)
    (h2 : ∀ x ∈ V, x ∈ L) (h3 : L.dedup.length ≤ V.length) :
    ∀ x ∈ L, x ∈ V := by
  intro x hx
  have hV : V.toFinset.card = V.length := List.toFinset_card_of_nodup h1
  have hL : L.dedup.toFinset.card = L.dedup.length :=
    List.toFinset_card_of_nodup (List.nodup_dedup L)
  have hsub : V.toFinset ⊆ L.dedup.toFinset := by
    intro y hy
    rw [List.mem_toFinset] at hy ⊢
    rw [List.mem_dedup]
    exact h2 y hy
  have heqf : V.toFinset = L.dedup.toFinset :=
    Finset.eq_of_subset_of_card_le hsub (by omega)
  have hx' : x ∈ L.dedup.toFinset := by
    rw [List.mem_toFinset, List.mem_dedup]
    exact hx
  rw [← heqf, List.mem_toFinset] at hx'
  exact hx'

/-- Length bound for the BFS expansion. -/
theorem bfsExpand_length (current : String) (V : List String) :
    ∀ (l : List (String × ℚ)) (q : List String) (pm : NMap String),
      (bfsExpand current V l q pm).1.length ≤ q.length + l.length := by
  intro l
  induction l with
  | nil =>
    intro q pm
    simp [bfsExpand]
  | cons e rest ih =>
    intro q pm
    obtain ⟨id, cost⟩ := e
    rw [bfsExpand]
    split
    · have := ih (q ++ [id]) (pm.set id current)
      rw [List.length_append] at this
      simpa using Nat.le_trans this (by simp; omega)
    · have := ih q pm
      exact Nat.le_trans this (by simp)

/-- Length bound for the DFS expansion. -/
theorem dfsExpand_length (current : String) (V : List String) :
    ∀ (l : List (String × ℚ)) (st : List String) (pm : NMap String),
      (dfsExpand current V l st pm).1.length ≤ st.length + l.length := by
  intro l
  induction l with
  | nil =>
    intro st pm
    simp [dfsExpand]
  | cons e rest ih =>
    intro st pm
    obtain ⟨id, cost⟩ := e
    rw [dfsExpand]
    split
    · split
      next =>
        have := ih (st ++ [id]) (pm.set id current)
        rw [List.length_append] at this
        simpa using Nat.le_trans this (by simp; omega)
      next v _ =>
        by_cases hv : v = ""
        · rw [if_pos hv]
          have := ih (st ++ [id]) (pm.set id current)
          rw [List.length_append] at this
          simpa using Nat.le_trans this (by simp; omega)
        · rw [if_neg hv]
          have := ih (st ++ [id]) pm
          rw [List.length_append] at this
          simpa using Nat.le_trans this (by simp; omega)
    · have := ih st pm
      exact Nat.le_trans this (by simp)

theorem pqEnqueue_length (q : List (String × ℚ)) (item : String) (prio : ℚ) :
    (pqEnqueue q item prio).length = q.length + 1 := by
  rw [pqEnqueue, (List.perm_insertionSort prioLE (q ++ [(item, prio)])).length_eq]
  simp

/-- Length bound for the UCS relaxation queue. -/
theorem ucsRelax_length (current : String) (gCur : ℚ) (V : List String) :
    ∀ (l : List (String × ℚ)) (pq : List (String × ℚ)) (P : NMap String)
      (G : NMap ℚ),
      (ucsRelax current gCur V l pq P G).1.length ≤ pq.length + l.length := by
  intro l
  induction l with
  | nil =>
    intro pq P G
    simp [ucsRelax]
  | cons e rest ih =>
    intro pq P G
    obtain ⟨id, cost⟩ := e
    rw [ucsRelax]
    simp only [List.length_cons]
    by_cases hidV : id ∈ V
    · rw [if_neg (by simpa using hidV)]
      have := ih pq P G
      omega
    · rw [if_pos (by simpa using hidV)]
      set improves : Bool :=
        (match G id with
        | none => true
        | some g => decide (gCur + cost < g)) with himp
      by_cases himpv : improves = true
      · rw [if_pos himpv]
        have := ih (pqEnqueue pq id (gCur + cost)) (P.set id current)
          (G.set id (gCur + cost))
        rw [pqEnqueue_length] at this
        omega
      · rw [if_neg himpv]
        have := ih pq P G
        omega

/-- Length bound for the greedy expansion queue. -/
theorem greedyExpand_length (sq : ℚ → ℚ) (p : Problem) (goalId current : String)
    (gCur : ℚ) (V : List String) :
    ∀ (l : List (String × ℚ)) (pq : List (String × ℚ)) (P : NMap String)
      (hv gv : NMap ℚ),
      (greedyExpand sq p goalId current gCur V l pq P hv gv).1.length ≤
        pq.length + l.length := by
  intro l
  induction l with
  | nil =>
    intro pq P hv gv
    simp [greedyExpand]
  | cons e rest ih =>
    intro pq P hv gv
    obtain ⟨id, cost⟩ := e
    rw [greedyExpand]
    simp only [List.length_cons]
    by_cases hidV : id ∈ V
    · rw [if_neg (by simpa using hidV)]
      have := ih pq P hv gv
      omega
    · rw [if_pos (by simpa using hidV)]
      have := ih (pqEnqueue pq id (manhattanDistance sq id goalId p))
        (P.set id current) (hv.set id (manhattanDistance sq id goalId p))
        (gv.set id (gCur + cost))
      rw [pqEnqueue_length] at this
      omega

/-- Length bound for the A* relaxation queue. -/
theorem astarRelax_length (sq : ℚ → ℚ) (p : Problem) (goalId current : String)
    (gCur : ℚ) (V : List String) :
    ∀ (l : List (String × ℚ)) (pq : List (String × ℚ)) (P : NMap String)
      (G hv fv : NMap ℚ),
      (astarRelax sq p goalId current gCur V l pq P G hv fv).1.length ≤
        pq.length + l.length := by
  intro l
  induction l with
  | nil =>
    intro pq P G hv fv
    simp [astarRelax]
  | cons e rest ih =>
    intro pq P G hv fv
    obtain ⟨id, cost⟩ := e
    rw [astarRelax]
    simp only [List.length_cons]
    by_cases hidV : id ∈ V
    · rw [if_neg (by simpa using hidV)]
      have := ih pq P G hv fv
      omega
    · rw [if_pos (by simpa using hidV)]
      set improves : Bool :=
        (match G id with
        | none => true
        | some g => decide (gCur + cost < g)) with himp
      by_cases himpv : improves = true
      · rw [if_pos himpv]
        have := ih (pqEnqueue pq id
            (gCur + cost + manhattanDistance sq id goalId p))
          (P.set id current) (G.set id (gCur + cost))
          (hv.set id (manhattanDistance sq id goalId p))
          (fv.set id (gCur + cost + manhattanDistance sq id goalId p))
        rw [pqEnqueue_length] at this
        omega
      · rw [if_neg himpv]
        have := ih pq P G hv fv
        omega

/-- Termination for `iterate` from a decreasing natural measure. -/
theorem iterate_terminates {S R : Type} {f : S → Option (S ⊕ R)} {Inv : S → Prop}
    (μ : S → ℕ)
    (hstep : ∀ s, Inv s → (∃ s', f s = some (.inl s') ∧ Inv s' ∧ μ s' < μ s) ∨
      (∃ r, f s = some (.inr r))) :
    ∀ (s : S), Inv s → ∀ n, μ s < n → (iterate f n s).isSome := by
  intro s hs n
  induction n generalizing s with
  | zero => omega
  | succ n ih =>
    intro hμ
    rcases hstep s hs with ⟨s', hf, hs', hlt⟩ | ⟨r, hf⟩
    · rw [iterate_inl f s s' hf]
      exact ih s' hs' (by omega)
    · rw [iterate_inr f s r hf]
      rfl

/-! ### Termination of the queue-driven loops -/

/-- The termination invariant of BFS: visited is duplicate-free inside the
id universe and the frontier stays inside the universe. -/
def BfsTermInv (p : Problem) (s : BfsSt) : Prop :=
  s.visited.Nodup ∧ (∀ x ∈ s.visited, x ∈ allIds p) ∧ (∀ x ∈ s.queue, x ∈ allIds p)

/-- The BFS loop measure. -/
def bfsMeasure (p : Problem) (s : BfsSt) : ℕ :=
  (1 + degBound p) * ((allIds p).dedup.length - s.visited.length) + s.queue.length

theorem bfsStep_term (p : Problem) (goalId : String) :
    ∀ s : BfsSt, BfsTermInv p s →
      (∃ s', bfsStep p goalId s = some (.inl s') ∧ BfsTermInv p s' ∧
        bfsMeasure p s' < bfsMeasure p s) ∨
      (∃ r, bfsStep p goalId s = some (.inr r)) := by
  intro s hinv
  obtain ⟨hnd, hvsub, hqsub⟩ := hinv
  cases hstep : bfsStep p goalId s with
  | none =>
    exfalso
    rw [bfsStep] at hstep
    exact Option.noConfusion hstep
  | some v =>
    cases v with
    | inr r => exact Or.inr ⟨r, rfl⟩
    | inl s' =>
      refine Or.inl ⟨s', rfl, ?_⟩
      rw [bfsStep] at hstep
      simp only [Option.some.injEq] at hstep
      split at hstep
      · exact absurd hstep (by simp)
      next current rest heq =>
        have hql : s.queue.length = rest.length + 1 := by
          rw [heq]
          rfl
        have hcurU : current ∈ allIds p := hqsub current (by
          rw [heq]
          exact List.mem_cons_self _ _)
        split at hstep
        next hcurV =>
          cases hstep
          refine ⟨⟨hnd, hvsub, fun x hx =>
            hqsub x (by rw [heq]; exact List.mem_cons_of_mem _ hx)⟩, ?_⟩
          simp only [bfsMeasure]
          omega
        next hcurV =>
          split at hstep
          · exact absurd hstep (by simp)
          next hgoal =>
            cases hstep
            obtain ⟨_, _, hsrc⟩ := bfsExpand_queue current
              (addSet s.visited current) (getNeighbors p current) rest s.parentMap
            have hvsub' : ∀ x ∈ addSet s.visited current, x ∈ allIds p := by
              intro x hx
              rcases (addSet_mem _ _ _).mp hx with hx' | rfl
              · exact hvsub x hx'
              · exact hcurU
            refine ⟨⟨addSet_nodup _ _ hnd, hvsub', ?_⟩, ?_⟩
            · intro x hx
              rcases hsrc x hx with hx' | ⟨c, hc⟩
              · exact hqsub x (by rw [heq]; exact List.mem_cons_of_mem _ hx')
              · exact nbr_mem_allIds p current x c hc
            · have hlenv : (addSet s.visited current).length = s.visited.length + 1 :=
                addSet_length_lt _ _ hcurV
              have hle : (addSet s.visited current).length ≤ (allIds p).dedup.length :=
                nodup_subset_length _ _ (addSet_nodup _ _ hnd) hvsub'
              have hqlen := bfsExpand_length current (addSet s.visited current)
                (getNeighbors p current) rest s.parentMap
              have hdeg := getNeighbors_length_le p current
              simp only [bfsMeasure]
              rw [hlenv]
              have harith : (1 + degBound p) *
                  ((allIds p).dedup.length - s.visited.length) =
                  (1 + degBound p) *
                    ((allIds p).dedup.length - (s.visited.length + 1)) +
                    (1 + degBound p) := by
                have h1 : (allIds p).dedup.length - s.visited.length =
                    ((allIds p).dedup.length - (s.visited.length + 1)) + 1 := by
                  omega
                rw [h1, Nat.mul_add, Nat.mul_one]
              omega

/-- BFS terminates: some fuel returns a result. -/
theorem runBFS_terminates (p : Problem) : ∃ fuel, (runBFS p fuel).isSome = true := by
  refine ⟨bfsMeasure p
    { queue := [getStartId p], visited := [], parentMap := NMap.empty,
      steps := [createStep 0 (getStartId p) [getStartId p] [] NMap.empty
        NMap.empty NMap.empty NMap.empty false false],
      stepNumber := 1 } + 1, ?_⟩
  rw [runBFS]
  refine iterate_terminates (bfsMeasure p) (bfsStep_term p (getGoalId p)) _
    ⟨List.nodup_nil, ?_, ?_⟩ _ (Nat.lt_succ_self _)
  · intro x hx
    exact absurd hx (List.not_mem_nil _)
  · intro x hx
    rcases List.mem_singleton.mp hx with rfl
    exact start_mem_allIds p

/-- The termination invariant of DFS. -/
def DfsTermInv (p : Problem) (s : DfsSt) : Prop :=
  s.visited.Nodup ∧ (∀ x ∈ s.visited, x ∈ allIds p) ∧ (∀ x ∈ s.stack, x ∈ allIds p)

/-- The DFS loop measure. -/
def dfsMeasure (p : Problem) (s : DfsSt) : ℕ :=
  (1 + degBound p) * ((allIds p).dedup.length - s.visited.length) + s.stack.length

theorem dfsStep_term (p : Problem) (goalId : String) :
    ∀ s : DfsSt, DfsTermInv p s →
      (∃ s', dfsStep p goalId s = some (.inl s') ∧ DfsTermInv p s' ∧
        dfsMeasure p s' < dfsMeasure p s) ∨
      (∃ r, dfsStep p goalId s = some (.inr r)) := by
  intro s hinv
  obtain ⟨hnd, hvsub, hqsub⟩ := hinv
  cases hstep : dfsStep p goalId s with
  | none =>
    exfalso
    rw [dfsStep] at hstep
    exact Option.noConfusion hstep
  | some v =>
    cases v with
    | inr r => exact Or.inr ⟨r, rfl⟩
    | inl s' =>
      refine Or.inl ⟨s', rfl, ?_⟩
      rw [dfsStep] at hstep
      simp only [Option.some.injEq] at hstep
      split at hstep
      · exact absurd hstep (by simp)
      next current heq =>
        have hcurS : current ∈ s.stack := List.mem_of_mem_getLast? heq
        have hne : s.stack ≠ [] := List.ne_nil_of_mem hcurS
        have hql : s.stack.dropLast.length + 1 = s.stack.length := by
          rw [List.length_dropLast]
          have := List.length_pos.mpr hne
          omega
        have hcurU : current ∈ allIds p := hqsub current hcurS
        have hsubrest : ∀ x ∈ s.stack.dropLast, x ∈ s.stack :=
          fun x hx => (List.dropLast_sublist s.stack).mem hx
        split at hstep
        next hcurV =>
          cases hstep
          refine ⟨⟨hnd, hvsub, fun x hx => hqsub x (hsubrest x hx)⟩, ?_⟩
          simp only [dfsMeasure]
          omega
        next hcurV =>
          split at hstep
          · exact absurd hstep (by simp)
          next hgoal =>
            cases hstep
            obtain ⟨_, _, hsrc⟩ := dfsExpand_stack current
              (addSet s.visited current) (getNeighbors p current).reverse
              s.stack.dropLast s.parentMap
            have hvsub' : ∀ x ∈ addSet s.visited current, x ∈ allIds p := by
              intro x hx
              rcases (addSet_mem _ _ _).mp hx with hx' | rfl
              · exact hvsub x hx'
              · exact hcurU
            refine ⟨⟨addSet_nodup _ _ hnd, hvsub', ?_⟩, ?_⟩
            · intro x hx
              rcases hsrc x hx with hx' | ⟨c, hc⟩
              · exact hqsub x (hsubrest x hx')
              · exact nbr_mem_allIds p current x c (List.mem_reverse.mp hc)
            · have hlenv : (addSet s.visited current).length = s.visited.length + 1 :=
                addSet_length_lt _ _ hcurV
              have hle : (addSet s.visited current).length ≤ (allIds p).dedup.length :=
                nodup_subset_length _ _ (addSet_nodup _ _ hnd) hvsub'
              have hqlen := dfsExpand_length current (addSet s.visited current)
                (getNeighbors p current).reverse s.stack.dropLast s.parentMap
              have hdeg := getNeighbors_length_le p current
              rw [List.length_reverse] at hqlen
              simp only [dfsMeasure]
              rw [hlenv]
              have harith : (1 + degBound p) *
                  ((allIds p).dedup.length - s.visited.length) =
                  (1 + degBound p) *
                    ((allIds p).dedup.length - (s.visited.length + 1)) +
                    (1 + degBound p) := by
                have h1 : (allIds p).dedup.length - s.visited.length =
                    ((allIds p).dedup.length - (s.visited.length + 1)) + 1 := by
                  omega
                rw [h1, Nat.mul_add, Nat.mul_one]
              omega

/-- DFS terminates: some fuel returns a result. -/
theorem runDFS_terminates (p : Problem) : ∃ fuel, (runDFS p fuel).isSome = true := by
  refine ⟨dfsMeasure p
    { stack := [getStartId p], visited := [], parentMap := NMap.empty,
      steps := [createStep 0 (getStartId p) [getStartId p] [] NMap.empty
        NMap.empty NMap.empty NMap.empty false false],
      stepNumber := 1 } + 1, ?_⟩
  rw [runDFS]
  refine iterate_terminates (dfsMeasure p) (dfsStep_term p (getGoalId p)) _
    ⟨List.nodup_nil, ?_, ?_⟩ _ (Nat.lt_succ_self _)
  · intro x hx
    exact absurd hx (List.not_mem_nil _)
  · intro x hx
    rcases List.mem_singleton.mp hx with rfl
    exact start_mem_allIds p

/-- The termination invariant of UCS (the last clause feeds the relaxation
lemma). -/
def UcsTermInv (p : Problem) (s : UcsSt) : Prop :=
  s.visited.Nodup ∧ (∀ x ∈ s.visited, x ∈ allIds p) ∧
    (∀ x ∈ pqToArray s.pq, x ∈ allIds p) ∧
    (∀ x, (s.gValues x).isSome = true → x ∈ s.visited ∨ x ∈ pqToArray s.pq)

/-- The UCS loop measure. -/
def ucsMeasure (p : Problem) (s : UcsSt) : ℕ :=
  (1 + degBound p) * ((allIds p).dedup.length - s.visited.length) + s.pq.length

theorem ucsStep_term (p : Problem) (goalId : String) :
    ∀ s : UcsSt, UcsTermInv p s →
      (∃ s', ucsStep p goalId s = some (.inl s') ∧ UcsTermInv p s' ∧
        ucsMeasure p s' < ucsMeasure p s) ∨
      (∃ r, ucsStep p goalId s = some (.inr r)) := by
  intro s hinv
  obtain ⟨hnd, hvsub, hqsub, hgdef⟩ := hinv
  cases hstep : ucsStep p goalId s with
  | none =>
    exfalso
    rw [ucsStep] at hstep
    exact Option.noConfusion hstep
  | some v =>
    cases v with
    | inr r => exact Or.inr ⟨r, rfl⟩
    | inl s' =>
      refine Or.inl ⟨s', rfl, ?_⟩
      rw [ucsStep] at hstep
      simp only [Option.some.injEq] at hstep
      split at hstep
      · exact absurd hstep (by simp)
      next current prio rest heq =>
        have hql : s.pq.length = rest.length + 1 := by
          rw [heq]
          rfl
        have hcurU : current ∈ allIds p := hqsub current (by
          rw [heq]
          exact List.mem_map_of_mem _ (List.mem_cons_self _ _))
        have hqsubrest : ∀ x ∈ pqToArray rest, x ∈ allIds p := by
          intro x hx
          exact hqsub x (by rw [heq, pqToArray]; exact List.mem_cons_of_mem _ hx)
        have hmemq : ∀ y ∈ pqToArray s.pq, y ∈ pqToArray rest ∨ y = current := by
          intro y hy
          rw [heq, pqToArray, List.map_cons] at hy
          rcases List.mem_cons.mp hy with rfl | hy
          · exact Or.inr rfl
          · exact Or.inl hy
        split at hstep
        next hcurV =>
          cases hstep
          refine ⟨⟨hnd, hvsub, hqsubrest, ?_⟩, ?_⟩
          · intro x hx
            rcases hgdef x hx with hx' | hx'
            · exact Or.inl hx'
            · rcases hmemq x hx' with hx' | rfl
              · exact Or.inr hx'
              · exact Or.inl hcurV
          · simp only [ucsMeasure]
            omega
        next hcurV =>
          split at hstep
          · exact absurd hstep (by simp)
          next hgoal =>
            cases hstep
            have hgdef0 : ∀ x, (s.gValues x).isSome = true →
                x ∈ addSet s.visited current ∨ x ∈ pqToArray rest := by
              intro x hx
              rcases hgdef x hx with hx' | hx'
              · exact Or.inl ((addSet_mem _ _ _).mpr (Or.inl hx'))
              · rcases hmemq x hx' with hx' | rfl
                · exact Or.inr hx'
                · exact Or.inl ((addSet_mem _ _ _).mpr (Or.inr rfl))
            obtain ⟨_, _, hsrc, hg⟩ := ucsRelax_queue current
              ((s.gValues current).getD 0) (addSet s.visited current)
              (getNeighbors p current) rest s.parentMap s.gValues hgdef0
            have hvsub' : ∀ x ∈ addSet s.visited current, x ∈ allIds p := by
              intro x hx
              rcases (addSet_mem _ _ _).mp hx with hx' | rfl
              · exact hvsub x hx'
              · exact hcurU
            refine ⟨⟨addSet_nodup _ _ hnd, hvsub', ?_, ?_⟩, ?_⟩
            · intro x hx
              rcases hsrc x hx with hx' | ⟨c, hc⟩
              · exact hqsubrest x hx'
              · exact nbr_mem_allIds p current x c hc
            · exact hg
            · have hlenv : (addSet s.visited current).length = s.visited.length + 1 :=
                addSet_length_lt _ _ hcurV
              have hle : (addSet s.visited current).length ≤ (allIds p).dedup.length :=
                nodup_subset_length _ _ (addSet_nodup _ _ hnd) hvsub'
              have hqlen := ucsRelax_length current ((s.gValues current).getD 0)
                (addSet s.visited current) (getNeighbors p current) rest
                s.parentMap s.gValues
              have hdeg := getNeighbors_length_le p current
              simp only [ucsMeasure]
              rw [hlenv]
              have harith : (1 + degBound p) *
                  ((allIds p).dedup.length - s.visited.length) =
                  (1 + degBound p) *
                    ((allIds p).dedup.length - (s.visited.length + 1)) +
                    (1 + degBound p) := by
                have h1 : (allIds p).dedup.length - s.visited.length =
                    ((allIds p).dedup.length - (s.visited.length + 1)) + 1 := by
                  omega
                rw [h1, Nat.mul_add, Nat.mul_one]
              omega

/-- UCS terminates: some fuel returns a result. -/
theorem runUCS_terminates (p : Problem) : ∃ fuel, (runUCS p fuel).isSome = true := by
  refine ⟨ucsMeasure p
    { pq := [(getStartId p, 0)], visited := [], parentMap := NMap.empty,
      gValues := NMap.empty.set (getStartId p) 0,
      steps := [createStep 0 (getStartId p) [getStartId p] [] NMap.empty
        (NMap.empty.set (getStartId p) 0) NMap.empty NMap.empty false false],
      stepNumber := 1 } + 1, ?_⟩
  rw [runUCS]
  refine iterate_terminates (ucsMeasure p) (ucsStep_term p (getGoalId p)) _
    ⟨List.nodup_nil, ?_, ?_, ?_⟩ _ (Nat.lt_succ_self _)
  · intro x hx
    exact absurd hx (List.not_mem_nil _)
  · intro x hx
    have hx' : x = getStartId p := by simpa [pqToArray] using hx
    subst hx'
    exact start_mem_allIds p
  · intro x hx
    by_cases hxs : x = getStartId p
    · exact Or.inr (by simp [pqToArray, hxs])
    · exfalso
      simp [NMap.set, NMap.empty, hxs] at hx

/-- The termination invariant of greedy best-first. -/
def GreedyTermInv (p : Problem) (s : GreedySt) : Prop :=
  s.visited.Nodup ∧ (∀ x ∈ s.visited, x ∈ allIds p) ∧
    (∀ x ∈ pqToArray s.pq, x ∈ allIds p)

/-- The greedy loop measure. -/
def greedyMeasure (p : Problem) (s : GreedySt) : ℕ :=
  (1 + degBound p) * ((allIds p).dedup.length - s.visited.length) + s.pq.length

theorem greedyStep_term (sq : ℚ → ℚ) (p : Problem) (goalId : String) :
    ∀ s : GreedySt, GreedyTermInv p s →
      (∃ s', greedyStep sq p goalId s = some (.inl s') ∧ GreedyTermInv p s' ∧
        greedyMeasure p s' < greedyMeasure p s) ∨
      (∃ r, greedyStep sq p goalId s = some (.inr r)) := by
  intro s hinv
  obtain ⟨hnd, hvsub, hqsub⟩ := hinv
  cases hstep : greedyStep sq p goalId s with
  | none =>
    exfalso
    rw [greedyStep] at hstep
    exact Option.noConfusion hstep
  | some v =>
    cases v with
    | inr r => exact Or.inr ⟨r, rfl⟩
    | inl s' =>
      refine Or.inl ⟨s', rfl, ?_⟩
      rw [greedyStep] at hstep
      simp only [Option.some.injEq] at hstep
      split at hstep
      · exact absurd hstep (by simp)
      next current prio rest heq =>
        have hql : s.pq.length = rest.length + 1 := by
          rw [heq]
          rfl
        have hcurU : current ∈ allIds p := hqsub current (by
          rw [heq]
          exact List.mem_map_of_mem _ (List.mem_cons_self _ _))
        have hqsubrest : ∀ x ∈ pqToArray rest, x ∈ allIds p := by
          intro x hx
          exact hqsub x (by rw [heq, pqToArray]; exact List.mem_cons_of_mem _ hx)
        split at hstep
        next hcurV =>
          cases hstep
          refine ⟨⟨hnd, hvsub, hqsubrest⟩, ?_⟩
          simp only [greedyMeasure]
          omega
        next hcurV =>
          split at hstep
          · exact absurd hstep (by simp)
          next hgoal =>
            cases hstep
            obtain ⟨_, _, hsrc⟩ := greedyExpand_queue sq p goalId current
              ((s.gValues current).getD 0) (addSet s.visited current)
              (getNeighbors p current) rest s.parentMap s.hValues s.gValues
            have hvsub' : ∀ x ∈ addSet s.visited current, x ∈ allIds p := by
              intro x hx
              rcases (addSet_mem _ _ _).mp hx with hx' | rfl
              · exact hvsub x hx'
              · exact hcurU
            refine ⟨⟨addSet_nodup _ _ hnd, hvsub', ?_⟩, ?_⟩
            · intro x hx
              rcases hsrc x hx with hx' | ⟨c, hc⟩
              · exact hqsubrest x hx'
              · exact nbr_mem_allIds p current x c hc
            · have hlenv : (addSet s.visited current).length = s.visited.length + 1 :=
                addSet_length_lt _ _ hcurV
              have hle : (addSet s.visited current).length ≤ (allIds p).dedup.length :=
                nodup_subset_length _ _ (addSet_nodup _ _ hnd) hvsub'
              have hqlen := greedyExpand_length sq p goalId current
                ((s.gValues current).getD 0) (addSet s.visited current)
                (getNeighbors p current) rest s.parentMap s.hValues s.gValues
              have hdeg := getNeighbors_length_le p current
              simp only [greedyMeasure]
              rw [hlenv]
              have harith : (1 + degBound p) *
                  ((allIds p).dedup.length - s.visited.length) =
                  (1 + degBound p) *
                    ((allIds p).dedup.length - (s.visited.length + 1)) +
                    (1 + degBound p) := by
                have h1 : (allIds p).dedup.length - s.visited.length =
                    ((allIds p).dedup.length - (s.visited.length + 1)) + 1 := by
                  omega
                rw [h1, Nat.mul_add, Nat.mul_one]
              omega

/-- Greedy terminates: some fuel returns a result. -/
theorem runGreedy_terminates (sq : ℚ → ℚ) (p : Problem) :
    ∃ fuel, (runGreedy sq p fuel).isSome = true := by
  refine ⟨greedyMeasure p
    { pq := pqEnqueue [] (getStartId p)
        (manhattanDistance sq (getStartId p) (getGoalId p) p),
      visited := [], parentMap := NMap.empty,
      hValues := NMap.empty.set (getStartId p)
        (manhattanDistance sq (getStartId p) (getGoalId p) p),
      gValues := NMap.empty.set (getStartId p) 0,
      steps := [createStep 0 (getStartId p) [getStartId p] [] NMap.empty
        (NMap.empty.set (getStartId p) 0)
        (NMap.empty.set (getStartId p)
          (manhattanDistance sq (getStartId p) (getGoalId p) p))
        (NMap.empty.set (getStartId p)
          (manhattanDistance sq (getStartId p) (getGoalId p) p)) false false],
      stepNumber := 1 } + 1, ?_⟩
  rw [runGreedy]
  refine iterate_terminates (greedyMeasure p) (greedyStep_term sq p (getGoalId p)) _
    ⟨List.nodup_nil, ?_, ?_⟩ _ (Nat.lt_succ_self _)
  · intro x hx
    exact absurd hx (List.not_mem_nil _)
  · intro x hx
    have hx' : x = getStartId p := by
      simpa [pqToArray, pqEnqueue, List.insertionSort, List.orderedInsert] using hx
    subst hx'
    exact start_mem_allIds p

/-- The termination invariant of A*. -/
def AStarTermInv (p : Problem) (s : AStarSt) : Prop :=
  s.visited.Nodup ∧ (∀ x ∈ s.visited, x ∈ allIds p) ∧
    (∀ x ∈ pqToArray s.pq, x ∈ allIds p) ∧
    (∀ x, (s.gValues x).isSome = true → x ∈ s.visited ∨ x ∈ pqToArray s.pq)

/-- The A* loop measure. -/
def astarMeasure (p : Problem) (s : AStarSt) : ℕ :=
  (1 + degBound p) * ((allIds p).dedup.length - s.visited.length) + s.pq.length

theorem astarStep_term (sq : ℚ → ℚ) (p : Problem) (goalId : String) :
    ∀ s : AStarSt, AStarTermInv p s →
      (∃ s', astarStep sq p goalId s = some (.inl s') ∧ AStarTermInv p s' ∧
        astarMeasure p s' < astarMeasure p s) ∨
      (∃ r, astarStep sq p goalId s = some (.inr r)) := by
  intro s hinv
  obtain ⟨hnd, hvsub, hqsub, hgdef⟩ := hinv
  cases hstep : astarStep sq p goalId s with
  | none =>
    exfalso
    rw [astarStep] at hstep
    exact Option.noConfusion hstep
  | some v =>
    cases v with
    | inr r => exact Or.inr ⟨r, rfl⟩
    | inl s' =>
      refine Or.inl ⟨s', rfl, ?_⟩
      rw [astarStep] at hstep
      simp only [Option.some.injEq] at hstep
      split at hstep
      · exact absurd hstep (by simp)
      next current prio rest heq =>
        have hql : s.pq.length = rest.length + 1 := by
          rw [heq]
          rfl
        have hcurU : current ∈ allIds p := hqsub current (by
          rw [heq]
          exact List.mem_map_of_mem _ (List.mem_cons_self _ _))
        have hqsubrest : ∀ x ∈ pqToArray rest, x ∈ allIds p := by
          intro x hx
          exact hqsub x (by rw [heq, pqToArray]; exact List.mem_cons_of_mem _ hx)
        have hmemq : ∀ y ∈ pqToArray s.pq, y ∈ pqToArray rest ∨ y = current := by
          intro y hy
          rw [heq, pqToArray, List.map_cons] at hy
          rcases List.mem_cons.mp hy with rfl | hy
          · exact Or.inr rfl
          · exact Or.inl hy
        split at hstep
        next hcurV =>
          cases hstep
          refine ⟨⟨hnd, hvsub, hqsubrest, ?_⟩, ?_⟩
          · intro x hx
            rcases hgdef x hx with hx' | hx'
            · exact Or.inl hx'
            · rcases hmemq x hx' with hx' | rfl
              · exact Or.inr hx'
              · exact Or.inl hcurV
          · simp only [astarMeasure]
            omega
        next hcurV =>
          split at hstep
          · exact absurd hstep (by simp)
          next hgoal =>
            cases hstep
            have hgdef0 : ∀ x, (s.gValues x).isSome = true →
                x ∈ addSet s.visited current ∨ x ∈ pqToArray rest := by
              intro x hx
              rcases hgdef x hx with hx' | hx'
              · exact Or.inl ((addSet_mem _ _ _).mpr (Or.inl hx'))
              · rcases hmemq x hx' with hx' | rfl
                · exact Or.inr hx'
                · exact Or.inl ((addSet_mem _ _ _).mpr (Or.inr rfl))
            obtain ⟨_, _, hsrc, hg⟩ := astarRelax_queue sq p goalId current
              ((s.gValues current).getD 0) (addSet s.visited current)
              (getNeighbors p current) rest s.parentMap s.gValues s.hValues
              s.fValues hgdef0
            have hvsub' : ∀ x ∈ addSet s.visited current, x ∈ allIds p := by
              intro x hx
              rcases (addSet_mem _ _ _).mp hx with hx' | rfl
              · exact hvsub x hx'
              · exact hcurU
            refine ⟨⟨addSet_nodup _ _ hnd, hvsub', ?_, ?_⟩, ?_⟩
            · intro x hx
              rcases hsrc x hx with hx' | ⟨c, hc⟩
              · exact hqsubrest x hx'
              · exact nbr_mem_allIds p current x c hc
            · exact hg
            · have hlenv : (addSet s.visited current).length = s.visited.length + 1 :=
                addSet_length_lt _ _ hcurV
              have hle : (addSet s.visited current).length ≤ (allIds p).dedup.length :=
                nodup_subset_length _ _ (addSet_nodup _ _ hnd) hvsub'
              have hqlen := astarRelax_length sq p goalId current
                ((s.gValues current).getD 0) (addSet s.visited current)
                (getNeighbors p current) rest s.parentMap s.gValues s.hValues
                s.fValues
              have hdeg := getNeighbors_length_le p current
              simp only [astarMeasure]
              rw [hlenv]
              have harith : (1 + degBound p) *
                  ((allIds p).dedup.length - s.visited.length) =
                  (1 + degBound p) *
                    ((allIds p).dedup.length - (s.visited.length + 1)) +
                    (1 + degBound p) := by
                have h1 : (allIds p).dedup.length - s.visited.length =
                    ((allIds p).dedup.length - (s.visited.length + 1)) + 1 := by
                  omega
                rw [h1, Nat.mul_add, Nat.mul_one]
              omega

/-- A* terminates: some fuel returns a result. -/
theorem runAStar_terminates (sq : ℚ → ℚ) (p : Problem) :
    ∃ fuel, (runAStar sq p fuel).isSome = true := by
  refine ⟨astarMeasure p
    { pq := pqEnqueue [] (getStartId p)
        (manhattanDistance sq (getStartId p) (getGoalId p) p),
      visited := [], parentMap := NMap.empty,
      gValues := NMap.empty.set (getStartId p) 0,
      hValues := NMap.empty.set (getStartId p)
        (manhattanDistance sq (getStartId p) (getGoalId p) p),
      fValues := NMap.empty.set (getStartId p)
        (manhattanDistance sq (getStartId p) (getGoalId p) p),
      steps := [createStep 0 (getStartId p) [getStartId p] [] NMap.empty
        (NMap.empty.set (getStartId p) 0)
        (NMap.empty.set (getStartId p)
          (manhattanDistance sq (getStartId p) (getGoalId p) p))
        (NMap.empty.set (getStartId p)
          (manhattanDistance sq (getStartId p) (getGoalId p) p)) false false],
      stepNumber := 1 } + 1, ?_⟩
  rw [runAStar]
  refine iterate_terminates (astarMeasure p) (astarStep_term sq p (getGoalId p)) _
    ⟨List.nodup_nil, ?_, ?_, ?_⟩ _ (Nat.lt_succ_self _)
  · intro x hx
    exact absurd hx (List.not_mem_nil _)
  · intro x hx
    have hx' : x = getStartId p := by
      simpa [pqToArray, pqEnqueue, List.insertionSort, List.orderedInsert] using hx
    subst hx'
    exact start_mem_allIds p
  · intro x hx
    by_cases hxs : x = getStartId p
    · exact Or.inr (by
        simp [pqToArray, pqEnqueue, List.insertionSort, List.orderedInsert, hxs])
    · exfalso
      simp [NMap.set, NMap.empty, hxs] at hx

/-- The termination invariant of hill climbing. -/
def HillTermInv (p : Problem) (s : HillSt) : Prop :=
  s.visited.Nodup ∧ (∀ x ∈ s.visited, x ∈ allIds p)

/-- The hill-climbing loop measure. -/
def hillMeasure (p : Problem) (s : HillSt) : ℕ :=
  (allIds p).dedup.length - s.visited.length

theorem hillStep_term (sq : ℚ → ℚ) (p : Problem) (goalId : String) :
    ∀ s : HillSt, HillTermInv p s →
      (∃ s', hillStep sq p goalId s = some (.inl s') ∧ HillTermInv p s' ∧
        hillMeasure p s' < hillMeasure p s) ∨
      (∃ r, hillStep sq p goalId s = some (.inr r)) := by
  intro s hinv
  obtain ⟨hnd, hvsub⟩ := hinv
  cases hstep : hillStep sq p goalId s with
  | none =>
    exfalso
    rw [hillStep] at hstep
    exact Option.noConfusion hstep
  | some v =>
    cases v with
    | inr r => exact Or.inr ⟨r, rfl⟩
    | inl s' =>
      refine Or.inl ⟨s', rfl, ?_⟩
      rw [hillStep] at hstep
      simp only [Option.some.injEq] at hstep
      split at hstep
      · exact absurd hstep (by simp)
      · split at hstep
        · exact absurd hstep (by simp)
        next bestNeighbor heqb =>
          split at hstep
          · exact absurd hstep (by simp)
          cases hstep
          obtain ⟨hbV, c, hmem⟩ := hillScan_best sq p goalId s.current
            ((s.gValues s.current).getD 0) s.visited (getNeighbors p s.current)
            (fun e he => he) s.hValues s.gValues none ((s.hValues s.current).getD 0)
            (fun b hb => absurd hb (by simp)) bestNeighbor heqb
          have hbU : bestNeighbor ∈ allIds p := nbr_mem_allIds p s.current _ c hmem
          have hvsub' : ∀ x ∈ addSet s.visited bestNeighbor, x ∈ allIds p := by
            intro x hx
            rcases (addSet_mem _ _ _).mp hx with hx' | rfl
            · exact hvsub x hx'
            · exact hbU
          refine ⟨⟨addSet_nodup _ _ hnd, hvsub'⟩, ?_⟩
          have hlenv : (addSet s.visited bestNeighbor).length = s.visited.length + 1 :=
            addSet_length_lt _ _ hbV
          have hle : (addSet s.visited bestNeighbor).length ≤ (allIds p).dedup.length :=
            nodup_subset_length _ _ (addSet_nodup _ _ hnd) hvsub'
          simp only [hillMeasure]
          omega

/-- Hill climbing terminates: some fuel returns a result. -/
theorem runHillClimbing_terminates (sq : ℚ → ℚ) (p : Problem) :
    ∃ fuel, (runHillClimbing sq p fuel).isSome = true := by
  refine ⟨hillMeasure p
    { current := getStartId p, visited := [getStartId p], parentMap := NMap.empty,
      hValues := NMap.empty.set (getStartId p)
        (manhattanDistance sq (getStartId p) (getGoalId p) p),
      gValues := NMap.empty.set (getStartId p) 0,
      steps := [createStep 0 (getStartId p) [] [getStartId p] NMap.empty
        (NMap.empty.set (getStartId p) 0)
        (NMap.empty.set (getStartId p)
          (manhattanDistance sq (getStartId p) (getGoalId p) p))
        (NMap.empty.set (getStartId p)
          (manhattanDistance sq (getStartId p) (getGoalId p) p)) false false],
      stepNumber := 1 } + 1, ?_⟩
  rw [runHillClimbing]
  refine iterate_terminates (hillMeasure p) (hillStep_term sq p (getGoalId p)) _
    ⟨List.nodup_singleton _, ?_⟩ _ (Nat.lt_succ_self _)
  intro x hx
  rcases List.mem_singleton.mp hx with rfl
  exact start_mem_allIds p

/-- New candidates gathered by one beam member are unvisited universe
members. -/
theorem beamGather_new (sq : ℚ → ℚ) (p : Problem) (goalId current : String)
    (V : List String) :
    ∀ (l : List (String × ℚ)), (∀ e ∈ l, e ∈ getNeighbors p current) →
    ∀ (cands : List BeamCand) (hv gv : NMap ℚ),
      (∀ c ∈ cands, c.1 ∉ V ∧ c.1 ∈ allIds p) →
      ∀ c ∈ (beamGather sq p goalId current V l cands hv gv).1,
        c.1 ∉ V ∧ c.1 ∈ allIds p := by
  intro l
  induction l with
  | nil =>
    intro _ cands hv gv hc
    exact hc
  | cons e rest ih =>
    intro hl cands hv gv hc
    obtain ⟨id, cost⟩ := e
    have hmem : (id, cost) ∈ getNeighbors p current := hl _ (List.mem_cons_self _ _)
    have hrest : ∀ e ∈ rest, e ∈ getNeighbors p current :=
      fun e he => hl e (List.mem_cons_of_mem _ he)
    rw [beamGather]
    by_cases hidV : id ∈ V
    · rw [if_neg (by simpa using hidV)]
      exact ih hrest cands hv gv hc
    · rw [if_pos (by simpa using hidV)]
      refine ih hrest _ _ _ ?_
      intro c hcmem
      rcases List.mem_append.mp hcmem with hcmem | hcmem
      · exact hc c hcmem
      · rcases List.mem_singleton.mp hcmem with rfl
        exact ⟨hidV, nbr_mem_allIds p current id cost hmem⟩

/-- The candidates of a `.inl` scan are unvisited universe members. -/
theorem beamScan_new (sq : ℚ → ℚ) (p : Problem) (goalId : String)
    (V : List String) :
    ∀ (beam : List String) (cands : List BeamCand) (hv gv : NMap ℚ)
      (out : List BeamCand × NMap ℚ × NMap ℚ),
      (∀ c ∈ cands, c.1 ∉ V ∧ c.1 ∈ allIds p) →
      beamScan sq p goalId V beam cands hv gv = .inl out →
      ∀ c ∈ out.1, c.1 ∉ V ∧ c.1 ∈ allIds p := by
  intro beam
  induction beam with
  | nil =>
    intro cands hv gv out hc h
    rcases Sum.inl.inj h with rfl
    exact hc
  | cons current rest ih =>
    intro cands hv gv out hc h
    rw [beamScan] at h
    by_cases hgoal : current = goalId
    · rw [if_pos hgoal] at h
      exact absurd h (by simp)
    · rw [if_neg hgoal] at h
      exact ih _ _ _ out
        (beamGather_new sq p goalId current V (getNeighbors p current)
          (fun e he => he) cands hv gv hc) h

/-- The pruning fold keeps the visited list duplicate-free inside the
universe and never shrinks it. -/
theorem beamFold_term (p : Problem) :
    ∀ (chosen : List BeamCand) (W : List String) (P : NMap String),
      W.Nodup → (∀ x ∈ W, x ∈ allIds p) → (∀ c ∈ chosen, c.1 ∈ allIds p) →
      (chosen.foldl (fun acc c => (addSet acc.1 c.1, acc.2.set c.1 c.2.2))
          (W, P)).1.Nodup ∧
        (∀ x ∈ (chosen.foldl (fun acc c => (addSet acc.1 c.1, acc.2.set c.1 c.2.2))
          (W, P)).1, x ∈ allIds p) ∧
        W.length ≤ (chosen.foldl (fun acc c => (addSet acc.1 c.1, acc.2.set c.1 c.2.2))
          (W, P)).1.length := by
  intro chosen
  induction chosen with
  | nil =>
    intro W P hnd hsub _
    exact ⟨hnd, hsub, Nat.le_refl _⟩
  | cons c rest ih =>
    intro W P hnd hsub hch
    rw [List.foldl_cons]
    have hcU : c.1 ∈ allIds p := (hch c (List.mem_cons_self _ _))
    have hsub' : ∀ x ∈ addSet W c.1, x ∈ allIds p := by
      intro x hx
      rcases (addSet_mem _ _ _).mp hx with hx' | rfl
      · exact hsub x hx'
      · exact hcU
    obtain ⟨h1, h2, h3⟩ := ih (addSet W c.1) (P.set c.1 c.2.2)
      (addSet_nodup _ _ hnd) hsub' (fun c' hc' => hch c' (List.mem_cons_of_mem _ hc'))
    exact ⟨h1, h2, Nat.le_trans (addSet_length_le _ _) h3⟩

/-- The termination invariant of beam search. -/
def BeamTermInv (p : Problem) (s : BeamSt) : Prop :=
  s.visited.Nodup ∧ (∀ x ∈ s.visited, x ∈ allIds p)

/-- The beam loop measure: the beam-emptiness flag covers the
zero-width pruning round. -/
def beamMeasure (p : Problem) (s : BeamSt) : ℕ :=
  2 * ((allIds p).dedup.length - s.visited.length) +
    (if s.beam = [] then 0 else 1)

theorem beamStep_term (sq : ℚ → ℚ) (p : Problem) (goalId startId : String)
    (beamWidth : ℕ) :
    ∀ s : BeamSt, BeamTermInv p s →
      (∃ s', beamStep sq p goalId startId beamWidth s = some (.inl s') ∧
        BeamTermInv p s' ∧ beamMeasure p s' < beamMeasure p s) ∨
      (∃ r, beamStep sq p goalId startId beamWidth s = some (.inr r)) := by
  intro s hinv
  obtain ⟨hnd, hvsub⟩ := hinv
  cases hstep : beamStep sq p goalId startId beamWidth s with
  | none =>
    exfalso
    rw [beamStep] at hstep
    exact Option.noConfusion hstep
  | some v =>
    cases v with
    | inr r => exact Or.inr ⟨r, rfl⟩
    | inl s' =>
      refine Or.inl ⟨s', rfl, ?_⟩
      rw [beamStep] at hstep
      simp only [Option.some.injEq] at hstep
      split at hstep
      · exact absurd hstep (by simp)
      next b0 brest =>
        split at hstep
        · exact absurd hstep (by simp)
        next cands hv' gv' heqscan =>
          split at hstep
          · exact absurd hstep (by simp)
          next hcempty =>
            cases hstep
            have hcnew : ∀ c ∈ cands, c.1 ∉ s.visited ∧ c.1 ∈ allIds p :=
              beamScan_new sq p goalId s.visited s.beam [] s.hValues s.gValues
                (cands, hv', gv') (fun c hc => absurd hc (List.not_mem_nil _)) heqscan
            have hchosen : ∀ c ∈ (List.insertionSort candLE cands).take beamWidth,
                c.1 ∉ s.visited ∧ c.1 ∈ allIds p := by
              intro c hc
              exact hcnew c ((List.perm_insertionSort candLE cands).mem_iff.mp
                (List.take_subset _ _ hc))
            obtain ⟨h1, h2, h3⟩ := beamFold_term p
              ((List.insertionSort candLE cands).take beamWidth) s.visited s.parentMap
              hnd hvsub (fun c hc => (hchosen c hc).2)
            refine ⟨⟨h1, h2⟩, ?_⟩
            simp only [beamMeasure]
            have hsflag : (if s.beam = [] then 0 else 1) = 1 := by
              rw [if_neg (by rw [brest]; exact List.cons_ne_nil _ _)]
            rw [hsflag]
            have hle : ((List.insertionSort candLE cands).take beamWidth |>.foldl
                (fun acc c => (addSet acc.1 c.1, acc.2.set c.1 c.2.2))
                (s.visited, s.parentMap)).1.length ≤ (allIds p).dedup.length :=
              nodup_subset_length _ _ h1 h2
            rcases Nat.eq_zero_or_pos beamWidth with hw | hwpos
            · subst hw
              have htake : List.take 0 (List.insertionSort candLE cands) = [] :=
                List.take_zero _
              rw [htake] at h3 hle ⊢
              simp only [List.foldl_nil, List.map_nil] at h3 hle ⊢
              simp
            · obtain ⟨w, rfl⟩ :=
                Nat.exists_eq_succ_of_ne_zero (Nat.pos_iff_ne_zero.mp hwpos)
              simp only [Nat.succ_eq_add_one] at hchosen h1 h2 h3 hle ⊢
              have hcne : cands ≠ [] := by
                intro hcon
                rw [hcon] at hcempty
                exact hcempty rfl
              cases hsort : List.insertionSort candLE cands with
              | nil =>
                exfalso
                apply hcne
                have hlen := (List.perm_insertionSort candLE cands).length_eq
                rw [hsort] at hlen
                exact List.eq_nil_of_length_eq_zero hlen.symm
              | cons c0 ctail =>
                have hc0 : c0 ∈ (List.insertionSort candLE cands).take (w + 1) := by
                  rw [hsort, List.take_succ_cons]
                  exact List.mem_cons_self _ _
                have hc0V : c0.1 ∉ s.visited := (hchosen c0 hc0).1
                have hgrow : s.visited.length <
                    ((List.insertionSort candLE cands).take (w + 1) |>.foldl
                      (fun acc c => (addSet acc.1 c.1, acc.2.set c.1 c.2.2))
                      (s.visited, s.parentMap)).1.length := by
                  rw [hsort, List.take_succ_cons, List.foldl_cons]
                  rw [show (addSet (s.visited, s.parentMap).1 c0.1,
                      (s.visited, s.parentMap).2.set c0.1 c0.2.2) =
                      (addSet s.visited c0.1, s.parentMap.set c0.1 c0.2.2) from rfl]
                  have haddlen : (addSet s.visited c0.1).length =
                      s.visited.length + 1 := addSet_length_lt _ _ hc0V
                  have hmono := (beamFold_term p (ctail.take w)
                    (addSet s.visited c0.1) (s.parentMap.set c0.1 c0.2.2)
                    (addSet_nodup _ _ hnd)
                    (by
                      intro x hx
                      rcases (addSet_mem _ _ _).mp hx with hx' | rfl
                      · exact hvsub x hx'
                      · exact (hchosen c0 hc0).2)
                    (by
                      intro c' hc'
                      refine (hchosen c' ?_).2
                      rw [hsort, List.take_succ_cons]
                      exact List.mem_cons_of_mem _ hc')).2.2
                  omega
                have hflag : (if ((List.insertionSort candLE cands).take (w + 1)).map
                    (fun c => c.1) = [] then 0 else 1) ≤ 1 := by
                  split <;> omega
                rw [hsort] at hgrow hflag hle
                omega

/-- Beam search terminates: some fuel returns a result. -/
theorem runBeamSearch_terminates (sq : ℚ → ℚ) (p : Problem) (beamWidth : ℕ) :
    ∃ fuel, (runBeamSearch sq p beamWidth fuel).isSome = true := by
  refine ⟨beamMeasure p
    { beam := [getStartId p], visited := [getStartId p], parentMap := NMap.empty,
      hValues := NMap.empty.set (getStartId p)
        (manhattanDistance sq (getStartId p) (getGoalId p) p),
      gValues := NMap.empty.set (getStartId p) 0,
      steps := [createStep 0 (getStartId p) [getStartId p] [getStartId p] NMap.empty
        (NMap.empty.set (getStartId p) 0)
        (NMap.empty.set (getStartId p)
          (manhattanDistance sq (getStartId p) (getGoalId p) p))
        (NMap.empty.set (getStartId p)
          (manhattanDistance sq (getStartId p) (getGoalId p) p)) false false],
      stepNumber := 1 } + 1, ?_⟩
  rw [runBeamSearch]
  refine iterate_terminates (beamMeasure p)
    (beamStep_term sq p (getGoalId p) (getStartId p) beamWidth) _
    ⟨List.nodup_singleton _, ?_⟩ _ (Nat.lt_succ_self _)
  intro x hx
  rcases List.mem_singleton.mp hx with rfl
  exact start_mem_allIds p

/-- Fuel sufficient for one IDA* `search` activation with the given slack
(number of universe nodes not yet on the current path), for a problem whose
resolver answers have at most `D` entries. -/
def idaFuel (D : ℕ) : ℕ → ℕ
  | 0 => D + 2
  | s + 1 => D + 2 + idaFuel D s

theorem idaFuel_unfold (D s : ℕ) :
    idaFuel D s = D + 2 +
      (match s with
       | 0 => 0
       | s' + 1 => idaFuel D s') := by
  cases s <;> rfl

theorem idaFuel_mono (D : ℕ) : ∀ {s s' : ℕ}, s ≤ s' → idaFuel D s ≤ idaFuel D s' := by
  intro s s' h
  induction s' with
  | zero =>
    rw [Nat.le_zero.mp h]
  | succ n ih =>
    rcases Nat.lt_or_ge s (n + 1) with h' | h'
    · have := ih (by omega)
      rw [idaFuel]
      cases n with
      | zero =>
        rw [Nat.le_zero.mp (by omega : s ≤ 0)]
        rw [idaFuel]
        omega
      | succ m =>
        omega
    · have hs : s = n + 1 := by omega
      rw [hs]

/-- Fuel needed by a pending IDA* activation. -/
def idaNeed (D N : ℕ) : IdaCall → ℕ
  | .search st _ => idaFuel D (N - st.path.length)
  | .nbrs st _ _ rest _ => rest.length + 1 +
      (idaFuel D (N - st.path.length) - (D + 2))

/-- With enough fuel for its activation, the IDA* recursion completes. -/
theorem idaGo_sufficient (sq : ℚ → ℚ) (p : Problem) (goalId : String) (bound : ℚ)
    (startId : String) :
    ∀ (fuel : ℕ) (call : IdaCall), IdaCallOk p startId call →
      (∀ z ∈ call.curPath, z ∈ allIds p) →
      idaNeed (degBound p) ((allIds p).dedup.length) call ≤ fuel →
      (idaGo sq p goalId bound fuel call).isSome = true := by
  intro fuel
  induction fuel with
  | zero =>
    intro call hok hsub hneed
    exfalso
    cases call with
    | search st g =>
      have := idaFuel_unfold (degBound p)
        ((allIds p).dedup.length - st.path.length)
      simp only [idaNeed] at hneed
      omega
    | nbrs st g node rest mn =>
      simp only [idaNeed] at hneed
      omega
  | succ fuel ih =>
    intro call hok hsub hneed
    cases call with
    | search st g =>
      have hpp : IdaPathProp p startId st.path := hok
      have hnil : st.path ≠ [] := by
        intro hcon
        rw [hcon] at hpp
        exact absurd hpp.1 (by simp)
      have hlastD : st.path.getLast? = some (st.path.getLastD "") :=
        getLast?_eq_getLastD st.path hnil
      rw [idaGo]
      split
      · rfl
      · split
        · rfl
        · refine ih _ ⟨hpp, hlastD, fun e he => he⟩ hsub ?_
          simp only [idaNeed] at hneed ⊢
          have hunfold := idaFuel_unfold (degBound p)
            ((allIds p).dedup.length - st.path.length)
          have hdeg := getNeighbors_length_le p (st.path.getLastD "")
          omega
    | nbrs st g node l mn =>
      obtain ⟨hpp, hlast, hnbrs⟩ := hok
      cases l with
      | nil =>
        rw [idaGo]
        rfl
      | cons e rest =>
        obtain ⟨id, cost⟩ := e
        rw [idaGo]
        split
        next hidpath =>
          refine ih _ ⟨hpp, hlast, fun e he => hnbrs e (List.mem_cons_of_mem _ he)⟩
            hsub ?_
          simp only [idaNeed, List.length_cons] at hneed ⊢
          omega
        next hidpath =>
          have hmem : (id, cost) ∈ getNeighbors p node :=
            hnbrs _ (List.mem_cons_self _ _)
          have hidU : id ∈ allIds p := nbr_mem_allIds p node id cost hmem
          have hpp' : IdaPathProp p startId (st.path ++ [id]) :=
            ⟨head?_append_singleton _ _ _ hpp.1,
              nodup_append_singleton _ _ hpp.2.1 hidpath,
              chain'_append_singleton _ _ _ hpp.2.2 hlast ⟨cost, hmem⟩⟩
          have hsub' : ∀ z ∈ st.path ++ [id], z ∈ allIds p := by
            intro z hz
            rcases List.mem_append.mp hz with hz | hz
            · exact hsub z hz
            · rcases List.mem_singleton.mp hz with rfl
              exact hidU
          have hslack : (allIds p).dedup.length - st.path.length ≠ 0 := by
            intro hcon
            have hfull := nodup_subset_full st.path (allIds p) hpp.2.1 hsub
              (by
                have := nodup_subset_length st.path (allIds p) hpp.2.1 hsub
                omega)
            exact hidpath (hfull id hidU)
          obtain ⟨sl, hsl⟩ := Nat.exists_eq_succ_of_ne_zero hslack
          have hlenp : (st.path ++ [id]).length = st.path.length + 1 := by
            rw [List.length_append]
            rfl
          have hsl' : (allIds p).dedup.length - (st.path ++ [id]).length = sl := by
            omega
          have hsearch := ih (.search
            { st with path := st.path ++ [id],
                      parentMap := st.parentMap.set id node } (g + cost))
            hpp' hsub' (by
              simp only [idaNeed, List.length_cons] at hneed ⊢
              rw [hsl']
              rw [hsl] at hneed
              simp only [idaFuel] at hneed
              omega)
          obtain ⟨⟨ret1, st''⟩, hres⟩ := Option.isSome_iff_exists.mp hsearch
          simp only []
          cases ret1 with
          | found pth c =>
            rw [hres]
            rfl
          | cut t =>
            rw [hres]
            have hpath'' : st''.path = st.path ++ [id] :=
              (idaGo_path sq p goalId bound startId fuel (.search
                { st with path := st.path ++ [id],
                          parentMap := st.parentMap.set id node } (g + cost))
                hpp' (.cut t) st'' hres).2 t rfl
            have hdrop : st''.path.dropLast = st.path := by
              rw [hpath'']
              exact List.dropLast_concat
            simp only []
            refine ih _ ⟨?_, ?_, fun e he => hnbrs e (List.mem_cons_of_mem _ he)⟩
              ?_ ?_
            · show IdaPathProp p startId st''.path.dropLast
              rw [hdrop]
              exact hpp
            · show st''.path.dropLast.getLast? = some node
              rw [hdrop]
              exact hlast
            · intro z hz
              rw [show IdaCall.curPath (.nbrs
                { st'' with path := st''.path.dropLast } g node rest
                (if ltInf t mn then t else mn)) = st''.path.dropLast from rfl] at hz
              rw [hdrop] at hz
              exact hsub z hz
            · simp only [idaNeed, List.length_cons] at hneed ⊢
              rw [hdrop]
              omega

/-- All duplicate-free node sequences over the universe of ids: every simple
path of the problem occurs in this list. -/
def simplePaths (p : Problem) : List (List String) :=
  (allIds p).dedup.sublists.flatMap List.permutations

theorem mem_simplePaths (p : Problem) (pth : List String) (hnd : pth.Nodup)
    (hsub : ∀ z ∈ pth, z ∈ allIds p) : pth ∈ simplePaths p := by
  refine List.mem_flatMap.mpr
    ⟨(allIds p).dedup.filter (fun x => decide (x ∈ pth)), ?_, ?_⟩
  · exact List.mem_sublists.mpr (List.filter_sublist _)
  · refine List.mem_permutations.mpr ?_
    refine List.perm_of_nodup_nodup_toFinset_eq hnd
      ((List.filter_sublist _).nodup (List.nodup_dedup _)) ?_
    ext x
    simp only [List.mem_toFinset, List.mem_filter, List.mem_dedup, decide_eq_true_eq]
    constructor
    · intro hx
      exact ⟨hsub x hx, hx⟩
    · intro hx
      exact hx.2

/-- All possible resolver cost sums along a fixed node sequence. -/
def chainSums (p : Problem) : List String → List ℚ
  | [] => [0]
  | [_] => [0]
  | a :: b :: t => ((getNeighbors p a).filter (fun e => decide (e.1 = b))).flatMap
      (fun e => (chainSums p (b :: t)).map (fun s => e.2 + s))

theorem chainSums_extend (p : Problem) :
    ∀ (pth : List String) (node id : String) (cost g : ℚ),
      pth.getLast? = some node → g ∈ chainSums p pth →
      (id, cost) ∈ getNeighbors p node →
      g + cost ∈ chainSums p (pth ++ [id]) := by
  intro pth
  induction pth with
  | nil =>
    intro node id cost g hlast _ _
    exact absurd hlast (by simp)
  | cons a rest ih =>
    intro node id cost g hlast hg hmem
    cases rest with
    | nil =>
      have ha : a = node := by
        simpa using hlast
      subst ha
      simp only [chainSums, List.mem_singleton] at hg
      show g + cost ∈ chainSums p [a, id]
      simp only [chainSums]
      rw [show g + cost = cost + 0 from by rw [hg]; ring]
      refine List.mem_flatMap.mpr ⟨(id, cost), ?_, ?_⟩
      · exact List.mem_filter.mpr ⟨hmem, by simp⟩
      · exact List.mem_map.mpr ⟨0, List.mem_singleton.mpr rfl, rfl⟩
    | cons b t =>
      rw [List.getLast?_cons_cons] at hlast
      simp only [chainSums] at hg
      obtain ⟨e, hef, hemap⟩ := List.mem_flatMap.mp hg
      obtain ⟨s, hs, hseq⟩ := List.mem_map.mp hemap
      have hrec := ih node id cost s hlast hs hmem
      show g + cost ∈ chainSums p (a :: b :: (t ++ [id]))
      simp only [chainSums]
      refine List.mem_flatMap.mpr ⟨e, hef, ?_⟩
      refine List.mem_map.mpr ⟨s + cost, ?_, ?_⟩
      · rw [List.cons_append] at hrec
        exact hrec
      · rw [← hseq]
        ring

theorem zero_mem_chainSums_single (p : Problem) (a : String) :
    (0 : ℚ) ∈ chainSums p [a] := by
  simp [chainSums]

/-- The finite list of every f-value the IDA* recursion can cut at: a cost
sum along a simple path plus the heuristic of the path's last node. -/
def allF (sq : ℚ → ℚ) (p : Problem) (goalId : String) : List ℚ :=
  (simplePaths p).flatMap (fun pth => (chainSums p pth).map
    (fun g => g + manhattanDistance sq (pth.getLastD "") goalId p))

/-- Bookkeeping for the cut-value analysis: the running g is a cost sum along
the current path, and any accumulated neighbor-loop minimum already lies in
`allF` strictly above the bound. -/
def IdaCutOk (sq : ℚ → ℚ) (p : Problem) (goalId : String) (bound : ℚ) :
    IdaCall → Prop
  | .search st g => g ∈ chainSums p st.path
  | .nbrs st g _ _ mn => g ∈ chainSums p st.path ∧
      ∀ t', mn = some t' → t' ∈ allF sq p goalId ∧ bound < t'

/-- Any finite cut value returned by the IDA* recursion lies in `allF` and
strictly exceeds the current bound. -/
theorem idaGo_cut (sq : ℚ → ℚ) (p : Problem) (goalId : String) (bound : ℚ)
    (startId : String) :
    ∀ (fuel : ℕ) (call : IdaCall), IdaCallOk p startId call →
      (∀ z ∈ call.curPath, z ∈ allIds p) →
      IdaCutOk sq p goalId bound call →
      ∀ (st' : IdaSt) (t' : ℚ),
        idaGo sq p goalId bound fuel call = some (.cut (some t'), st') →
        t' ∈ allF sq p goalId ∧ bound < t' := by
  intro fuel
  induction fuel with
  | zero =>
    intro call _ _ _ st' t' h
    rw [idaGo] at h
    exact absurd h (by simp)
  | succ fuel ih =>
    intro call hok hsub hcut st' t' h
    cases call with
    | search st g =>
      have hpp : IdaPathProp p startId st.path := hok
      have hg : g ∈ chainSums p st.path := hcut
      have hnil : st.path ≠ [] := by
        intro hcon
        rw [hcon] at hpp
        exact absurd hpp.1 (by simp)
      have hlastD : st.path.getLast? = some (st.path.getLastD "") :=
        getLast?_eq_getLastD st.path hnil
      rw [idaGo] at h
      simp only [Option.some.injEq, Prod.mk.injEq] at h
      split at h
      next hcond =>
        obtain ⟨rfl, rfl⟩ := h
        refine ⟨List.mem_flatMap.mpr ⟨st.path,
          mem_simplePaths p st.path hpp.2.1 hsub,
          List.mem_map.mpr ⟨g, hg, rfl⟩⟩, hcond⟩
      · split at h
        · exact absurd h (by simp)
        · refine ih _ ?_ ?_ ?_ st' t' h
          · exact ⟨hpp, hlastD, fun e he => he⟩
          · exact hsub
          · exact ⟨hg, fun u hu => absurd hu (by simp)⟩
    | nbrs st g node l mn =>
      obtain ⟨hpp, hlast, hnbrs⟩ := hok
      obtain ⟨hg, hmin⟩ := hcut
      cases l with
      | nil =>
        rw [idaGo] at h
        simp only [Option.some.injEq, Prod.mk.injEq] at h
        obtain ⟨h1, rfl⟩ := h
        exact hmin t' (IdaRet.cut.inj h1)
      | cons e rest =>
        obtain ⟨id, cost⟩ := e
        rw [idaGo] at h
        split at h
        next hidpath =>
          exact ih (.nbrs st g node rest mn)
            ⟨hpp, hlast, fun e he => hnbrs e (List.mem_cons_of_mem _ he)⟩
            hsub ⟨hg, hmin⟩ st' t' h
        next hidpath =>
          have hmem : (id, cost) ∈ getNeighbors p node :=
            hnbrs _ (List.mem_cons_self _ _)
          have hidU : id ∈ allIds p := nbr_mem_allIds p node id cost hmem
          have hpp' : IdaPathProp p startId (st.path ++ [id]) :=
            ⟨head?_append_singleton _ _ _ hpp.1,
              nodup_append_singleton _ _ hpp.2.1 hidpath,
              chain'_append_singleton _ _ _ hpp.2.2 hlast ⟨cost, hmem⟩⟩
          have hsub' : ∀ z ∈ st.path ++ [id], z ∈ allIds p := by
            intro z hz
            rcases List.mem_append.mp hz with hz | hz
            · exact hsub z hz
            · rcases List.mem_singleton.mp hz with rfl
              exact hidU
          have hgext : g + cost ∈ chainSums p (st.path ++ [id]) :=
            chainSums_extend p st.path node id cost g hlast hg hmem
          simp only [] at h
          split at h
          · exact absurd h (by simp)
          next pth c st'' heqsearch =>
            exact absurd h (by simp)
          next t2 st'' heqsearch =>
            have hpath'' : st''.path = st.path ++ [id] :=
              (idaGo_path sq p goalId bound startId fuel
                (.search { st with path := st.path ++ [id],
                                   parentMap := st.parentMap.set id node } (g + cost))
                hpp' (.cut t2) st'' heqsearch).2 t2 rfl
            have hdrop : st''.path.dropLast = st.path := by
              rw [hpath'']
              exact List.dropLast_concat
            refine ih (.nbrs { st'' with path := st''.path.dropLast } g node rest
              (if ltInf t2 mn then t2 else mn))
              ⟨by rw [IdaPathProp, hdrop]; exact hpp, by rw [hdrop]; exact hlast,
                fun e he => hnbrs e (List.mem_cons_of_mem _ he)⟩
              ?_ ⟨?_, ?_⟩ st' t' h
            · intro z hz
              rw [show IdaCall.curPath (.nbrs
                { st'' with path := st''.path.dropLast } g node rest
                (if ltInf t2 mn then t2 else mn)) = st''.path.dropLast from rfl] at hz
              rw [hdrop] at hz
              exact hsub z hz
            · show g ∈ chainSums p st''.path.dropLast
              rw [hdrop]
              exact hg
            · intro u hu
              rcases Bool.eq_false_or_eq_true (ltInf t2 mn) with hb | hb
              · rw [hb, if_pos rfl] at hu
                subst hu
                exact ih (.search { st with path := st.path ++ [id],
                                            parentMap := st.parentMap.set id node }
                  (g + cost)) hpp' hsub' hgext st'' u heqsearch
              · rw [hb, if_neg (by simp)] at hu
                exact hmin u hu

theorem countP_strict {α : Type} (p2 q : α → Bool) :
    ∀ (l : List α), (∀ x ∈ l, p2 x = true → q x = true) →
      ∀ a ∈ l, q a = true → p2 a = false → l.countP p2 < l.countP q := by
  intro l
  induction l with
  | nil =>
    intro _ a ha
    exact absurd ha (List.not_mem_nil _)
  | cons b t iht =>
    intro hmono a ha hqa hpa
    rw [List.countP_cons, List.countP_cons]
    rcases List.mem_cons.mp ha with rfl | hat
    · rw [hpa, if_neg (by simp), hqa, if_pos rfl]
      have hle : t.countP p2 ≤ t.countP q :=
        List.countP_mono_left (fun x hx => hmono x (List.mem_cons_of_mem _ hx))
      omega
    · have hlt := iht (fun x hx => hmono x (List.mem_cons_of_mem _ hx)) a hat hqa hpa
      have hpb : p2 b = true → q b = true := hmono b (List.mem_cons_self _ _)
      cases hb : p2 b with
      | false =>
        rw [if_neg (by simp)]
        cases hqb : q b with
        | false =>
          rw [if_neg (by simp)]
          omega
        | true =>
          rw [if_pos rfl]
          omega
      | true =>
        rw [hpb hb, if_pos rfl]
        omega

/-- The termination invariant of the IDA* outer loop: the current path is
always restored to the single-node start path. -/
def IdaOuterTermInv (p : Problem) (os : IdaOuterSt) : Prop :=
  os.st.path = [getStartId p]

/-- The IDA* outer loop measure: how many candidate f-values still lie
strictly above the current bound. -/
def idaOuterMeasure (sq : ℚ → ℚ) (p : Problem) (os : IdaOuterSt) : ℕ :=
  (allF sq p (getGoalId p)).countP (fun b => decide (os.bound < b))

theorem idaOuterStep_term (sq : ℚ → ℚ) (p : Problem) (innerFuel : ℕ)
    (hinner : idaFuel (degBound p) ((allIds p).dedup.length) ≤ innerFuel) :
    ∀ os : IdaOuterSt, IdaOuterTermInv p os →
      (∃ os', idaOuterStep sq p (getGoalId p) (getStartId p) innerFuel os =
          some (.inl os') ∧ IdaOuterTermInv p os' ∧
          idaOuterMeasure sq p os' < idaOuterMeasure sq p os) ∨
      (∃ r, idaOuterStep sq p (getGoalId p) (getStartId p) innerFuel os =
        some (.inr r)) := by
  intro os hpath
  rw [IdaOuterTermInv] at hpath
  have hok : IdaCallOk p (getStartId p)
      (.search { os.st with visited := [] } 0) := by
    show IdaPathProp p (getStartId p) os.st.path
    rw [hpath]
    exact ⟨rfl, List.nodup_singleton _, List.chain'_singleton _⟩
  have hsubs : ∀ z ∈ IdaCall.curPath (.search { os.st with visited := [] } 0),
      z ∈ allIds p := by
    intro z hz
    rw [show IdaCall.curPath (.search { os.st with visited := [] } 0) =
      os.st.path from rfl, hpath] at hz
    rcases List.mem_singleton.mp hz with rfl
    exact start_mem_allIds p
  have hneed : idaNeed (degBound p) ((allIds p).dedup.length)
      (.search { os.st with visited := [] } 0) ≤ innerFuel := by
    show idaFuel (degBound p) ((allIds p).dedup.length - os.st.path.length) ≤
      innerFuel
    rw [hpath]
    exact le_trans (idaFuel_mono (degBound p) (by simp)) hinner
  have hsome := idaGo_sufficient sq p (getGoalId p) os.bound (getStartId p)
    innerFuel (.search { os.st with visited := [] } 0) hok hsubs hneed
  obtain ⟨⟨ret, st'⟩, heq⟩ := Option.isSome_iff_exists.mp hsome
  have heq' : idaSearch sq p (getGoalId p) os.bound innerFuel
      { os.st with visited := [] } 0 = some (ret, st') := heq
  cases ret with
  | found pth c =>
    right
    rw [idaOuterStep, heq']
    exact ⟨_, rfl⟩
  | cut t =>
    have hst' : st'.path = [getStartId p] := by
      rw [(idaGo_path sq p (getGoalId p) os.bound (getStartId p) innerFuel
        (.search { os.st with visited := [] } 0) hok (.cut t) st' heq).2 t rfl]
      exact hpath
    cases t with
    | none =>
      right
      rw [idaOuterStep, heq']
      exact ⟨_, rfl⟩
    | some t' =>
      left
      have hcutv := idaGo_cut sq p (getGoalId p) os.bound (getStartId p)
        innerFuel (.search { os.st with visited := [] } 0) hok hsubs
        (by
          show (0 : ℚ) ∈ chainSums p os.st.path
          rw [hpath]
          exact zero_mem_chainSums_single p (getStartId p)) st' t' heq
      refine ⟨{ bound := t', totalVisited := os.totalVisited + st'.visited.length,
                st := st' }, ?_, hst', ?_⟩
      · rw [idaOuterStep, heq']
      · rw [idaOuterMeasure, idaOuterMeasure]
        refine countP_strict _ _ _ ?_ t' hcutv.1 ?_ ?_
        · intro x _ hx
          rw [decide_eq_true_eq] at hx ⊢
          exact lt_trans hcutv.2 hx
        · rw [decide_eq_true_eq]
          exact hcutv.2
        · rw [decide_eq_false_iff_not]
          exact lt_irrefl t'

theorem runIDAStar_terminates (sq : ℚ → ℚ) (p : Problem) :
    ∃ outerFuel innerFuel, (runIDAStar sq p outerFuel innerFuel).isSome = true := by
  refine ⟨idaOuterMeasure sq p
    { bound := manhattanDistance sq (getStartId p) (getGoalId p) p,
      totalVisited := 0,
      st := { path := [getStartId p],
              gValues := NMap.empty.set (getStartId p) 0,
              hValues := NMap.empty.set (getStartId p)
                (manhattanDistance sq (getStartId p) (getGoalId p) p),
              fValues := NMap.empty.set (getStartId p)
                (manhattanDistance sq (getStartId p) (getGoalId p) p),
              parentMap := NMap.empty,
              steps := [createStep 0 (getStartId p) [getStartId p] [] NMap.empty
                (NMap.empty.set (getStartId p) 0)
                (NMap.empty.set (getStartId p)
                  (manhattanDistance sq (getStartId p) (getGoalId p) p))
                (NMap.empty.set (getStartId p)
                  (manhattanDistance sq (getStartId p) (getGoalId p) p))
                false false],
              stepNumber := 1, visited := [] } } + 1,
    idaFuel (degBound p) ((allIds p).dedup.length), ?_⟩
  rw [runIDAStar]
  refine iterate_terminates (idaOuterMeasure sq p)
    (idaOuterStep_term sq p _ (le_refl _)) _ ?_ _ (Nat.lt_succ_self _)
  rfl

/-- The closed set of algorithm selectors. -/
def algorithmTypes : List String :=
  ["bfs", "dfs", "ucs", "greedy", "astar", "hillClimbing", "beamSearch", "idaStar"]

/-- C8: for every selector outside the closed set of eight, `runAlgorithm`
fails with the "Unknown algorithm" error and never returns a result. -/
theorem runAlgorithm_unknown_selector_errors (alg : String) (h : alg ∉ algorithmTypes) :
    ∀ (sq : ℚ → ℚ) (p : Problem) (fuel : ℕ),
      runAlgorithm sq alg p fuel = .error ("Unknown algorithm: " ++ alg) := by
  intro sq p fuel
  simp only [algorithmTypes, List.mem_cons, List.not_mem_nil, or_false, not_or] at h
  obtain ⟨h1, h2, h3, h4, h5, h6, h7, h8⟩ := h
  unfold runAlgorithm
  split <;> simp_all

/-- Witness for C8 at the selector "dijkstra". -/
theorem runAlgorithm_unknown_selector_errors_witness :
    "dijkstra" ∉ algorithmTypes ∧
      runAlgorithm sq0 "dijkstra" grid3 1 = .error "Unknown algorithm: dijkstra" :=
  ⟨by decide, runAlgorithm_unknown_selector_errors "dijkstra" (by decide) sq0 grid3 1⟩

/-! ### C10: greedy, hill climbing and beam search record f = h -/

/-- The per-step property of C10. -/
def StepsFH (steps : List SearchStep) : Prop :=
  ∀ st ∈ steps, st.fValues = st.hValues

theorem stepsFH_append {steps : List SearchStep} {st : SearchStep}
    (h1 : StepsFH steps) (h2 : st.fValues = st.hValues) : StepsFH (steps ++ [st]) := by
  intro x hx
  rcases List.mem_append.mp hx with hx | hx
  · exact h1 x hx
  · rcases List.mem_singleton.mp hx with rfl
    exact h2

theorem greedyStep_fh_inl (sq : ℚ → ℚ) (p : Problem) (goalId : String)
    (s s' : GreedySt) (hInv : StepsFH s.steps)
    (h : greedyStep sq p goalId s = some (.inl s')) : StepsFH s'.steps := by
  rw [greedyStep] at h
  simp only [Option.some.injEq] at h
  split at h
  · exact absurd h (by simp)
  · split at h
    · cases h
      exact hInv
    · split at h
      · exact absurd h (by simp)
      · cases h
        exact stepsFH_append hInv rfl

theorem greedyStep_fh_inr (sq : ℚ → ℚ) (p : Problem) (goalId : String)
    (s : GreedySt) (r : SearchResult) (hInv : StepsFH s.steps)
    (h : greedyStep sq p goalId s = some (.inr r)) : StepsFH r.steps := by
  rw [greedyStep] at h
  simp only [Option.some.injEq] at h
  split at h
  · cases h
    exact hInv
  · split at h
    · exact absurd h (by simp)
    · split at h
      · cases h
        exact stepsFH_append hInv rfl
      · exact absurd h (by simp)

theorem hillStep_fh_inl (sq : ℚ → ℚ) (p : Problem) (goalId : String)
    (s s' : HillSt) (hInv : StepsFH s.steps)
    (h : hillStep sq p goalId s = some (.inl s')) : StepsFH s'.steps := by
  rw [hillStep] at h
  simp only [Option.some.injEq] at h
  split at h
  · exact absurd h (by simp)
  · split at h
    · exact absurd h (by simp)
    · split at h
      · exact absurd h (by simp)
      · cases h
        exact stepsFH_append hInv rfl

theorem hillStep_fh_inr (sq : ℚ → ℚ) (p : Problem) (goalId : String)
    (s : HillSt) (r : SearchResult) (hInv : StepsFH s.steps)
    (h : hillStep sq p goalId s = some (.inr r)) : StepsFH r.steps := by
  rw [hillStep] at h
  simp only [Option.some.injEq] at h
  split at h
  · cases h
    exact hInv
  · split at h
    · cases h
      exact stepsFH_append hInv rfl
    · split at h
      · cases h
        exact stepsFH_append hInv rfl
      · exact absurd h (by simp)

theorem beamStep_fh_inl (sq : ℚ → ℚ) (p : Problem) (goalId startId : String)
    (w : ℕ) (s s' : BeamSt) (hInv : StepsFH s.steps)
    (h : beamStep sq p goalId startId w s = some (.inl s')) : StepsFH s'.steps := by
  rw [beamStep] at h
  simp only [Option.some.injEq] at h
  split at h
  · exact absurd h (by simp)
  · split at h
    · exact absurd h (by simp)
    · split at h
      · exact absurd h (by simp)
      · cases h
        exact stepsFH_append hInv rfl

theorem beamStep_fh_inr (sq : ℚ → ℚ) (p : Problem) (goalId startId : String)
    (w : ℕ) (s : BeamSt) (r : SearchResult) (hInv : StepsFH s.steps)
    (h : beamStep sq p goalId startId w s = some (.inr r)) : StepsFH r.steps := by
  rw [beamStep] at h
  simp only [Option.some.injEq] at h
  split at h
  · cases h
    exact hInv
  · split at h
    · cases h
      exact stepsFH_append hInv rfl
    · split at h
      · cases h
        exact stepsFH_append hInv rfl
      · exact absurd h (by simp)

/-- C10: in every step recorded by greedy best-first, hill climbing, and beam
search, the recorded fValues map is the recorded hValues map. -/
theorem greedy_hill_beam_record_f_eq_h (sq : ℚ → ℚ) (p : Problem) (fuel : ℕ)
    (r : SearchResult) :
    (runGreedy sq p fuel = some r → StepsFH r.steps) ∧
    (runHillClimbing sq p fuel = some r → StepsFH r.steps) ∧
    (∀ w, runBeamSearch sq p w fuel = some r → StepsFH r.steps) := by
  refine ⟨?_, ?_, ?_⟩
  · intro h
    exact iterate_invariant
      (fun s s' hs hstep => greedyStep_fh_inl sq p (getGoalId p) s s' hs hstep)
      (fun s r' hs hstep => greedyStep_fh_inr sq p (getGoalId p) s r' hs hstep)
      fuel _ r (by intro st hst; rcases List.mem_singleton.mp hst with rfl; rfl) h
  · intro h
    exact iterate_invariant
      (fun s s' hs hstep => hillStep_fh_inl sq p (getGoalId p) s s' hs hstep)
      (fun s r' hs hstep => hillStep_fh_inr sq p (getGoalId p) s r' hs hstep)
      fuel _ r (by intro st hst; rcases List.mem_singleton.mp hst with rfl; rfl) h
  · intro w h
    exact iterate_invariant
      (fun s s' hs hstep => beamStep_fh_inl sq p (getGoalId p) (getStartId p) w s s' hs hstep)
      (fun s r' hs hstep => beamStep_fh_inr sq p (getGoalId p) (getStartId p) w s r' hs hstep)
      fuel _ r (by intro st hst; rcases List.mem_singleton.mp hst with rfl; rfl) h

/-! ### C7: the grid neighbor resolver -/

/-- The 3×3 grid with diagonal movement allowed. -/
def grid3diag : GridProblem :=
  { rows := 3, cols := 3, cells := mkCells 3 3 [] [],
    startRow := 0, startCol := 0, goalRow := 2, goalCol := 2, allowDiagonal := true }

/-- C7 counterexample: the resolver's cost for a diagonal move with target
weight 1 is the literal 1.414, which is not the square root of 2 the claim
names (1.414² = 1.999396 ≠ 2). -/
theorem grid_diagonal_cost_is_not_sqrt_two :
    ∃ c : ℚ, ("1-1", c) ∈ getGridNeighbors grid3diag "0-0" ∧
      ((c : ℝ) ≠ Real.sqrt 2 * ((1 : ℚ) : ℝ)) := by
  refine ⟨1414/1000, of_decide_eq_true (by with_unfolding_all rfl), ?_⟩
  intro h
  have h2 : (((1414/1000 : ℚ) : ℝ)) ^ 2 = 2 := by
    rw [h]
    rw [mul_pow]
    rw [Real.sq_sqrt (by norm_num)]
    norm_num
  norm_num at h2

/-- C7 (amended: diagonal factor 1.414, the code's literal, instead of √2):
for a decodable id, an entry is produced exactly for each direction offset of
the fixed order whose candidate cell is in bounds and whose (first matching)
cell record is not an obstacle, carrying the encoded candidate id and the
cost (1.414 if diagonal else 1) × target-cell weight; moreover the whole
list is obtained by scanning the fixed direction list in order, so the order
is the same on every call with the same diagonal flag. -/
theorem getGridNeighbors_characterization (p : GridProblem) (nodeId : String)
    (row col : ℕ) (hdec : idToGridCell nodeId = some (row, col)) :
    (∀ q cost, (q, cost) ∈ getGridNeighbors p nodeId ↔
      ∃ d ∈ gridDirections p.allowDiagonal,
        (0 ≤ (row : ℤ) + d.1 ∧ (row : ℤ) + d.1 < (p.rows : ℤ) ∧
         0 ≤ (col : ℤ) + d.2 ∧ (col : ℤ) + d.2 < (p.cols : ℤ)) ∧
        ∃ cell, p.cells.find?
            (fun cl => ((cl.row : ℤ) = (row : ℤ) + d.1 ∧ (cl.col : ℤ) = (col : ℤ) + d.2)) =
            some cell ∧
          cell.isObstacle = false ∧
          q = gridCellToId ((row : ℤ) + d.1).toNat ((col : ℤ) + d.2).toNat ∧
          cost = (if |d.1| + |d.2| = 2 then 1414/1000 else 1) * cell.weight) ∧
    getGridNeighbors p nodeId =
      (gridDirections p.allowDiagonal).filterMap (gridNeighborOfDir p row col) := by
  have hunfold : getGridNeighbors p nodeId =
      (gridDirections p.allowDiagonal).filterMap (gridNeighborOfDir p row col) := by
    rw [getGridNeighbors, hdec]
  refine ⟨?_, hunfold⟩
  intro q cost
  rw [hunfold, List.mem_filterMap]
  constructor
  · rintro ⟨d, hd, hfd⟩
    rw [gridNeighborOfDir_some_iff] at hfd
    exact ⟨d, hd, hfd.1, hfd.2⟩
  · rintro ⟨d, hd, hbounds, hcell⟩
    exact ⟨d, hd, (gridNeighborOfDir_some_iff p row col d q cost).mpr ⟨hbounds, hcell⟩⟩

/-- Witness for C7's amended characterization on the diagonal 3×3 grid. -/
theorem getGridNeighbors_characterization_witness :
    idToGridCell "0-0" = some (0, 0) ∧
      getGridNeighbors grid3diag "0-0" =
        (gridDirections true).filterMap (gridNeighborOfDir grid3diag 0 0) :=
  ⟨of_decide_eq_true (by with_unfolding_all rfl),
    (getGridNeighbors_characterization grid3diag "0-0" 0 0
      (of_decide_eq_true (by with_unfolding_all rfl))).2⟩

/-! ### C9: the heuristic -/

/-- Claim-side predicate: the id resolves in the problem (a grid id decodes
to an in-range cell; a graph id has a matching node). -/
def resolvableId (p : Problem) (nodeId : String) : Bool :=
  match p with
  | .grid g =>
    match idToGridCell nodeId with
    | some (r, c) => decide (r < g.rows) && decide (c < g.cols)
    | none => false
  | .graph g => (g.nodes.find? (fun n => n.id = nodeId)).isSome

/-- C9 counterexample: on the 3×3 grid, the id "5-0" is unresolvable (row 5
is out of range) yet the heuristic returns 5, not 0 — the zero default
exists only in the graph branch. -/
theorem manhattan_unresolvable_grid_id_nonzero :
    resolvableId grid3 "5-0" = false ∧
      manhattanDistance sq0 "5-0" "0-0" grid3 = 5 ∧ (5 : ℚ) ≠ 0 :=
  of_decide_eq_true (by with_unfolding_all rfl)

/-- C9 (amended): the heuristic is non-negative on every graph problem
(given that the square-root model is non-negative on non-negative inputs,
as JS `Math.sqrt` is) and on every pair of decodable grid ids, and it
returns 0 whenever either id is unresolvable in a graph problem; grid ids
are not checked against the grid, so no zero default applies there. -/
theorem manhattanDistance_nonneg_and_graph_default (sq : ℚ → ℚ)
    (hsq : ∀ x, 0 ≤ x → 0 ≤ sq x) :
    (∀ (g : GraphProblem) (a b : String), 0 ≤ manhattanDistance sq a b (.graph g)) ∧
    (∀ (g : GraphProblem) (a b : String),
      resolvableId (.graph g) a = false ∨ resolvableId (.graph g) b = false →
        manhattanDistance sq a b (.graph g) = 0) ∧
    (∀ (g : GridProblem) (a b : String) (ra ca rb cb : ℕ),
      idToGridCell a = some (ra, ca) → idToGridCell b = some (rb, cb) →
        0 ≤ manhattanDistance sq a b (.grid g)) := by
  refine ⟨?_, ?_, ?_⟩
  · intro g a b
    rw [manhattanDistance]
    cases hfa : g.nodes.find? (fun n => n.id = a) with
    | none => exact le_rfl
    | some cur =>
      cases hfb : g.nodes.find? (fun n => n.id = b) with
      | none => exact le_rfl
      | some goal =>
        have h1 : (0 : ℚ) ≤ (cur.x - goal.x) ^ 2 + (cur.y - goal.y) ^ 2 :=
          add_nonneg (sq_nonneg _) (sq_nonneg _)
        exact div_nonneg (hsq _ h1) (by norm_num)
  · intro g a b hres
    rw [manhattanDistance]
    cases hfa : g.nodes.find? (fun n => n.id = a) with
    | none => rfl
    | some na =>
      cases hfb : g.nodes.find? (fun n => n.id = b) with
      | none => rfl
      | some nb =>
        exfalso
        rw [resolvableId, resolvableId] at hres
        rcases hres with hres | hres
        · rw [hfa] at hres
          simp at hres
        · rw [hfb] at hres
          simp at hres
  · intro g a b ra ca rb cb ha hb
    rw [manhattanDistance, ha, hb]
    positivity

/-- Witness for C9's amended theorem, using the identity as a non-negative
square-root model. -/
theorem manhattanDistance_nonneg_and_graph_default_witness :
    (∀ x : ℚ, 0 ≤ x → 0 ≤ x) ∧
      0 ≤ manhattanDistance (fun x => x) "A" "B" graphUnreachable :=
  ⟨fun _ hx => hx,
    (manhattanDistance_nonneg_and_graph_default (fun x => x) (fun _ hx => hx)).1
      { nodes := [⟨"A", 0, 0, true, false⟩, ⟨"B", 0, 0, false, true⟩],
        edges := [], startNodeId := "A", goalNodeId := "B", isDirected := false } "A" "B"⟩

/-- Witness for C10: a greedy run on the plain 3×3 grid. -/
theorem greedy_hill_beam_record_f_eq_h_witness :
    ∃ r, runGreedy sq0 grid3 30 = some r ∧ StepsFH r.steps := by
  have hs : (runGreedy sq0 grid3 30).isSome = true := by rfl
  exact ⟨(runGreedy sq0 grid3 30).get hs, (Option.some_get hs).symm,
    (greedy_hill_beam_record_f_eq_h sq0 grid3 30 _).1 (Option.some_get hs).symm⟩

/-! ### C1: cost consistency -/

/-- Counterexample to C1 as stated: on the weighted 3×3 grid, BFS succeeds
with path `0-0, 0-1, 0-2` and reports `pathCost = 2` (the number of moves),
while every resolver cost assignment along that path sums to 6 (the second
move enters the weight-5 cell). -/
theorem bfs_pathCost_ignores_weights :
    ∃ r, runBFS gridWeighted 30 = some r ∧ r.success = true ∧
      r.finalPath = some ["0-0", "0-1", "0-2"] ∧ r.pathCost = some 2 ∧
      (∀ costs, CostChain gridWeighted ["0-0", "0-1", "0-2"] costs →
        costs.sum = 6) ∧
      (2 : ℚ) ≠ 6 := by
  have hs : (runBFS gridWeighted 30).isSome = true :=
    of_decide_eq_true (by with_unfolding_all rfl)
  refine ⟨(runBFS gridWeighted 30).get hs, (Option.some_get hs).symm,
    of_decide_eq_true (by with_unfolding_all rfl),
    of_decide_eq_true (by with_unfolding_all rfl),
    of_decide_eq_true (by with_unfolding_all rfl), ?_, by norm_num⟩
  intro costs hcc
  have hn0 : getNeighbors gridWeighted "0-0" = [("0-1", 1), ("1-0", 1)] :=
    of_decide_eq_true (by with_unfolding_all rfl)
  have hn1 : getNeighbors gridWeighted "0-1" = [("0-0", 1), ("0-2", 5), ("1-1", 1)] :=
    of_decide_eq_true (by with_unfolding_all rfl)
  cases hcc with
  | cons c hmem hrest =>
    cases hrest with
    | cons c' hmem' hrest' =>
      cases hrest' with
      | single =>
        rw [hn0] at hmem
        rw [hn1] at hmem'
        have hc : c = 1 := by
          rcases List.mem_cons.mp hmem with h | h
          · exact (Prod.mk.inj h).2
          · have h := List.mem_singleton.mp h
            exact absurd (Prod.mk.inj h).1 (by decide)
        have hc' : c' = 5 := by
          rcases List.mem_cons.mp hmem' with h | h
          · exact absurd (Prod.mk.inj h).1 (by decide)
          · rcases List.mem_cons.mp h with h | h
            · exact (Prod.mk.inj h).2
            · have h := List.mem_singleton.mp h
              exact absurd (Prod.mk.inj h).1 (by decide)
        subst hc
        subst hc'
        norm_num

/-- C1 (corrected): on problems whose ids are non-empty, successful UCS and
A* runs report a `pathCost` that is the sum of a resolver cost assignment
along the returned path (unique per ordered pair on grids, where distinct
directions reach distinct target ids); successful BFS runs instead report
`pathCost = path.length - 1`, ignoring cell weights and diagonal costs. -/
theorem cost_consistency (sq : ℚ → ℚ) (p : Problem) (hne : NoEmptyIds p)
    (fuel : ℕ) (r : SearchResult) :
    (runBFS p fuel = some r → r.success = true →
      ∃ pth, r.finalPath = some pth ∧ r.pathCost = some ((pth.length : ℚ) - 1)) ∧
    (runUCS p fuel = some r → r.success = true →
      ∃ pth costs, r.finalPath = some pth ∧ CostChain p pth costs ∧
        r.pathCost = some costs.sum) ∧
    (runAStar sq p fuel = some r → r.success = true →
      ∃ pth costs, r.finalPath = some pth ∧ CostChain p pth costs ∧
        r.pathCost = some costs.sum) ∧
    (∀ (g : GridProblem) (a b : String),
      ((getGridNeighbors g a).filter (fun n => n.1 = b)).length ≤ 1) :=
  ⟨fun h => runBFS_pathCost p fuel r h,
   fun h => runUCS_cost p hne fuel r h,
   fun h => runAStar_cost sq p hne fuel r h,
   fun g a b => length_filter_fst_le_one b _ (getGridNeighbors_fst_nodup g a)⟩

/-- Witness for C1's amended theorem: UCS on the weighted grid succeeds and
its reported cost 6 is the sum of a resolver cost assignment. -/
theorem cost_consistency_witness :
    ∃ r, runUCS gridWeighted 30 = some r ∧
      ∃ pth costs, r.finalPath = some pth ∧ CostChain gridWeighted pth costs ∧
        r.pathCost = some costs.sum := by
  have hs : (runUCS gridWeighted 30).isSome = true :=
    of_decide_eq_true (by with_unfolding_all rfl)
  refine ⟨(runUCS gridWeighted 30).get hs, (Option.some_get hs).symm, ?_⟩
  exact (cost_consistency sq0 gridWeighted (grid_noEmptyIds _) 30 _).2.1
    (Option.some_get hs).symm (of_decide_eq_true (by with_unfolding_all rfl))

/-! ### C2: path validity -/

/-- Counterexample to C2 as stated: on a graph whose start id is the empty
string, BFS succeeds and returns the path `["g"]`, whose first element is not
the start id (the reconstruction loop treats the falsy id `""` as a missing
node and drops it). -/
theorem path_validity_empty_id_breaks :
    ∃ r, runBFS graphEmptyId 30 = some r ∧ r.success = true ∧
      r.finalPath = some ["g"] ∧ getStartId graphEmptyId = "" ∧
      (["g"] : List String).head? ≠ some (getStartId graphEmptyId) := by
  have hs : (runBFS graphEmptyId 30).isSome = true :=
    of_decide_eq_true (by with_unfolding_all rfl)
  exact ⟨(runBFS graphEmptyId 30).get hs, (Option.some_get hs).symm,
    of_decide_eq_true (by with_unfolding_all rfl),
    of_decide_eq_true (by with_unfolding_all rfl), rfl, by decide⟩

/-- C2 (corrected): on problems whose start id is non-empty and whose
resolver never yields an empty neighbor id (every grid problem qualifies),
each of the eight algorithms returns, on success, a path whose consecutive
pairs are resolver neighbors, whose first element is the start id, whose
last element is the goal id, and in which no id repeats. -/
theorem path_validity (sq : ℚ → ℚ) (p : Problem) (hne : NoEmptyIds p)
    (beamWidth outerFuel innerFuel fuel : ℕ) (r : SearchResult) :
    (runBFS p fuel = some r → PathOk p (getStartId p) (getGoalId p) r) ∧
    (runDFS p fuel = some r → PathOk p (getStartId p) (getGoalId p) r) ∧
    (runUCS p fuel = some r → PathOk p (getStartId p) (getGoalId p) r) ∧
    (runGreedy sq p fuel = some r → PathOk p (getStartId p) (getGoalId p) r) ∧
    (runAStar sq p fuel = some r → PathOk p (getStartId p) (getGoalId p) r) ∧
    (runHillClimbing sq p fuel = some r → PathOk p (getStartId p) (getGoalId p) r) ∧
    (runBeamSearch sq p beamWidth fuel = some r →
      PathOk p (getStartId p) (getGoalId p) r) ∧
    (runIDAStar sq p outerFuel innerFuel = some r →
      PathOk p (getStartId p) (getGoalId p) r) :=
  ⟨runBFS_path p hne fuel r, runDFS_path p hne fuel r, runUCS_path p hne fuel r,
   runGreedy_path sq p hne fuel r, runAStar_path sq p hne fuel r,
   runHillClimbing_path sq p hne fuel r, runBeamSearch_path sq p hne beamWidth fuel r,
   runIDAStar_path sq p outerFuel innerFuel r⟩

/-- Witness for C2's amended theorem: the successful BFS run on the plain
3×3 grid yields a valid start-to-goal path. -/
theorem path_validity_witness :
    ∃ r, runBFS grid3 30 = some r ∧
      ∃ pth, r.finalPath = some pth ∧ pth.head? = some (getStartId grid3) ∧
        pth.getLast? = some (getGoalId grid3) ∧ pth.Nodup ∧
        List.Chain' (fun a b => ∃ c, (b, c) ∈ getNeighbors grid3 a) pth := by
  have hs : (runBFS grid3 30).isSome = true :=
    of_decide_eq_true (by with_unfolding_all rfl)
  refine ⟨(runBFS grid3 30).get hs, (Option.some_get hs).symm, ?_⟩
  exact (path_validity sq0 grid3 (grid_noEmptyIds _) 2 30 30 30 _).1
    (Option.some_get hs).symm (of_decide_eq_true (by with_unfolding_all rfl))

/-! ### C4: unreachable goal -/

/-- The reachable component of the walled grid's start, enumerated. -/
def gridWalledComp : List String := ["0-0", "0-1", "0-2", "1-0", "1-1", "2-0"]

/-- The enumerated component is closed under the resolver. -/
theorem gridWalledComp_closed : ∀ x ∈ gridWalledComp, ∀ y c,
    (y, c) ∈ getNeighbors gridWalled x → y ∈ gridWalledComp := by
  have hall : gridWalledComp.all
      (fun x => (getNeighbors gridWalled x).all
        (fun e => decide (e.1 ∈ gridWalledComp))) = true := by
    with_unfolding_all rfl
  intro x hx y c hmem
  have h1 := List.all_eq_true.mp hall x hx
  have h2 := List.all_eq_true.mp h1 (y, c) hmem
  exact of_decide_eq_true h2

theorem gridWalled_start_eq : getStartId gridWalled = "0-0" := by
  with_unfolding_all rfl

theorem gridWalled_goal_eq : getGoalId gridWalled = "2-2" := by
  with_unfolding_all rfl

/-- Everything reachable from the walled grid's start is in the enumerated
component. -/
theorem gridWalled_reach_sub : ∀ x,
    Reach gridWalled (getStartId gridWalled) x → x ∈ gridWalledComp := by
  intro x hx
  induction hx with
  | start =>
    rw [gridWalled_start_eq]
    decide
  | step c hr hmem ih =>
    exact gridWalledComp_closed _ ih _ _ hmem

/-- The walled grid's goal is unreachable from its start. -/
theorem gridWalled_unreach :
    ¬ Reach gridWalled (getStartId gridWalled) (getGoalId gridWalled) := by
  intro h
  have hmem := gridWalled_reach_sub _ h
  rw [gridWalled_goal_eq] at hmem
  exact absurd hmem (by decide)

/-- Every enumerated component member is reachable. -/
theorem gridWalledComp_reach : ∀ x ∈ gridWalledComp,
    Reach gridWalled (getStartId gridWalled) x := by
  have h00 : Reach gridWalled (getStartId gridWalled) "0-0" :=
    gridWalled_start_eq ▸ Reach.start
  have m01 : ("0-1", (1 : ℚ)) ∈ getNeighbors gridWalled "0-0" :=
    of_decide_eq_true (by with_unfolding_all rfl)
  have m02 : ("0-2", (1 : ℚ)) ∈ getNeighbors gridWalled "0-1" :=
    of_decide_eq_true (by with_unfolding_all rfl)
  have m10 : ("1-0", (1 : ℚ)) ∈ getNeighbors gridWalled "0-0" :=
    of_decide_eq_true (by with_unfolding_all rfl)
  have m11 : ("1-1", (1 : ℚ)) ∈ getNeighbors gridWalled "0-1" :=
    of_decide_eq_true (by with_unfolding_all rfl)
  have m20 : ("2-0", (1 : ℚ)) ∈ getNeighbors gridWalled "1-0" :=
    of_decide_eq_true (by with_unfolding_all rfl)
  have h01 := Reach.step 1 h00 m01
  have h10 := Reach.step 1 h00 m10
  intro x hx
  simp only [gridWalledComp, List.mem_cons, List.not_mem_nil, or_false] at hx
  rcases hx with rfl | rfl | rfl | rfl | rfl | rfl
  · exact h00
  · exact h01
  · exact Reach.step 1 h01 m02
  · exact h10
  · exact Reach.step 1 h01 m11
  · exact Reach.step 1 h10 m20

/-- Counterexample to C4 as stated: on the 3×3 grid whose goal (2,2) is
walled off, the reachable component of the start has six nodes, but Hill
Climbing fails after visiting only three (it stops as soon as no neighbor
strictly improves the heuristic). -/
theorem hill_climbing_misses_component_count :
    ¬ Reach gridWalled (getStartId gridWalled) (getGoalId gridWalled) ∧
    ∃ r, runHillClimbing sq0 gridWalled 30 = some r ∧ r.success = false ∧
      r.nodesVisited = 3 ∧ gridWalledComp.Nodup ∧
      (∀ x, x ∈ gridWalledComp ↔ Reach gridWalled (getStartId gridWalled) x) ∧
      gridWalledComp.length = 6 ∧ (3 : ℕ) ≠ 6 := by
  have hs : (runHillClimbing sq0 gridWalled 30).isSome = true :=
    of_decide_eq_true (by with_unfolding_all rfl)
  refine ⟨gridWalled_unreach, (runHillClimbing sq0 gridWalled 30).get hs,
    (Option.some_get hs).symm,
    of_decide_eq_true (by with_unfolding_all rfl),
    of_decide_eq_true (by with_unfolding_all rfl),
    by decide, ?_, by decide, by decide⟩
  intro x
  exact ⟨gridWalledComp_reach x, gridWalled_reach_sub x⟩

/-- C4 (corrected): on a grid problem whose goal is outside the reachable
component of the start, the five systematic algorithms (BFS, DFS, UCS,
Greedy, A*) fail with no path, no cost, a non-empty trace and a
nodesVisited count that enumerates the reachable component exactly; Hill
Climbing, Beam Search and IDA* also fail with no path, no cost and a
non-empty trace, but their nodesVisited need not equal the component
size. -/
theorem unreachable_goal_exhaustion (sq : ℚ → ℚ) (g : GridProblem)
    (hunreach : ¬ Reach (.grid g) (getStartId (.grid g)) (getGoalId (.grid g)))
    (beamWidth outerFuel innerFuel fuel : ℕ) (r : SearchResult) :
    (runBFS (.grid g) fuel = some r → ExhaustOk (.grid g) (getStartId (.grid g)) r) ∧
    (runDFS (.grid g) fuel = some r → ExhaustOk (.grid g) (getStartId (.grid g)) r) ∧
    (runUCS (.grid g) fuel = some r → ExhaustOk (.grid g) (getStartId (.grid g)) r) ∧
    (runGreedy sq (.grid g) fuel = some r →
      ExhaustOk (.grid g) (getStartId (.grid g)) r) ∧
    (runAStar sq (.grid g) fuel = some r →
      ExhaustOk (.grid g) (getStartId (.grid g)) r) ∧
    (runHillClimbing sq (.grid g) fuel = some r → FailOk r) ∧
    (runBeamSearch sq (.grid g) beamWidth fuel = some r → FailOk r) ∧
    (runIDAStar sq (.grid g) outerFuel innerFuel = some r → FailOk r) :=
  ⟨runBFS_exhaust _ hunreach fuel r, runDFS_exhaust _ hunreach fuel r,
   runUCS_exhaust _ hunreach fuel r, runGreedy_exhaust sq _ hunreach fuel r,
   runAStar_exhaust sq _ hunreach fuel r, runHillClimbing_fail sq _ hunreach fuel r,
   runBeamSearch_fail sq _ (grid_noEmptyIds g).2 hunreach beamWidth fuel r,
   runIDAStar_fail sq _ hunreach outerFuel innerFuel r⟩

/-- Witness for C4's amended theorem: BFS on the walled grid exhausts the
six-node component. -/
theorem unreachable_goal_exhaustion_witness :
    ∃ r, runBFS gridWalled 30 = some r ∧
      ExhaustOk gridWalled (getStartId gridWalled) r := by
  have hs : (runBFS gridWalled 30).isSome = true :=
    of_decide_eq_true (by with_unfolding_all rfl)
  refine ⟨(runBFS gridWalled 30).get hs, (Option.some_get hs).symm, ?_⟩
  exact (unreachable_goal_exhaustion sq0
    ⟨3, 3, mkCells 3 3 [(1, 2), (2, 1)] [], 0, 0, 2, 2, false⟩
    gridWalled_unreach 2 30 30 30 _).1 (Option.some_get hs).symm

/-- C5: on every problem (which is finite by construction: a bounded grid or
explicit node and edge lists), each of the eight algorithm loops terminates:
some finite fuel makes the run return a result rather than exhaust.  For
IDA* this covers both loops: the inner recursion is bounded because the
current-path cycle guard keeps the path duplicate-free inside the finite id
universe, and the outer loop strictly increases its bound through the finite
list of f-values of simple paths (or stops at an infinite bound). -/
theorem all_algorithms_terminate (sq : ℚ → ℚ) (p : Problem) (beamWidth : ℕ) :
    (∃ fuel, (runBFS p fuel).isSome = true) ∧
    (∃ fuel, (runDFS p fuel).isSome = true) ∧
    (∃ fuel, (runUCS p fuel).isSome = true) ∧
    (∃ fuel, (runGreedy sq p fuel).isSome = true) ∧
    (∃ fuel, (runAStar sq p fuel).isSome = true) ∧
    (∃ fuel, (runHillClimbing sq p fuel).isSome = true) ∧
    (∃ fuel, (runBeamSearch sq p beamWidth fuel).isSome = true) ∧
    (∃ outerFuel innerFuel, (runIDAStar sq p outerFuel innerFuel).isSome = true) :=
  ⟨runBFS_terminates p, runDFS_terminates p, runUCS_terminates p,
   runGreedy_terminates sq p, runAStar_terminates sq p,
   runHillClimbing_terminates sq p, runBeamSearch_terminates sq p beamWidth,
   runIDAStar_terminates sq p⟩

end SearchViz
